import Mathlib

/-!
Verification development for the `cache` package.

Shallow embedding of `lru_cache.go`, `utils.go`, `types.go` and `cache.go`.

Modelling conventions
* Go `int` is taken to be 64 bits wide (amd64 / arm64).  An `int` is an `Int`;
  results of `int` arithmetic are wrapped by `wrapInt`, the conversion
  `uint64(x)` is `toUint64`.  A `uint64` is a `Nat`, and `+=` / `-=` on it are
  `addU64` / `subU64`, which reduce modulo `2^64`.
* An `interface{}` value is a `GoValue`; the type assertion `value.(Value)`
  followed by `Size()` is `GoValue.Size?`.
* `container/list` is modelled with explicit element addresses: `heap` gives the
  `*entry` held by the element at an address, `list` is the sequence of linked
  element addresses (front first), and the `table` maps a key to an address.
* `time.Now()` is an explicit argument `now`.
* A Go run-time failure (nil dereference, index out of range, `panic`) is `none`.
-/

namespace Cache

/-! ## Machine integers -/

/-- Conversion `uint64(x)` of a 64-bit `int`. -/
def toUint64 (x : Int) : Nat := (x % ((2 ^ 64 : Nat) : Int)).toNat

/-- Two's complement wrap-around of the result of an `int` operation. -/
def wrapInt (x : Int) : Int :=
  (x + ((2 ^ 63 : Nat) : Int)) % ((2 ^ 64 : Nat) : Int) - ((2 ^ 63 : Nat) : Int)

/-- The `uint64` sum `a + b`. -/
def addU64 (a b : Nat) : Nat := (a + b) % 2 ^ 64

/-- The `uint64` difference `a - b`. -/
def subU64 (a b : Nat) : Nat := (a + (2 ^ 64 - b % 2 ^ 64)) % 2 ^ 64

/-! ## Values, finalizers and entries (`types.go`) -/

/-- An `interface{}` value: `nil`, a value without a `Size` method, or a value
implementing the `Value` interface whose `Size()` returns `size`. -/
inductive GoValue where
  | nil
  | plain (tag : Nat)
  | sized (tag : Nat) (size : Int)
  deriving DecidableEq, Repr

/-- The type assertion `value.(Value)` followed by the call `Size()`. -/
def GoValue.Size? : GoValue → Option Int
  | .sized _ n => some n
  | _ => none

/-- The `Finalizer interface{}` argument of `Store`, by dynamic type: `nil`,
`func()`, `func(x interface{})`, `func(x Value)`, or anything else.  An interface
holding a function type is not `nil` even when the function value it holds is
(`var f func()`): `nilFunc0`, `nilFuncAny` and `nilFuncValue` are those values,
the other three hold the function `id`. -/
inductive Finalizer where
  | nil
  | func0 (id : Nat)
  | funcAny (id : Nat)
  | funcValue (id : Nat)
  | nilFunc0
  | nilFuncAny
  | nilFuncValue
  | other (id : Nat)
  deriving DecidableEq, Repr

/-- The struct `entry` of `types.go`; the defaults are the Go zero values. -/
structure entry where
  key : String := ""
  value : GoValue := GoValue.nil
  size : Int := 0
  finalizer : Finalizer := Finalizer.nil
  timeExpiration : Int := 0
  timeAccessed : Int := 0
  deriving DecidableEq, Repr

/-- The struct `Item` of `types.go`. -/
structure Item where
  Key : String
  Value : GoValue
  Size : Int
  deriving DecidableEq, Repr

/-! ## `utils.go` -/

/-- The function `adjustValueSize` of `utils.go`. -/
def adjustValueSize (value : GoValue) (size : Int) : Int :=
  if size ≤ 0 then
    match value.Size? with
    | some n => n
    | none => size
  else size

/-! ## The LRU cache (`lru_cache.go`) -/

/-- The struct `LRUCache`.  `heap a` is the `*entry` stored in the list element at
address `a`, `list` holds the addresses of the linked elements from front to
back, `alloc` is the next unused element address. -/
structure LRUCache where
  heap : Nat → entry
  list : List Nat
  table : String → Option Nat
  size : Nat
  capacity : Nat
  alloc : Nat

/-- The constructor `NewLRUCache`. -/
def NewLRUCache (capacity : Nat) : LRUCache :=
  { heap := fun _ => {}, list := [], table := fun _ => none,
    size := 0, capacity := capacity, alloc := 0 }

namespace LRUCache

/-- The method `moveToFront`: `list.MoveToFront` leaves the list alone when the
element is not linked in it; the access time is written through the pointer. -/
def moveToFront (lru : LRUCache) (element : Nat) (now : Int) : LRUCache :=
  { lru with
    list := if element ∈ lru.list then element :: lru.list.erase element else lru.list
    heap := Function.update lru.heap element { lru.heap element with timeAccessed := now } }

/-- One iteration of the loop body of `checkCapacity` for the back element. -/
def evictBack (lru : LRUCache) (delElem : Nat) : LRUCache :=
  let delValue := lru.heap delElem
  { lru with
    list := lru.list.erase delElem
    table := Function.update lru.table delValue.key none
    size := subU64 lru.size (toUint64 delValue.size) }

/-- The loop of `checkCapacity`, at most `fuel + 1` tests of the loop condition.
`list.Back()` is `nil` on an empty list and the dereference then fails. -/
def checkCapacityLoop : Nat → LRUCache → Option LRUCache
  | 0, lru => if lru.size > lru.capacity then none else some lru
  | fuel + 1, lru =>
    if lru.size > lru.capacity then
      match lru.list.getLast? with
      | none => none
      | some delElem => checkCapacityLoop fuel (lru.evictBack delElem)
    else some lru

/-- The method `checkCapacity`: every iteration unlinks one element, so the
length of the list bounds the number of iterations. -/
def checkCapacity (lru : LRUCache) : Option LRUCache :=
  checkCapacityLoop lru.list.length lru

/-- The method `updateInplace`. -/
def updateInplace (lru : LRUCache) (element : Nat) (value : GoValue) (size : Int)
    (now : Int) : Option LRUCache :=
  let sizeDiff := wrapInt (size - (lru.heap element).size)
  let lru1 : LRUCache :=
    { lru with
      heap := Function.update lru.heap element
        { lru.heap element with value := value, size := size }
      size := addU64 lru.size (toUint64 sizeDiff) }
  (lru1.moveToFront element now).checkCapacity

/-- The method `addNew`. -/
def addNew (lru : LRUCache) (key : String) (value : GoValue) (size : Int)
    (now : Int) : Option LRUCache :=
  let newEntry : entry := { key := key, value := value, size := size, timeAccessed := now }
  let element := lru.alloc
  checkCapacity
    { lru with
      heap := Function.update lru.heap element newEntry
      list := element :: lru.list
      alloc := lru.alloc + 1
      table := Function.update lru.table key (some element)
      size := addU64 lru.size (toUint64 newEntry.size) }

/-- The method `Get`. -/
def Get (lru : LRUCache) (key : String) (now : Int) : (GoValue × Bool) × LRUCache :=
  match lru.table key with
  | none => ((GoValue.nil, false), lru)
  | some element =>
    let lru1 := lru.moveToFront element now
    (((lru1.heap element).value, true), lru1)

/-- The method `Set`. -/
def Set (lru : LRUCache) (key : String) (value : GoValue) (size : Int) (now : Int) :
    Option LRUCache :=
  let size := adjustValueSize value size
  match lru.table key with
  | some element => lru.updateInplace element value size now
  | none => lru.addNew key value size now

/-- The method `SetIfAbsent`. -/
def SetIfAbsent (lru : LRUCache) (key : String) (value : GoValue) (size : Int) (now : Int) :
    Option LRUCache :=
  let size := adjustValueSize value size
  match lru.table key with
  | some element => some (lru.moveToFront element now)
  | none => lru.addNew key value size now

/-- The method `Take`. -/
def Take (lru : LRUCache) (key : String) : (GoValue × Bool) × LRUCache :=
  match lru.table key with
  | none => ((GoValue.nil, false), lru)
  | some element =>
    (((lru.heap element).value, true),
      { lru with
        list := lru.list.erase element
        table := Function.update lru.table key none
        size := subU64 lru.size (toUint64 (lru.heap element).size) })

/-- The method `Delete`. -/
def Delete (lru : LRUCache) (key : String) : Bool × LRUCache :=
  match lru.table key with
  | none => (false, lru)
  | some element =>
    (true,
      { lru with
        list := lru.list.erase element
        table := Function.update lru.table key none
        size := subU64 lru.size (toUint64 (lru.heap element).size) })

/-- The method `Clear`. -/
def Clear (lru : LRUCache) : LRUCache :=
  { lru with list := [], table := fun _ => none, size := 0 }

/-- The method `SetCapacity`. -/
def SetCapacity (lru : LRUCache) (capacity : Nat) : Option LRUCache :=
  checkCapacity { lru with capacity := capacity }

/-- The method `Stats`: length, size, capacity and the access time of the back
element (the zero time on an empty list). -/
def Stats (lru : LRUCache) : Nat × Nat × Nat × Int :=
  let oldest : Int :=
    match lru.list.getLast? with
    | some lastElem => (lru.heap lastElem).timeAccessed
    | none => 0
  (lru.list.length, lru.size, lru.capacity, oldest)

/-- The method `Keys`. -/
def Keys (lru : LRUCache) : List String :=
  lru.list.map fun e => (lru.heap e).key

/-- The method `Items`. -/
def Items (lru : LRUCache) : List Item :=
  lru.list.map fun e =>
    let v := lru.heap e
    { Key := v.key, Value := v.value, Size := v.size }

end LRUCache

/-! ## The pool cache (`cache.go`) -/

/-- A Go map from keys to stacks of entries: `none` is the nil map, `some m` a map
whose lookup function is `m`. -/
abbrev Table := Option (String → Option (List entry))

/-- Indexing `table[k]` with the comma-ok form; a nil map holds no key. -/
def Table.get (t : Table) (k : String) : Option (List entry) :=
  match t with
  | none => none
  | some m => m k

/-- The statement `delete(table, k)`; it does nothing on a nil map. -/
def Table.delete (t : Table) (k : String) : Table :=
  match t with
  | none => none
  | some m => some (Function.update m k none)

/-- The assignment `table[k] = v`; it fails on a nil map. -/
def Table.set (t : Table) (k : String) (v : List entry) : Option Table :=
  match t with
  | none => none
  | some m => some (some (Function.update m k (some v)))

/-- The struct `cache`, without its lock and janitor. -/
structure cache where
  defaultExpiration : Int
  table : Table

/-- The duration `time.Second`, in nanoseconds. -/
def Second : Int := 1000000000

/-- The table and default expiration built by `NewCache`. -/
def NewCache (defaultExpiration cleanupInterval : Int) : cache × Int :=
  let defaultExpiration := if defaultExpiration ≤ 0 then Second * 30 else defaultExpiration
  let cleanupInterval := if cleanupInterval ≤ 0 then Second * 1 else cleanupInterval
  ({ defaultExpiration := defaultExpiration, table := some fun _ => none }, cleanupInterval)

/-- One call of a stored finalizer: `f()`, `f(x)` for `func(x interface{})`, or
`f(x)` for `func(x Value)`. -/
inductive FinalizerCall where
  | func0 (id : Nat)
  | funcAny (id : Nat) (x : GoValue)
  | funcValue (id : Nat) (x : GoValue)
  deriving DecidableEq, Repr

/-- The method `Expired`, with `time.Now()` reading `now`. -/
def entry.Expired (i : entry) (now : Int) : Bool :=
  decide (i.timeExpiration < now)

/-- The method `Finalize`: the entry as it is left and the calls made.  The type
assertion `i.value.(Value)` fails for a value without `Size`, and the call of a
nil function value fails, both after the stored finalizer has been cleared; the
last branch is `panic("not reachable")`. -/
def entry.Finalize (i : entry) : Option (entry × List FinalizerCall) :=
  match i.finalizer with
  | Finalizer.nil => some (i, [])
  | Finalizer.func0 id =>
    some ({ i with finalizer := Finalizer.nil }, [FinalizerCall.func0 id])
  | Finalizer.nilFunc0 => none
  | Finalizer.funcAny id =>
    some ({ i with finalizer := Finalizer.nil }, [FinalizerCall.funcAny id i.value])
  | Finalizer.nilFuncAny => none
  | Finalizer.funcValue id =>
    match i.value.Size? with
    | some _ => some ({ i with finalizer := Finalizer.nil }, [FinalizerCall.funcValue id i.value])
    | none => none
  | Finalizer.nilFuncValue => none
  | Finalizer.other _ => none

namespace cache

/-- The method `Fetch`.  Indexing `table[len(table)-1]` of an empty slice fails. -/
def Fetch (c : cache) (k : String) : Option ((GoValue × Bool) × cache) :=
  match c.table.get k with
  | none => some ((GoValue.nil, false), c)
  | some table =>
    match table.getLast? with
    | none => none
    | some last =>
      let table := table.dropLast
      if table.length = 0 then
        some ((last.value, true), { c with table := c.table.delete k })
      else
        match c.table.set k table with
        | none => none
        | some t => some ((last.value, true), { c with table := t })

/-- The method `Store`.  It panics on a non-nil finalizer of unrecognised type,
and on the assignment into a nil map; the error value is the cache at the moment
of the panic, which is raised before any write to the table. -/
def Store (c : cache) (k : String) (x : GoValue) (Finalizer : Finalizer) (now : Int) :
    Except cache cache :=
  let table : List entry :=
    match c.table.get k with
    | some t => t
    | none => []
  let it : entry := { value := x, timeExpiration := now + c.defaultExpiration }
  let checked : Option entry :=
    match Finalizer with
    | .nil => some it
    | .func0 _ => some { it with finalizer := Finalizer }
    | .funcAny _ => some { it with finalizer := Finalizer }
    | .funcValue _ => some { it with finalizer := Finalizer }
    | .nilFunc0 => some { it with finalizer := Finalizer }
    | .nilFuncAny => some { it with finalizer := Finalizer }
    | .nilFuncValue => some { it with finalizer := Finalizer }
    | .other _ => none
  match checked with
  | none => Except.error c
  | some it =>
    match c.table.set k (table ++ [it]) with
    | none => Except.error c
    | some t => Except.ok { c with table := t }

/-- The inner loop of `Flush` on the stack of one key, from index `i`: the stack
left, the finalizer calls made, and whether `changedItems[k]` was assigned.  Every
iteration either advances `i` or shortens the stack, so `len(table) - i` bounds
the number of iterations.  The stack is not empty where its last element is
read, so the default of `getLastD` is never used. -/
def flushStack (now : Int) : Nat → Nat → List entry →
    Option (List entry × List FinalizerCall × Bool)
  | 0, _, table => some (table, [], false)
  | fuel + 1, i, table =>
    match table[i]? with
    | none => some (table, [], false)
    | some e =>
      if e.Expired now then
        match e.Finalize with
        | none => none
        | some (_, calls) =>
          match flushStack now fuel i ((table.set i (table.getLastD e)).dropLast) with
          | none => none
          | some (table1, rest, _) => some (table1, calls ++ rest, true)
      else flushStack now fuel (i + 1) table

/-- The first loop of `Flush` over the keys in the order the runtime ranges over
the map: the assignments made to `changedItems` and the finalizer calls. -/
def flushKeys (now : Int) (m : String → Option (List entry)) :
    List String → Option (List (String × List entry) × List FinalizerCall)
  | [] => some ([], [])
  | k :: ks =>
    match m k with
    | none => flushKeys now m ks
    | some table =>
      match flushStack now table.length 0 table with
      | none => none
      | some (table1, calls, changed) =>
        match flushKeys now m ks with
        | none => none
        | some (changedItems, rest) =>
          some (if changed then (k, table1) :: changedItems else changedItems, calls ++ rest)

/-- The second loop of `Flush`, over `changedItems`. -/
def applyChanged (m : String → Option (List entry)) :
    List (String × List entry) → String → Option (List entry)
  | [] => m
  | (k, table) :: rest =>
    if table.length = 0 then applyChanged (Function.update m k none) rest
    else applyChanged (Function.update m k (some table)) rest

/-- The method `Flush`.  `order` lists the keys in the order the runtime ranges
over `c.table`, and every clock reading of the sweep returns `now`. -/
def Flush (c : cache) (order : List String) (now : Int) :
    Option (cache × List FinalizerCall) :=
  match c.table with
  | none => some (c, [])
  | some m =>
    match flushKeys now m order with
    | none => none
    | some (changedItems, calls) =>
      some ({ c with table := some (applyChanged m changedItems) }, calls)

/-- The inner loop of `Clean` on the stack of one key. -/
def finalizeAll : List entry → Option (List FinalizerCall)
  | [] => some []
  | e :: es =>
    match e.Finalize with
    | none => none
    | some (_, calls) =>
      match finalizeAll es with
      | none => none
      | some rest => some (calls ++ rest)

/-- The outer loop of `Clean` over the keys in the order the runtime ranges over
the map. -/
def cleanKeys (m : String → Option (List entry)) : List String → Option (List FinalizerCall)
  | [] => some []
  | k :: ks =>
    match m k with
    | none => cleanKeys m ks
    | some table =>
      match finalizeAll table with
      | none => none
      | some calls =>
        match cleanKeys m ks with
        | none => none
        | some rest => some (calls ++ rest)

/-- The method `Clean`; it leaves the nil map in `c.table`. -/
def Clean (c : cache) (order : List String) : Option (cache × List FinalizerCall) :=
  match c.table with
  | none => some ({ c with table := none }, [])
  | some m =>
    match cleanKeys m order with
    | none => none
    | some calls => some ({ c with table := none }, calls)

end cache

/-! ## Invariants and call sequences of the LRU cache -/

/-- Sum of the entry sizes held by the elements at the given addresses. -/
def sumSizes (heap : Nat → entry) (l : List Nat) : Int :=
  (l.map fun a => (heap a).size).sum

/-- Representation invariant of an LRU state: the linked elements are distinct,
the table indexes exactly the linked elements by the key of their entry, linked
addresses have been allocated, and the tracked size is the sum of the entry
sizes reduced modulo `2^64`. -/
structure LRUCache.WF (s : LRUCache) : Prop where
  nodup : s.list.Nodup
  index : ∀ k a, s.table k = some a ↔ a ∈ s.list ∧ (s.heap a).key = k
  fresh : ∀ a ∈ s.list, a < s.alloc
  size_eq : s.size = toUint64 (sumSizes s.heap s.list)

/-- A call of one public method of `LRUCache`, with the clock reading it sees. -/
inductive Call where
  | Get (key : String) (now : Int)
  | Set (key : String) (value : GoValue) (size : Int) (now : Int)
  | SetIfAbsent (key : String) (value : GoValue) (size : Int) (now : Int)
  | Take (key : String)
  | Delete (key : String)
  | Clear
  | SetCapacity (capacity : Nat)
  deriving DecidableEq, Repr

/-- The state left by one call; `none` when the call fails at run time. -/
def LRUCache.step (s : LRUCache) : Call → Option LRUCache
  | Call.Get key now => some (s.Get key now).2
  | Call.Set key value size now => s.Set key value size now
  | Call.SetIfAbsent key value size now => s.SetIfAbsent key value size now
  | Call.Take key => some (s.Take key).2
  | Call.Delete key => some (s.Delete key).2
  | Call.Clear => some s.Clear
  | Call.SetCapacity capacity => s.SetCapacity capacity

/-- The state left by a sequence of calls. -/
def LRUCache.run (s : LRUCache) : List Call → Option LRUCache
  | [] => some s
  | c :: cs => (s.step c).bind fun s1 => LRUCache.run s1 cs

/-- States reachable from `NewLRUCache` through the public methods. -/
inductive Reachable : LRUCache → Prop where
  | init (capacity : Nat) : Reachable (NewLRUCache capacity)
  | step {s s1 : LRUCache} (c : Call) : Reachable s → s.step c = some s1 → Reachable s1

/-- Well-formed states whose entry sizes are non-negative and add up to less
than `2^64`, so that the tracked size is the exact sum. -/
structure LRUCache.Exact (s : LRUCache) : Prop where
  wf : s.WF
  nonneg : ∀ a ∈ s.list, 0 ≤ (s.heap a).size
  bound : sumSizes s.heap s.list < 18446744073709551616

/-- The size a call records is non-negative and adding it to the tracked size
stays below `2^64`; calls that record no size are always accepted. -/
def LRUCache.callOk (s : LRUCache) : Call → Bool
  | Call.Set _ value size _ =>
    decide (0 ≤ adjustValueSize value size ∧
      (s.size : Int) + adjustValueSize value size < 18446744073709551616)
  | Call.SetIfAbsent key value size _ =>
    (s.table key).isSome ||
      decide (0 ≤ adjustValueSize value size ∧
        (s.size : Int) + adjustValueSize value size < 18446744073709551616)
  | _ => true

/-- Every call of the sequence satisfies `callOk` in the state it is made in. -/
def LRUCache.admissible (s : LRUCache) : List Call → Bool
  | [] => true
  | c :: cs =>
    s.callOk c &&
      match s.step c with
      | some s1 => LRUCache.admissible s1 cs
      | none => true

/-- The state reached from `NewLRUCache capacity` by a sequence of calls (the
initial state when a call of the sequence fails). -/
def LRUCache.after (capacity : Nat) (calls : List Call) : LRUCache :=
  ((NewLRUCache capacity).run calls).getD (NewLRUCache capacity)

/-- The insertions of `TestLRUIsEvicted`: three values whose `Size()` is 1. -/
def fillThree : List Call :=
  [Call.Set "key1" (GoValue.sized 1 1) 0 0, Call.Set "key2" (GoValue.sized 2 1) 0 1,
    Call.Set "key3" (GoValue.sized 3 1) 0 2]

/-! ## Call sequences and invariants of the pool cache -/

/-- The list `order` enumerates the keys of the map once each: a possible order
of a `range` over the map. -/
def KeyOrder (m : String → Option (List entry)) (order : List String) : Prop :=
  order.Nodup ∧ ∀ k, k ∈ order ↔ m k ≠ none

/-- A call of one public method of the pool cache, with the clock reading and
the map iteration order it sees. -/
inductive PoolCall where
  | Store (k : String) (x : GoValue) (f : Finalizer) (now : Int)
  | Fetch (k : String)
  | Flush (order : List String) (now : Int)
  | Clean (order : List String)
  deriving DecidableEq, Repr

/-- What a call of the pool cache lets the outside observe: the pair returned by
`Fetch`, or a call of a stored finalizer. -/
inductive PoolEvent where
  | fetched (v : GoValue) (ok : Bool)
  | finalized (call : FinalizerCall)
  deriving DecidableEq, Repr

/-- The state left and the events produced by one call; `none` when it panics. -/
def cache.step (c : cache) : PoolCall → Option (cache × List PoolEvent)
  | PoolCall.Store k x f now =>
    match c.Store k x f now with
    | Except.ok c1 => some (c1, [])
    | Except.error _ => none
  | PoolCall.Fetch k =>
    match c.Fetch k with
    | none => none
    | some (r, c1) => some (c1, [PoolEvent.fetched r.1 r.2])
  | PoolCall.Flush order now =>
    match c.Flush order now with
    | none => none
    | some (c1, calls) => some (c1, calls.map PoolEvent.finalized)
  | PoolCall.Clean order =>
    match c.Clean order with
    | none => none
    | some (c1, calls) => some (c1, calls.map PoolEvent.finalized)

/-- The state left and the events produced by a sequence of calls. -/
def cache.run (c : cache) : List PoolCall → Option (cache × List PoolEvent)
  | [] => some (c, [])
  | call :: calls =>
    match c.step call with
    | none => none
    | some (c1, evs) =>
      match cache.run c1 calls with
      | none => none
      | some (c2, rest) => some (c2, evs ++ rest)

/-- The iteration order a `Flush` or `Clean` call carries is an order of the keys
of the table the call finds. -/
def cache.validCall (c : cache) : PoolCall → Prop
  | PoolCall.Flush order _ => ∀ m, c.table = some m → KeyOrder m order
  | PoolCall.Clean order => ∀ m, c.table = some m → KeyOrder m order
  | _ => True

/-- Every call of the sequence is valid in the state it is made in. -/
def cache.validRun (c : cache) : List PoolCall → Prop
  | [] => True
  | call :: calls =>
    c.validCall call ∧ ∀ c1 evs, c.step call = some (c1, evs) → cache.validRun c1 calls

/-- States of the pool cache reachable from `NewCache` through the public methods. -/
inductive PoolReachable : cache → Prop where
  | init (defaultExpiration cleanupInterval : Int) :
    PoolReachable (NewCache defaultExpiration cleanupInterval).1
  | step {c c1 : cache} {evs : List PoolEvent} (call : PoolCall) :
    PoolReachable c → c.validCall call → c.step call = some (c1, evs) → PoolReachable c1

/-- No key of the table maps to an empty stack. -/
def cache.NoEmptyStack (c : cache) : Prop :=
  ∀ m k t, c.table = some m → m k = some t → t ≠ []

/-- The call `Finalize` makes for an entry stored with finalizer `f` and value
`x`, if it makes one. -/
def finalizerCallOf (f : Finalizer) (x : GoValue) : Option FinalizerCall :=
  match f with
  | Finalizer.func0 id => some (FinalizerCall.func0 id)
  | Finalizer.funcAny id => some (FinalizerCall.funcAny id x)
  | Finalizer.funcValue id => some (FinalizerCall.funcValue id x)
  | _ => none

/-- Number of `Store` calls in a sequence whose entry would be finalized by the
call `fc`. -/
def storesOf (fc : FinalizerCall) : List PoolCall → Nat
  | [] => 0
  | PoolCall.Store _ x f _ :: calls =>
    (if finalizerCallOf f x = some fc then 1 else 0) + storesOf fc calls
  | _ :: calls => storesOf fc calls

/-- A pool cache with default expiration 30 holding under `a` two entries stored
at times 0 and 10. -/
def freshPool : cache :=
  { defaultExpiration := 30
    table := some fun k =>
      (if k = "a" then
        some [{ value := GoValue.plain 1, timeExpiration := 30 },
          { value := GoValue.plain 2, timeExpiration := 40 }]
      else none) }

/-- The stack the two loops of `Flush` leave for a key whose stack was `t`:
`none` when the key is deleted. -/
def cache.sweptStack (now : Int) (t : List entry) : Option (List entry) :=
  match cache.flushStack now t.length 0 t with
  | some (t1, _, true) => if t1.length = 0 then none else some t1
  | _ => some t

/-- The map `Flush` leaves when it ranges over the keys `order`. -/
def cache.sweptTable (now : Int) (m : String → Option (List entry)) (order : List String) :
    String → Option (List entry) :=
  fun k => if k ∈ order then (m k).bind (cache.sweptStack now) else m k

/-- Whether finalizing the entry makes the call `fc`: 1 if it does, 0 if not. -/
def entry.callCount (fc : FinalizerCall) (e : entry) : Nat :=
  if finalizerCallOf e.finalizer e.value = some fc then 1 else 0

/-- Number of entries of a stack whose finalization makes the call `fc`. -/
def pendingStack (fc : FinalizerCall) (t : List entry) : Nat :=
  (t.map (entry.callCount fc)).sum

/-- Number of entries under the keys `order` whose finalization makes the call `fc`. -/
def pendingTable (fc : FinalizerCall) (m : String → Option (List entry))
    (order : List String) : Nat :=
  (order.map fun k => pendingStack fc ((m k).getD [])).sum

/-- Every entry in the table has an absent or recognised finalizer. -/
def cache.Accepted (c : cache) : Prop :=
  ∀ m k t e, c.table = some m → m k = some t → e ∈ t → ∀ id, e.finalizer ≠ Finalizer.other id

/-- The number `n` of entries in the table whose finalization makes the call `fc`
(0 for the nil table). -/
def cache.Pending (fc : FinalizerCall) (c : cache) (n : Nat) : Prop :=
  match c.table with
  | none => n = 0
  | some m => ∃ order, KeyOrder m order ∧ pendingTable fc m order = n

/-- Whether the call is a `Store` or a `Fetch`. -/
def PoolCall.isStoreFetch : PoolCall → Bool
  | PoolCall.Store _ _ _ _ => true
  | PoolCall.Fetch _ => true
  | _ => false

/-- The pool cache reached from `NewCache defaultExpiration 0` by a sequence of
calls (the initial cache when a call of the sequence panics). -/
def cache.after (defaultExpiration : Int) (calls : List PoolCall) : cache :=
  match (NewCache defaultExpiration 0).1.run calls with
  | some (c, _) => c
  | none => (NewCache defaultExpiration 0).1

/-- Whether `Store` accepts the finalizer: `nil` or one of the three recognised
function types. -/
def Finalizer.recognised : Finalizer → Bool
  | Finalizer.other _ => false
  | _ => true

/-- Whether the call is a `Fetch` or a `Store` with a finalizer `Store` accepts. -/
def PoolCall.isPlain : PoolCall → Bool
  | PoolCall.Store _ _ f _ => f.recognised
  | PoolCall.Fetch _ => true
  | _ => false

/-- The last-in-first-out discipline in the words of the specification: per key
the values stored and not yet fetched, the most recently stored first; `Store`
adds its value in front, `Fetch` takes the first value, whatever the expiration
times, and reports not-found when there is none.  The result is what the
`Fetch` calls of the sequence return. -/
def lifoSpec (pending : String → List GoValue) : List PoolCall → List PoolEvent
  | [] => []
  | PoolCall.Store k x _ _ :: calls =>
    lifoSpec (Function.update pending k (x :: pending k)) calls
  | PoolCall.Fetch k :: calls =>
    match pending k with
    | [] => PoolEvent.fetched GoValue.nil false :: lifoSpec pending calls
    | x :: rest => PoolEvent.fetched x true :: lifoSpec (Function.update pending k rest) calls
  | _ :: calls => lifoSpec pending calls

/-- The values held under each key of a table, the most recently stored first. -/
def stackValues (m : String → Option (List entry)) : String → List GoValue :=
  fun k => ((m k).getD []).reverse.map entry.value

/-! ## Machine arithmetic -/

theorem toUint64_lt (x : Int) : toUint64 x < 2 ^ 64 := by
  unfold toUint64
  norm_num
  omega

theorem toUint64_cast (x : Int) : ((toUint64 x : Nat) : Int) = x % 18446744073709551616 := by
  unfold toUint64
  norm_num
  omega

theorem addU64_toUint64 (x y : Int) : addU64 (toUint64 x) (toUint64 y) = toUint64 (x + y) := by
  unfold addU64 toUint64
  norm_num
  omega

theorem subU64_toUint64 (x y : Int) : subU64 (toUint64 x) (toUint64 y) = toUint64 (x - y) := by
  unfold subU64 toUint64
  norm_num
  omega

theorem toUint64_wrapInt (x : Int) : toUint64 (wrapInt x) = toUint64 x := by
  unfold wrapInt toUint64
  norm_num
  omega

theorem toUint64_of_range (x : Int) (h0 : 0 ≤ x) (h1 : x < 18446744073709551616) :
    ((toUint64 x : Nat) : Int) = x := by
  rw [toUint64_cast]
  omega

theorem toUint64_le_self (x : Int) (h0 : 0 ≤ x) : ((toUint64 x : Nat) : Int) ≤ x := by
  rw [toUint64_cast]
  omega

theorem toUint64_natCast (n : Nat) (h : n < 2 ^ 64) : toUint64 (n : Int) = n := by
  unfold toUint64
  norm_num at h ⊢
  omega

/-! ## Lists of element addresses -/

theorem sumSizes_nil (heap : Nat → entry) : sumSizes heap [] = 0 := rfl

theorem sumSizes_cons (heap : Nat → entry) (a : Nat) (l : List Nat) :
    sumSizes heap (a :: l) = (heap a).size + sumSizes heap l := by
  simp [sumSizes]

theorem sumSizes_append (heap : Nat → entry) (l1 l2 : List Nat) :
    sumSizes heap (l1 ++ l2) = sumSizes heap l1 + sumSizes heap l2 := by
  simp [sumSizes]

theorem sumSizes_perm (heap : Nat → entry) {l1 l2 : List Nat} (h : l1.Perm l2) :
    sumSizes heap l1 = sumSizes heap l2 := by
  unfold sumSizes
  exact (h.map _).sum_eq

theorem sumSizes_erase (heap : Nat → entry) {a : Nat} {l : List Nat} (h : a ∈ l) :
    sumSizes heap (l.erase a) = sumSizes heap l - (heap a).size := by
  have hp := sumSizes_perm heap (List.perm_cons_erase h)
  rw [sumSizes_cons] at hp
  omega

theorem sumSizes_congr {heap1 heap2 : Nat → entry} {l : List Nat}
    (h : ∀ a ∈ l, (heap1 a).size = (heap2 a).size) :
    sumSizes heap1 l = sumSizes heap2 l := by
  unfold sumSizes
  congr 1
  exact List.map_congr_left h

theorem erase_back {ys : List Nat} {d : Nat} (h : (ys ++ [d]).Nodup) :
    (ys ++ [d]).erase d = ys := by
  have hd : d ∉ ys := by
    intro hmem
    have := List.nodup_append.mp h
    exact this.2.2 hmem (List.mem_singleton_self d)
  rw [List.erase_append_right _ hd]
  simp

namespace LRUCache

/-! ## The eviction loop -/

theorem checkCapacity_unfold (s : LRUCache) :
    s.checkCapacity =
      if s.size > s.capacity then
        match s.list.getLast? with
        | none => none
        | some delElem => (s.evictBack delElem).checkCapacity
      else some s := by
  unfold checkCapacity
  cases hlen : s.list.length with
  | zero =>
    have hnil : s.list = [] := List.length_eq_zero.mp hlen
    simp [checkCapacityLoop, hnil]
  | succ n =>
    rw [checkCapacityLoop]
    split
    · cases hl : s.list.getLast? with
      | none => rfl
      | some d =>
        have hmem : d ∈ s.list := List.mem_of_getLast?_eq_some hl
        have : (s.evictBack d).list.length = n := by
          simp [evictBack, List.length_erase_of_mem hmem, hlen]
        simp [this]
    · rfl

theorem WF.remove {s : LRUCache} (h : s.WF) {a : Nat} (ha : a ∈ s.list) :
    WF { s with
      list := s.list.erase a
      table := Function.update s.table (s.heap a).key none
      size := subU64 s.size (toUint64 (s.heap a).size) } := by
  refine ⟨h.nodup.erase a, ?_, ?_, ?_⟩
  · intro k b
    simp only [h.nodup.mem_erase_iff]
    by_cases hk : k = (s.heap a).key
    · subst hk
      simp only [Function.update_same]
      constructor
      · intro hc
        cases hc
      · rintro ⟨⟨hne, hb⟩, hkey⟩
        have h1 := (h.index (s.heap a).key b).mpr ⟨hb, hkey⟩
        have h2 := (h.index (s.heap a).key a).mpr ⟨ha, rfl⟩
        rw [h1] at h2
        exact absurd (Option.some.inj h2) hne
    · rw [Function.update_noteq hk, h.index]
      constructor
      · rintro ⟨hb, hkey⟩
        refine ⟨⟨?_, hb⟩, hkey⟩
        intro hba
        subst hba
        exact hk hkey.symm
      · rintro ⟨⟨_, hb⟩, hkey⟩
        exact ⟨hb, hkey⟩
  · intro b hb
    exact h.fresh b (List.mem_of_mem_erase hb)
  · show subU64 s.size (toUint64 (s.heap a).size) = toUint64 (sumSizes s.heap (s.list.erase a))
    rw [h.size_eq, subU64_toUint64, sumSizes_erase s.heap ha]

theorem WF.evictBack {s : LRUCache} (h : s.WF) {d : Nat} (hd : d ∈ s.list) :
    (s.evictBack d).WF := h.remove hd

/-- From a well-formed state the eviction loop never fails; it keeps the first
`m` linked elements, where `m` is the largest count whose tracked size is
within capacity, and touches neither the entries nor the capacity. -/
theorem checkCapacity_spec (n : Nat) : ∀ s : LRUCache, s.list.length = n → s.WF →
    ∃ s1 m, s.checkCapacity = some s1 ∧ s1.WF ∧ s1.heap = s.heap ∧
      s1.capacity = s.capacity ∧ s1.alloc = s.alloc ∧ s1.size ≤ s1.capacity ∧
      m ≤ s.list.length ∧ s1.list = s.list.take m ∧
      ∀ j, m < j → j ≤ s.list.length →
        s.capacity < toUint64 (sumSizes s.heap (s.list.take j)) := by
  induction n with
  | zero =>
    intro s hlen h
    have hnil : s.list = [] := List.length_eq_zero.mp hlen
    have hsz : s.size = 0 := by
      rw [h.size_eq, hnil, sumSizes_nil]
      rfl
    refine ⟨s, 0, ?_, h, rfl, rfl, rfl, ?_, Nat.zero_le _, ?_, ?_⟩
    · rw [checkCapacity_unfold, if_neg (by omega)]
    · omega
    · simp [hnil]
    · intro j hj hj2
      rw [hnil] at hj2
      simp at hj2
      omega
  | succ n ih =>
    intro s hlen h
    by_cases hgt : s.size > s.capacity
    · cases hl : s.list.getLast? with
      | none =>
        rw [List.getLast?_eq_none_iff] at hl
        rw [hl] at hlen
        simp at hlen
      | some d =>
        obtain ⟨ys, hys⟩ := List.getLast?_eq_some_iff.mp hl
        have hmem : d ∈ s.list := List.mem_of_getLast?_eq_some hl
        have hnd : (ys ++ [d]).Nodup := hys ▸ h.nodup
        have hlist : (s.evictBack d).list = ys := by
          show s.list.erase d = ys
          rw [hys, erase_back hnd]
        have hylen : ys.length = n := by
          have := hlen
          rw [hys] at this
          simpa using this
        obtain ⟨s1, m, hrun, hwf, hheap, hcap, halloc, hwithin, hm, htake, hmax⟩ :=
          ih (s.evictBack d) (by rw [hlist, hylen]) (h.evictBack hmem)
        rw [hlist] at hm htake hmax
        refine ⟨s1, m, ?_, hwf, hheap, hcap, halloc, hwithin, ?_, ?_, ?_⟩
        · rw [checkCapacity_unfold, if_pos hgt, hl]
          exact hrun
        · rw [hys]
          simp
          omega
        · rw [htake, hys, List.take_append_of_le_length hm]
        · intro j hj hj2
          rw [hys] at hj2 ⊢
          by_cases hjy : j ≤ ys.length
          · rw [List.take_append_of_le_length hjy]
            exact hmax j hj hjy
          · have hlj : (ys ++ [d]).length ≤ j := by
              simp
              omega
            have hall : (ys ++ [d]).take j = ys ++ [d] := List.take_of_length_le hlj
            rw [hall, ← hys, ← h.size_eq]
            exact hgt
    · refine ⟨s, s.list.length, ?_, h, rfl, rfl, rfl, by omega, le_refl _, by simp, ?_⟩
      · rw [checkCapacity_unfold, if_neg hgt]
      · intro j hj hj2
        omega

/-! ## Preservation of the representation invariant -/

theorem WF.new (capacity : Nat) : (NewLRUCache capacity).WF := by
  refine ⟨List.nodup_nil, ?_, ?_, ?_⟩
  · intro k a
    simp [NewLRUCache]
  · intro a ha
    simp [NewLRUCache] at ha
  · rfl

theorem WF.congr {s t : LRUCache} (h : s.WF) (hl : t.list.Perm s.list)
    (hkey : ∀ a, (t.heap a).key = (s.heap a).key)
    (hsize : ∀ a, (t.heap a).size = (s.heap a).size)
    (htable : t.table = s.table) (hsz : t.size = s.size) (halloc : t.alloc = s.alloc) :
    t.WF := by
  refine ⟨hl.nodup_iff.mpr h.nodup, ?_, ?_, ?_⟩
  · intro k a
    rw [htable, h.index, hl.mem_iff, hkey]
  · intro a ha
    rw [halloc]
    exact h.fresh a (hl.mem_iff.mp ha)
  · rw [hsz, h.size_eq, sumSizes_perm t.heap hl]
    congr 1
    exact (sumSizes_congr fun a _ => hsize a).symm

theorem moveToFront_list_perm (s : LRUCache) (a : Nat) (now : Int) :
    (s.moveToFront a now).list.Perm s.list := by
  unfold moveToFront
  by_cases ha : a ∈ s.list
  · simp only [if_pos ha]
    exact (List.perm_cons_erase ha).symm
  · simp only [if_neg ha]
    exact List.Perm.refl _

theorem moveToFront_key (s : LRUCache) (a : Nat) (now : Int) (b : Nat) :
    ((s.moveToFront a now).heap b).key = (s.heap b).key := by
  unfold moveToFront
  by_cases hb : b = a
  · subst hb
    simp
  · simp [Function.update_noteq hb]

theorem moveToFront_size (s : LRUCache) (a : Nat) (now : Int) (b : Nat) :
    ((s.moveToFront a now).heap b).size = (s.heap b).size := by
  unfold moveToFront
  by_cases hb : b = a
  · subst hb
    simp
  · simp [Function.update_noteq hb]

theorem moveToFront_value (s : LRUCache) (a : Nat) (now : Int) (b : Nat) :
    ((s.moveToFront a now).heap b).value = (s.heap b).value := by
  unfold moveToFront
  by_cases hb : b = a
  · subst hb
    simp
  · simp [Function.update_noteq hb]

theorem WF.moveToFront {s : LRUCache} (h : s.WF) (a : Nat) (now : Int) :
    (s.moveToFront a now).WF :=
  h.congr (moveToFront_list_perm s a now) (moveToFront_key s a now)
    (moveToFront_size s a now) rfl rfl rfl

theorem sumSizes_update {heap : Nat → entry} {l : List Nat} {a : Nat} (e : entry)
    (hnd : l.Nodup) (ha : a ∈ l) :
    sumSizes (Function.update heap a e) l = sumSizes heap l - (heap a).size + e.size := by
  have hp : l.Perm (a :: l.erase a) := List.perm_cons_erase ha
  rw [sumSizes_perm _ hp, sumSizes_perm heap hp, sumSizes_cons, sumSizes_cons]
  have hrest : sumSizes (Function.update heap a e) (l.erase a) = sumSizes heap (l.erase a) := by
    apply sumSizes_congr
    intro b hb
    have hne : b ≠ a := (hnd.mem_erase_iff.mp hb).1
    rw [Function.update_noteq hne]
  rw [hrest]
  simp
  omega

theorem sumSizes_update_fresh {heap : Nat → entry} {l : List Nat} {a : Nat} (e : entry)
    (ha : a ∉ l) : sumSizes (Function.update heap a e) l = sumSizes heap l := by
  apply sumSizes_congr
  intro b hb
  have hne : b ≠ a := fun hba => ha (hba ▸ hb)
  rw [Function.update_noteq hne]

/-- The state built by `addNew` before it runs the eviction loop. -/
theorem WF.pushFront {s : LRUCache} (h : s.WF) {key : String} (hk : s.table key = none)
    (value : GoValue) (size : Int) (now : Int) :
    WF { s with
      heap := Function.update s.heap s.alloc
        { key := key, value := value, size := size, timeAccessed := now }
      list := s.alloc :: s.list
      alloc := s.alloc + 1
      table := Function.update s.table key (some s.alloc)
      size := addU64 s.size (toUint64 size) } := by
  have hfresh : s.alloc ∉ s.list := fun hm => Nat.lt_irrefl _ (h.fresh _ hm)
  refine ⟨List.nodup_cons.mpr ⟨hfresh, h.nodup⟩, ?_, ?_, ?_⟩
  · intro k a
    show Function.update s.table key (some s.alloc) k = some a ↔
      a ∈ s.alloc :: s.list ∧ (Function.update s.heap s.alloc _ a).key = k
    by_cases ha : a = s.alloc
    · subst ha
      simp only [Function.update_same, List.mem_cons, true_or, true_and]
      by_cases hkk : k = key
      · subst hkk
        simp
      · rw [Function.update_noteq hkk]
        constructor
        · intro hc
          exact absurd ((h.index k s.alloc).mp hc).1 hfresh
        · intro hc
          exact absurd hc.symm hkk
    · rw [Function.update_noteq ha]
      simp only [List.mem_cons, ha, false_or]
      by_cases hkk : k = key
      · subst hkk
        simp only [Function.update_same]
        constructor
        · intro hc
          exact absurd (Option.some.inj hc).symm ha
        · intro hc
          have := (h.index k a).mpr hc
          rw [hk] at this
          cases this
      · rw [Function.update_noteq hkk, h.index]
  · intro a ha
    show a < s.alloc + 1
    rcases List.mem_cons.mp ha with rfl | ha
    · omega
    · have := h.fresh a ha
      omega
  · show addU64 s.size (toUint64 size) = toUint64 (sumSizes _ (s.alloc :: s.list))
    rw [sumSizes_cons, sumSizes_update_fresh _ hfresh]
    simp only [Function.update_same]
    rw [h.size_eq, addU64_toUint64, add_comm]

/-- The state built by `updateInplace` before it promotes the element. -/
theorem WF.overwrite {s : LRUCache} (h : s.WF) {a : Nat} (ha : a ∈ s.list)
    (value : GoValue) (size : Int) :
    WF { s with
      heap := Function.update s.heap a { s.heap a with value := value, size := size }
      size := addU64 s.size (toUint64 (wrapInt (size - (s.heap a).size))) } := by
  refine ⟨h.nodup, ?_, h.fresh, ?_⟩
  · intro k b
    show s.table k = some b ↔ b ∈ s.list ∧ (Function.update s.heap a _ b).key = k
    rw [h.index]
    by_cases hb : b = a
    · subst hb
      simp
    · rw [Function.update_noteq hb]
  · show addU64 s.size (toUint64 (wrapInt (size - (s.heap a).size))) =
      toUint64 (sumSizes (Function.update s.heap a _) s.list)
    rw [sumSizes_update _ h.nodup ha, toUint64_wrapInt, h.size_eq, addU64_toUint64]
    congr 1
    simp
    omega

theorem WF.setCapacity {s : LRUCache} (h : s.WF) (capacity : Nat) :
    WF { s with capacity := capacity } :=
  ⟨h.nodup, h.index, h.fresh, h.size_eq⟩

theorem WF.clear (s : LRUCache) : s.Clear.WF := by
  refine ⟨List.nodup_nil, ?_, ?_, ?_⟩
  · intro k a
    simp [Clear]
  · intro a ha
    simp [Clear] at ha
  · rfl

theorem WF.mem_of_table {s : LRUCache} (h : s.WF) {k : String} {a : Nat}
    (hk : s.table k = some a) : a ∈ s.list ∧ (s.heap a).key = k :=
  (h.index k a).mp hk

theorem WF.take {s : LRUCache} (h : s.WF) (key : String) : (s.Take key).2.WF := by
  unfold Take
  cases hk : s.table key with
  | none => exact h
  | some a =>
    obtain ⟨ha, hkey⟩ := h.mem_of_table hk
    have := h.remove ha
    rw [hkey] at this
    exact this

theorem WF.delete {s : LRUCache} (h : s.WF) (key : String) : (s.Delete key).2.WF := by
  unfold Delete
  cases hk : s.table key with
  | none => exact h
  | some a =>
    obtain ⟨ha, hkey⟩ := h.mem_of_table hk
    have := h.remove ha
    rw [hkey] at this
    exact this

theorem WF.get {s : LRUCache} (h : s.WF) (key : String) (now : Int) :
    (s.Get key now).2.WF := by
  unfold Get
  cases hk : s.table key with
  | none => exact h
  | some a => exact h.moveToFront a now

theorem WF.checkCapacity {s : LRUCache} (h : s.WF) :
    ∃ s1, s.checkCapacity = some s1 ∧ s1.WF ∧ s1.size ≤ s1.capacity ∧
      s1.capacity = s.capacity := by
  obtain ⟨s1, m, hrun, hwf, _, hcap, _, hwithin, _⟩ := checkCapacity_spec _ s rfl h
  exact ⟨s1, hrun, hwf, hwithin, hcap⟩

theorem WF.addNew {s : LRUCache} (h : s.WF) {key : String} (hk : s.table key = none)
    (value : GoValue) (size : Int) (now : Int) :
    ∃ s1, s.addNew key value size now = some s1 ∧ s1.WF ∧ s1.size ≤ s1.capacity ∧
      s1.capacity = s.capacity :=
  (h.pushFront hk value size now).checkCapacity

theorem WF.updateInplace {s : LRUCache} (h : s.WF) {a : Nat} (ha : a ∈ s.list)
    (value : GoValue) (size : Int) (now : Int) :
    ∃ s1, s.updateInplace a value size now = some s1 ∧ s1.WF ∧ s1.size ≤ s1.capacity ∧
      s1.capacity = s.capacity :=
  ((h.overwrite ha value size).moveToFront a now).checkCapacity

theorem WF.set {s : LRUCache} (h : s.WF) (key : String) (value : GoValue) (size : Int)
    (now : Int) :
    ∃ s1, s.Set key value size now = some s1 ∧ s1.WF ∧ s1.size ≤ s1.capacity ∧
      s1.capacity = s.capacity := by
  unfold Set
  cases hk : s.table key with
  | none => exact h.addNew hk value _ now
  | some a => exact h.updateInplace (h.mem_of_table hk).1 value _ now

theorem WF.setIfAbsent {s : LRUCache} (h : s.WF) (key : String) (value : GoValue)
    (size : Int) (now : Int) :
    ∃ s1, s.SetIfAbsent key value size now = some s1 ∧ s1.WF := by
  unfold SetIfAbsent
  cases hk : s.table key with
  | none =>
    obtain ⟨s1, h1, h2, _⟩ := h.addNew hk value (adjustValueSize value size) now
    exact ⟨s1, h1, h2⟩
  | some a => exact ⟨_, rfl, h.moveToFront a now⟩

theorem WF.step {s : LRUCache} (h : s.WF) (c : Call) : ∃ s1, s.step c = some s1 ∧ s1.WF := by
  cases c with
  | Get key now => exact ⟨_, rfl, h.get key now⟩
  | Set key value size now =>
    obtain ⟨s1, h1, h2, _⟩ := h.set key value size now
    exact ⟨s1, h1, h2⟩
  | SetIfAbsent key value size now => exact h.setIfAbsent key value size now
  | Take key => exact ⟨_, rfl, h.take key⟩
  | Delete key => exact ⟨_, rfl, h.delete key⟩
  | Clear => exact ⟨_, rfl, WF.clear s⟩
  | SetCapacity capacity =>
    obtain ⟨s1, h1, h2, _⟩ := (h.setCapacity capacity).checkCapacity
    exact ⟨s1, h1, h2⟩

end LRUCache

theorem Reachable.wf {s : LRUCache} (h : Reachable s) : s.WF := by
  induction h with
  | init capacity => exact LRUCache.WF.new capacity
  | step c _ hstep ih =>
    obtain ⟨s2, h2, hwf⟩ := ih.step c
    rw [hstep] at h2
    cases h2
    exact hwf

/-! ## States with exact size accounting -/

theorem sumSizes_nonneg {heap : Nat → entry} {l : List Nat}
    (h : ∀ a ∈ l, 0 ≤ (heap a).size) : 0 ≤ sumSizes heap l := by
  induction l with
  | nil => simp [sumSizes]
  | cons a l ih =>
    rw [sumSizes_cons]
    have h1 := h a (List.mem_cons_self a l)
    have h2 := ih fun b hb => h b (List.mem_cons_of_mem a hb)
    omega

theorem sumSizes_take_le {heap : Nat → entry} {l : List Nat}
    (h : ∀ a ∈ l, 0 ≤ (heap a).size) (m : Nat) :
    sumSizes heap (l.take m) ≤ sumSizes heap l := by
  have hsplit : sumSizes heap l = sumSizes heap (l.take m) + sumSizes heap (l.drop m) := by
    rw [← sumSizes_append, List.take_append_drop]
  have hdrop : 0 ≤ sumSizes heap (l.drop m) :=
    sumSizes_nonneg fun a ha => h a (List.mem_of_mem_drop ha)
  omega

namespace LRUCache

theorem Exact.size_eq {s : LRUCache} (h : s.Exact) :
    (s.size : Int) = sumSizes s.heap s.list := by
  rw [h.wf.size_eq]
  exact toUint64_of_range _ (sumSizes_nonneg h.nonneg) h.bound

theorem Exact.of_wf {s : LRUCache} (h : s.WF) (hn : ∀ a ∈ s.list, 0 ≤ (s.heap a).size)
    (hb : sumSizes s.heap s.list < 18446744073709551616) : s.Exact := ⟨h, hn, hb⟩

/-- On an exactly accounted state the eviction loop keeps the longest run of
front elements whose sizes add up to at most the capacity. -/
theorem Exact.checkCapacity_exact {s : LRUCache} (h : s.Exact) :
    ∃ s1 m, s.checkCapacity = some s1 ∧ s1.Exact ∧ s1.heap = s.heap ∧
      s1.capacity = s.capacity ∧ s1.alloc = s.alloc ∧ s1.size ≤ s1.capacity ∧
      m ≤ s.list.length ∧ s1.list = s.list.take m ∧
      sumSizes s.heap (s.list.take m) ≤ (s.capacity : Int) ∧
      ∀ j, m < j → j ≤ s.list.length →
        (s.capacity : Int) < sumSizes s.heap (s.list.take j) := by
  obtain ⟨s1, m, hrun, hwf, hheap, hcap, halloc, hwithin, hm, htake, hmax⟩ :=
    checkCapacity_spec _ s rfl h.wf
  have hnn : ∀ a ∈ s1.list, 0 ≤ (s1.heap a).size := by
    intro a ha
    rw [hheap]
    rw [htake] at ha
    exact h.nonneg a (List.mem_of_mem_take ha)
  have hle : sumSizes s1.heap s1.list ≤ sumSizes s.heap s.list := by
    rw [hheap, htake]
    exact sumSizes_take_le h.nonneg m
  have hex : s1.Exact := ⟨hwf, hnn, lt_of_le_of_lt hle h.bound⟩
  refine ⟨s1, m, hrun, hex, hheap, hcap, halloc, hwithin, hm, htake, ?_, ?_⟩
  · have := hex.size_eq
    rw [hheap, htake] at this
    rw [← this, ← hcap]
    exact_mod_cast hwithin
  · intro j hj hj2
    have h1 := hmax j hj hj2
    have h2 : ((toUint64 (sumSizes s.heap (s.list.take j)) : Nat) : Int) =
        sumSizes s.heap (s.list.take j) := by
      apply toUint64_of_range
      · exact sumSizes_nonneg fun a ha => h.nonneg a (List.mem_of_mem_take ha)
      · exact lt_of_le_of_lt (sumSizes_take_le h.nonneg j) h.bound
    rw [← h2]
    exact_mod_cast h1

theorem Exact.moveToFront_exact {s : LRUCache} (h : s.Exact) (a : Nat) (now : Int) :
    (s.moveToFront a now).Exact := by
  refine ⟨h.wf.moveToFront a now, ?_, ?_⟩
  · intro b hb
    rw [moveToFront_size]
    exact h.nonneg b ((moveToFront_list_perm s a now).mem_iff.mp hb)
  · rw [sumSizes_perm _ (moveToFront_list_perm s a now),
      sumSizes_congr fun b _ => moveToFront_size s a now b]
    exact h.bound

theorem Exact.remove_exact {s : LRUCache} (h : s.Exact) {a : Nat} (ha : a ∈ s.list) :
    Exact { s with
      list := s.list.erase a
      table := Function.update s.table (s.heap a).key none
      size := subU64 s.size (toUint64 (s.heap a).size) } := by
  refine ⟨h.wf.remove ha, ?_, ?_⟩
  · intro b hb
    exact h.nonneg b (List.mem_of_mem_erase hb)
  · show sumSizes s.heap (s.list.erase a) < 18446744073709551616
    rw [sumSizes_erase s.heap ha]
    have := h.nonneg a ha
    have := h.bound
    omega

theorem Exact.pushFront_exact {s : LRUCache} (h : s.Exact) {key : String}
    (hk : s.table key = none) (value : GoValue) {size : Int} (now : Int)
    (h0 : 0 ≤ size) (h1 : (s.size : Int) + size < 18446744073709551616) :
    Exact { s with
      heap := Function.update s.heap s.alloc
        { key := key, value := value, size := size, timeAccessed := now }
      list := s.alloc :: s.list
      alloc := s.alloc + 1
      table := Function.update s.table key (some s.alloc)
      size := addU64 s.size (toUint64 size) } := by
  have hfresh : s.alloc ∉ s.list := fun hm => Nat.lt_irrefl _ (h.wf.fresh _ hm)
  refine ⟨h.wf.pushFront hk value size now, ?_, ?_⟩
  · intro b hb
    show 0 ≤ (Function.update s.heap s.alloc _ b).size
    rcases List.mem_cons.mp hb with rfl | hb
    · simpa using h0
    · have hne : b ≠ s.alloc := fun hba => hfresh (hba ▸ hb)
      rw [Function.update_noteq hne]
      exact h.nonneg b hb
  · show sumSizes (Function.update s.heap s.alloc _) (s.alloc :: s.list) < 18446744073709551616
    rw [sumSizes_cons, sumSizes_update_fresh _ hfresh]
    simp only [Function.update_same]
    rw [← h.size_eq]
    omega

theorem Exact.overwrite_exact {s : LRUCache} (h : s.Exact) {a : Nat} (ha : a ∈ s.list)
    (value : GoValue) {size : Int}
    (h0 : 0 ≤ size) (h1 : (s.size : Int) + size < 18446744073709551616) :
    Exact { s with
      heap := Function.update s.heap a { s.heap a with value := value, size := size }
      size := addU64 s.size (toUint64 (wrapInt (size - (s.heap a).size))) } := by
  refine ⟨h.wf.overwrite ha value size, ?_, ?_⟩
  · intro b hb
    show 0 ≤ (Function.update s.heap a _ b).size
    by_cases hba : b = a
    · subst hba
      simpa using h0
    · rw [Function.update_noteq hba]
      exact h.nonneg b hb
  · show sumSizes (Function.update s.heap a _) s.list < 18446744073709551616
    rw [sumSizes_update _ h.wf.nodup ha]
    have := h.nonneg a ha
    have := h.size_eq
    simp only
    omega

theorem Exact.new_exact (capacity : Nat) : (NewLRUCache capacity).Exact := by
  refine ⟨WF.new capacity, ?_, ?_⟩
  · intro a ha
    simp [NewLRUCache] at ha
  · simp [NewLRUCache, sumSizes]

theorem Exact.clear_exact (s : LRUCache) : s.Clear.Exact := by
  refine ⟨WF.clear s, ?_, ?_⟩
  · intro a ha
    simp [Clear] at ha
  · simp [Clear, sumSizes]

theorem Exact.setCapacity_exact {s : LRUCache} (h : s.Exact) (capacity : Nat) :
    Exact { s with capacity := capacity } :=
  ⟨h.wf.setCapacity capacity, h.nonneg, h.bound⟩

theorem Exact.remove_size_le {s : LRUCache} (h : s.Exact) {a : Nat} (ha : a ∈ s.list) :
    subU64 s.size (toUint64 (s.heap a).size) ≤ s.size := by
  have h1 := (h.remove_exact ha).size_eq
  have h2 := h.size_eq
  have h3 := h.nonneg a ha
  have h4 : sumSizes s.heap (s.list.erase a) = sumSizes s.heap s.list - (s.heap a).size :=
    sumSizes_erase s.heap ha
  simp only at h1
  omega

theorem Exact.take_exact {s : LRUCache} (h : s.Exact) (key : String) :
    (s.Take key).2.Exact ∧ (s.Take key).2.size ≤ s.size ∧
      (s.Take key).2.capacity = s.capacity := by
  unfold Take
  cases hk : s.table key with
  | none => exact ⟨h, le_refl _, rfl⟩
  | some a =>
    obtain ⟨ha, hkey⟩ := h.wf.mem_of_table hk
    have := h.remove_exact ha
    rw [hkey] at this
    exact ⟨this, h.remove_size_le ha, rfl⟩

theorem Exact.delete_exact {s : LRUCache} (h : s.Exact) (key : String) :
    (s.Delete key).2.Exact ∧ (s.Delete key).2.size ≤ s.size ∧
      (s.Delete key).2.capacity = s.capacity := by
  unfold Delete
  cases hk : s.table key with
  | none => exact ⟨h, le_refl _, rfl⟩
  | some a =>
    obtain ⟨ha, hkey⟩ := h.wf.mem_of_table hk
    have := h.remove_exact ha
    rw [hkey] at this
    exact ⟨this, h.remove_size_le ha, rfl⟩

theorem Exact.get_exact {s : LRUCache} (h : s.Exact) (key : String) (now : Int) :
    (s.Get key now).2.Exact ∧ (s.Get key now).2.size = s.size ∧
      (s.Get key now).2.capacity = s.capacity := by
  unfold Get
  cases hk : s.table key with
  | none => exact ⟨h, rfl, rfl⟩
  | some a => exact ⟨h.moveToFront_exact a now, rfl, rfl⟩

theorem Exact.checkCapacity_within {s : LRUCache} (h : s.Exact) :
    ∃ s1, s.checkCapacity = some s1 ∧ s1.Exact ∧ s1.size ≤ s1.capacity := by
  obtain ⟨s1, m, hrun, hex, _, _, _, hwithin, _⟩ := h.checkCapacity_exact
  exact ⟨s1, hrun, hex, hwithin⟩

theorem Exact.set_exact {s : LRUCache} (h : s.Exact) (key : String) (value : GoValue)
    {size : Int} (now : Int) (h0 : 0 ≤ adjustValueSize value size)
    (h1 : (s.size : Int) + adjustValueSize value size < 18446744073709551616) :
    ∃ s1, s.Set key value size now = some s1 ∧ s1.Exact ∧ s1.size ≤ s1.capacity := by
  unfold Set
  cases hk : s.table key with
  | none => exact (h.pushFront_exact hk value now h0 h1).checkCapacity_within
  | some a =>
    exact (((h.overwrite_exact (h.wf.mem_of_table hk).1 value h0 h1)).moveToFront_exact a
      now).checkCapacity_within

theorem Exact.step_exact {s : LRUCache} (h : s.Exact) (hcap : s.size ≤ s.capacity) (c : Call)
    (hok : s.callOk c = true) :
    ∃ s1, s.step c = some s1 ∧ s1.Exact ∧ s1.size ≤ s1.capacity := by
  cases c with
  | Get key now =>
    obtain ⟨h1, h2, h3⟩ := h.get_exact key now
    exact ⟨_, rfl, h1, by rw [h2, h3]; exact hcap⟩
  | Set key value size now =>
    simp only [callOk, decide_eq_true_eq] at hok
    exact h.set_exact key value now hok.1 hok.2
  | SetIfAbsent key value size now =>
    show ∃ s1, s.SetIfAbsent key value size now = some s1 ∧ _
    unfold SetIfAbsent
    cases hk : s.table key with
    | none =>
      simp only [callOk, hk, Option.isSome_none, Bool.false_or, decide_eq_true_eq] at hok
      exact (h.pushFront_exact hk value now hok.1 hok.2).checkCapacity_within
    | some a => exact ⟨_, rfl, h.moveToFront_exact a now, hcap⟩
  | Take key =>
    obtain ⟨h1, h2, h3⟩ := h.take_exact key
    exact ⟨_, rfl, h1, by rw [h3]; exact le_trans h2 hcap⟩
  | Delete key =>
    obtain ⟨h1, h2, h3⟩ := h.delete_exact key
    exact ⟨_, rfl, h1, by rw [h3]; exact le_trans h2 hcap⟩
  | Clear => exact ⟨_, rfl, Exact.clear_exact s, Nat.zero_le _⟩
  | SetCapacity capacity => exact (h.setCapacity_exact capacity).checkCapacity_within

theorem Exact.run {s : LRUCache} (h : s.Exact) (hcap : s.size ≤ s.capacity)
    (calls : List Call) (hadm : s.admissible calls = true) (n : Nat) :
    ∃ s1, s.run (calls.take n) = some s1 ∧ s1.Exact ∧ s1.size ≤ s1.capacity := by
  induction calls generalizing s n with
  | nil => exact ⟨s, by simp [LRUCache.run], h, hcap⟩
  | cons c cs ih =>
    cases n with
    | zero => exact ⟨s, by simp [LRUCache.run], h, hcap⟩
    | succ n =>
      simp only [admissible, Bool.and_eq_true] at hadm
      obtain ⟨s1, hstep, hex, hcap1⟩ := h.step_exact hcap c hadm.1
      have hrest : s1.admissible cs = true := by
        have := hadm.2
        rw [hstep] at this
        exact this
      obtain ⟨s2, hrun, hex2, hcap2⟩ := ih hex hcap1 hrest n
      refine ⟨s2, ?_, hex2, hcap2⟩
      simp only [List.take_succ_cons, LRUCache.run, hstep, Option.some_bind]
      exact hrun

end LRUCache

/-! ## Observations: `Keys`, `Items`, reachability -/

theorem Reachable.of_run {s : LRUCache} (h : Reachable s) (calls : List Call) :
    ∀ {s1 : LRUCache}, s.run calls = some s1 → Reachable s1 := by
  induction calls generalizing s with
  | nil =>
    intro s1 hrun
    simp only [LRUCache.run, Option.some.injEq] at hrun
    exact hrun ▸ h
  | cons c cs ih =>
    intro s1 hrun
    cases hstep : s.step c with
    | none => simp [LRUCache.run, hstep] at hrun
    | some t =>
      simp only [LRUCache.run, hstep, Option.some_bind] at hrun
      exact ih (Reachable.step c h hstep) hrun

theorem Reachable.after (capacity : Nat) (calls : List Call) :
    Reachable (LRUCache.after capacity calls) := by
  unfold LRUCache.after
  cases hrun : (NewLRUCache capacity).run calls with
  | none => exact Reachable.init capacity
  | some s1 => exact (Reachable.init capacity).of_run calls hrun

namespace LRUCache

theorem items_sizes (s : LRUCache) :
    (s.Items.map Item.Size).sum = sumSizes s.heap s.list := by
  simp [Items, sumSizes, List.map_map, Function.comp_def]

theorem items_keys (s : LRUCache) : s.Items.map Item.Key = s.Keys := by
  simp [Items, Keys, List.map_map, Function.comp_def]

theorem mem_items_iff (s : LRUCache) (it : Item) :
    it ∈ s.Items ↔ ∃ a ∈ s.list, it =
      { Key := (s.heap a).key, Value := (s.heap a).value, Size := (s.heap a).size } := by
  simp only [Items, List.mem_map]
  constructor
  · rintro ⟨a, ha, rfl⟩
    exact ⟨a, ha, rfl⟩
  · rintro ⟨a, ha, rfl⟩
    exact ⟨a, ha, rfl⟩

theorem WF.mem_keys_iff {s : LRUCache} (h : s.WF) (key : String) :
    key ∈ s.Keys ↔ ∃ e, s.table key = some e := by
  simp only [Keys, List.mem_map]
  constructor
  · rintro ⟨a, ha, hkey⟩
    exact ⟨a, (h.index key a).mpr ⟨ha, hkey⟩⟩
  · rintro ⟨e, he⟩
    exact ⟨e, (h.index key e).mp he⟩

theorem WF.not_mem_keys_iff {s : LRUCache} (h : s.WF) (key : String) :
    key ∉ s.Keys ↔ s.table key = none := by
  rw [h.mem_keys_iff]
  cases s.table key <;> simp

theorem WF.size_lt {s : LRUCache} (h : s.WF) : s.size < 2 ^ 64 := by
  rw [h.size_eq]
  exact toUint64_lt _

theorem WF.nonneg_of_items {s : LRUCache} (hn : ∀ it ∈ s.Items, 0 ≤ it.Size) :
    ∀ a ∈ s.list, 0 ≤ (s.heap a).size := by
  intro a ha
  exact hn _ ((s.mem_items_iff _).mpr ⟨a, ha, rfl⟩)

end LRUCache

namespace LRUCache

theorem items_take {s t : LRUCache} (m : Nat) (hheap : s.heap = t.heap)
    (hlist : s.list = t.list.take m) :
    s.Items = t.Items.take m ∧ s.Keys = t.Keys.take m := by
  simp only [Items, Keys, hheap, hlist, List.map_take, and_self]

theorem sumSizes_take_items (t : LRUCache) (j : Nat) :
    sumSizes t.heap (t.list.take j) = ((t.Items.take j).map Item.Size).sum := by
  simp [Items, sumSizes, List.map_take, List.map_map, Function.comp_def]

/-- Keys and items of the state `addNew` builds before the eviction loop. -/
theorem items_pushFront (s : LRUCache) (hfresh : s.alloc ∉ s.list) (key : String)
    (value : GoValue) (size : Int) (now : Int) (tbl : String → Option Nat) (sz al : Nat) :
    let t : LRUCache :=
      { s with
        heap := Function.update s.heap s.alloc
          { key := key, value := value, size := size, timeAccessed := now }
        list := s.alloc :: s.list
        alloc := al
        table := tbl
        size := sz }
    t.Items = { Key := key, Value := value, Size := size } :: s.Items ∧
      t.Keys = key :: s.Keys := by
  have hmap : ∀ b ∈ s.list, Function.update s.heap s.alloc
      ({ key := key, value := value, size := size, timeAccessed := now } : entry) b =
        s.heap b := by
    intro b hb
    have hne : b ≠ s.alloc := fun hba => hfresh (hba ▸ hb)
    rw [Function.update_noteq hne]
  constructor
  · simp only [Items, List.map_cons, Function.update_same]
    congr 1
    apply List.map_congr_left
    intro b hb
    rw [hmap b hb]
  · simp only [Keys, List.map_cons, Function.update_same]
    congr 1
    apply List.map_congr_left
    intro b hb
    rw [hmap b hb]

theorem WF.alloc_fresh {s : LRUCache} (h : s.WF) : s.alloc ∉ s.list :=
  fun hm => Nat.lt_irrefl _ (h.fresh _ hm)

end LRUCache

theorem addU64_wrapInt (x : Nat) (d : Int) (h0 : 0 ≤ (x : Int) + d)
    (h1 : (x : Int) + d < 18446744073709551616) :
    ((addU64 x (toUint64 (wrapInt d)) : Nat) : Int) = (x : Int) + d := by
  unfold addU64 toUint64 wrapInt
  norm_num
  omega

namespace LRUCache

theorem WF.ne_iff_key_ne {s : LRUCache} (h : s.WF) {e a : Nat} (he : e ∈ s.list)
    (ha : a ∈ s.list) : a ≠ e ↔ (s.heap a).key ≠ (s.heap e).key := by
  constructor
  · intro hne hkey
    have h1 := (h.index (s.heap e).key a).mpr ⟨ha, hkey⟩
    have h2 := (h.index (s.heap e).key e).mpr ⟨he, rfl⟩
    rw [h1] at h2
    exact hne (Option.some.inj h2)
  · intro hne hae
    exact hne (hae ▸ rfl)

/-- Unlinking an element removes exactly the item with its key, in place. -/
theorem WF.items_erase {s : LRUCache} (h : s.WF) {e : Nat} (he : e ∈ s.list) :
    (s.list.erase e).map
        (fun a => Item.mk (s.heap a).key (s.heap a).value (s.heap a).size) =
      s.Items.filter (fun i => i.Key ≠ (s.heap e).key) ∧
    (s.list.erase e).map (fun a => (s.heap a).key) =
      s.Keys.filter (fun k => k ≠ (s.heap e).key) := by
  have hfil : s.list.erase e = s.list.filter (fun a => a ≠ e) := by
    rw [h.nodup.erase_eq_filter]
    apply List.filter_congr
    intro a _
    by_cases hae : a = e <;> simp [hae]
  constructor
  · rw [hfil]
    simp only [Items, List.filter_map]
    congr 1
    apply List.filter_congr
    intro a ha
    simp only [Function.comp, decide_eq_decide]
    exact h.ne_iff_key_ne he ha
  · rw [hfil]
    simp only [Keys, List.filter_map]
    congr 1
    apply List.filter_congr
    intro a ha
    simp only [Function.comp, decide_eq_decide]
    exact h.ne_iff_key_ne he ha

/-- Promotion keeps every item and moves the promoted one to the front. -/
theorem WF.moveToFront_items {s : LRUCache} (h : s.WF) {e : Nat} (he : e ∈ s.list)
    (now : Int) :
    (s.moveToFront e now).Items =
      Item.mk (s.heap e).key (s.heap e).value (s.heap e).size ::
        s.Items.filter (fun i => i.Key ≠ (s.heap e).key) ∧
    (s.moveToFront e now).Keys =
      (s.heap e).key :: s.Keys.filter (fun k => k ≠ (s.heap e).key) := by
  have hlist : (s.moveToFront e now).list = e :: s.list.erase e := by
    simp [LRUCache.moveToFront, he]
  obtain ⟨hI, hK⟩ := h.items_erase he
  constructor
  · simp only [Items, hlist, List.map_cons, moveToFront_key, moveToFront_value,
      moveToFront_size]
    rw [hI]
    rfl
  · simp only [Keys, hlist, List.map_cons, moveToFront_key]
    rw [hK]
    rfl

end LRUCache

namespace LRUCache

/-- The state `Set` hands to the eviction loop: well-formed, with the element of
`key` at the front holding the new value and the adjusted size. -/
theorem WF.set_pre {s : LRUCache} (h : s.WF) (key : String) (value : GoValue) (size : Int)
    (now : Int) :
    ∃ (t : LRUCache) (e : Nat) (rest : List Nat),
      s.Set key value size now = t.checkCapacity ∧ t.WF ∧ t.list = e :: rest ∧
      t.table key = some e ∧ (t.heap e).value = value ∧
      (t.heap e).size = adjustValueSize value size ∧ t.capacity = s.capacity := by
  cases hk : s.table key with
  | none =>
    refine ⟨_, s.alloc, s.list, ?_, h.pushFront hk value (adjustValueSize value size) now,
      rfl, ?_, ?_, ?_, rfl⟩
    · simp only [LRUCache.Set, hk, LRUCache.addNew]
    · simp
    · simp
    · simp
  | some e =>
    have he := (h.mem_of_table hk).1
    refine ⟨_, e, s.list.erase e, ?_,
      (h.overwrite he value (adjustValueSize value size)).moveToFront e now, ?_, hk, ?_, ?_, rfl⟩
    · simp only [LRUCache.Set, hk, LRUCache.updateInplace]
    · simp [LRUCache.moveToFront, he]
    · simp [LRUCache.moveToFront]
    · simp [LRUCache.moveToFront]

/-- What `Set` leaves behind: a well-formed state within capacity in which `key`,
if still present, is at the front with the new value and the adjusted size; it
is present whenever the adjusted size is between 0 and the capacity. -/
theorem WF.set_post {s : LRUCache} (h : s.WF) (key : String) (value : GoValue) (size : Int)
    (now : Int) :
    ∃ s1, s.Set key value size now = some s1 ∧ s1.WF ∧
      (∀ a, s1.table key = some a →
        (s1.heap a).value = value ∧ (s1.heap a).size = adjustValueSize value size) ∧
      (0 ≤ adjustValueSize value size → adjustValueSize value size ≤ (s.capacity : Int) →
        ∃ a, s1.table key = some a) := by
  obtain ⟨t, e, rest, hset, hwf, hlist, htab, hval, hsz, hcap⟩ := h.set_pre key value size now
  obtain ⟨s1, m, hrun, hwf1, hheap, _, _, _, hm, htake, hmax⟩ := checkCapacity_spec _ t rfl hwf
  have hkey : (t.heap e).key = key := (hwf.mem_of_table htab).2
  refine ⟨s1, by rw [hset, hrun], hwf1, ?_, ?_⟩
  · intro a ha
    obtain ⟨hmem, hka⟩ := hwf1.mem_of_table ha
    rw [htake] at hmem
    rw [hheap] at hka
    have hta := (hwf.index key a).mpr ⟨List.mem_of_mem_take hmem, hka⟩
    rw [htab] at hta
    cases hta
    rw [hheap]
    exact ⟨hval, hsz⟩
  · intro h0 h1
    have hm0 : 0 < m := by
      by_contra hcon
      have hj := hmax 1 (by omega) (by rw [hlist]; simp)
      rw [hlist] at hj
      simp only [List.take_succ_cons, List.take_zero, sumSizes_cons, sumSizes_nil, add_zero,
        hsz] at hj
      have := toUint64_le_self _ h0
      omega
    refine ⟨e, (hwf1.index key e).mpr ⟨?_, by rw [hheap]; exact hkey⟩⟩
    rw [htake, hlist]
    obtain ⟨m1, rfl⟩ : ∃ m1, m = m1 + 1 := ⟨m - 1, by omega⟩
    simp

end LRUCache

theorem LRUCache.take_absent {s : LRUCache} {key : String} (h : s.table key = none) :
    s.Take key = ((GoValue.nil, false), s) := by
  simp only [LRUCache.Take, h]

theorem LRUCache.get_absent {s : LRUCache} {key : String} (h : s.table key = none) (now : Int) :
    s.Get key now = ((GoValue.nil, false), s) := by
  simp only [LRUCache.Get, h]

theorem sumSizes_pos {heap : Nat → entry} {l : List Nat}
    (h : ∀ a ∈ l, 0 < (heap a).size) (hne : l ≠ []) : 0 < sumSizes heap l := by
  cases l with
  | nil => exact absurd rfl hne
  | cons a l =>
    rw [sumSizes_cons]
    have h1 := h a (List.mem_cons_self a l)
    have h2 : 0 ≤ sumSizes heap l :=
      sumSizes_nonneg fun b hb => le_of_lt (h b (List.mem_cons_of_mem a hb))
    omega

/-! ## The sweep of the pool cache -/

namespace cache

theorem flushStack_fresh (now : Int) (t : List entry)
    (h : ∀ e ∈ t, e.Expired now = false) :
    ∀ fuel i, flushStack now fuel i t = some (t, [], false) := by
  intro fuel
  induction fuel with
  | zero =>
    intro i
    rfl
  | succ n ih =>
    intro i
    rw [flushStack]
    cases hi : t[i]? with
    | none => rfl
    | some e =>
      simp only [h e (List.getElem?_mem hi), Bool.false_eq_true, if_false]
      exact ih (i + 1)

theorem flushKeys_fresh (now : Int) (m : String → Option (List entry))
    (h : ∀ k t e, m k = some t → e ∈ t → e.Expired now = false) :
    ∀ order, flushKeys now m order = some ([], []) := by
  intro order
  induction order with
  | nil => rfl
  | cons k ks ih =>
    rw [flushKeys]
    cases hk : m k with
    | none => exact ih
    | some t =>
      simp only [flushStack_fresh now t (fun e he => h k t e hk he), ih]
      rfl

end cache

/-- Removing index `i` by overwriting it with the last element and dropping the
last slot removes exactly the element at `i`. -/
theorem swapRemove_perm : ∀ (t : List entry) (i : Nat) (e l : entry),
    t[i]? = some e → t.getLast? = some l → t.Perm (e :: (t.set i l).dropLast) := by
  intro t
  induction t with
  | nil =>
    intro i e l hi _
    simp at hi
  | cons a t1 ih =>
    intro i e l hi hl
    cases t1 with
    | nil =>
      cases i with
      | zero =>
        simp only [List.getElem?_cons_zero, Option.some.injEq] at hi
        subst hi
        simp
      | succ j => simp at hi
    | cons b t2 =>
      rw [List.getLast?_cons_cons] at hl
      cases i with
      | zero =>
        simp only [List.getElem?_cons_zero, Option.some.injEq] at hi
        subst hi
        simp only [List.set_cons_zero, List.dropLast_cons₂]
        refine List.Perm.cons _ ?_
        have hsplit : (b :: t2).dropLast ++ [l] = b :: t2 :=
          List.dropLast_append_getLast? l hl
        have hp : ((b :: t2).dropLast ++ [l]).Perm (l :: (b :: t2).dropLast) :=
          List.perm_append_singleton _ _
        rw [hsplit] at hp
        exact hp
      | succ j =>
        simp only [List.getElem?_cons_succ] at hi
        have hrec := ih j e l hi hl
        have hne : (b :: t2).set j l ≠ [] := by
          intro hc
          have := congrArg List.length hc
          simp at this
        rw [List.set_cons_succ, List.dropLast_cons_of_ne_nil hne]
        exact (List.Perm.cons a hrec).trans (List.Perm.swap e a _)

theorem getLast?_of_getElem? {t : List entry} {i : Nat} {e : entry} (hi : t[i]? = some e) :
    t.getLast? = some (t.getLast?.getD e) := by
  cases ht : t.getLast? with
  | none =>
    rw [List.getLast?_eq_none_iff] at ht
    subst ht
    simp at hi
  | some l => simp [ht]

namespace cache

/-- Accounting for the inner loop of `Flush`: the stack splits into the entries
left and the entries removed, the removed ones had expired, and the calls made
are those of finalizing the removed entries in the order of their removal. -/
theorem flushStack_removed (now : Int) : ∀ (fuel i : Nat) (t t1 : List entry)
    (calls : List FinalizerCall) (ch : Bool),
    flushStack now fuel i t = some (t1, calls, ch) →
    ∃ removed : List entry, t.Perm (removed ++ t1) ∧
      (∀ e ∈ removed, e.Expired now = true) ∧ finalizeAll removed = some calls ∧
      (ch = true ↔ removed ≠ []) ∧ (removed = [] → t1 = t) := by
  intro fuel
  induction fuel with
  | zero =>
    intro i t t1 calls ch h
    simp only [flushStack, Option.some.injEq, Prod.mk.injEq] at h
    obtain ⟨rfl, rfl, rfl⟩ := h
    exact ⟨[], List.Perm.refl _, by simp, rfl, by simp, fun _ => rfl⟩
  | succ n ih =>
    intro i t t1 calls ch h
    rw [flushStack] at h
    cases hi : t[i]? with
    | none =>
      simp only [hi, Option.some.injEq, Prod.mk.injEq] at h
      obtain ⟨rfl, rfl, rfl⟩ := h
      exact ⟨[], List.Perm.refl _, by simp, rfl, by simp, fun _ => rfl⟩
    | some e =>
      simp only [hi] at h
      by_cases hexp : e.Expired now = true
      · simp only [hexp, if_true] at h
        cases hfin : e.Finalize with
        | none => simp [hfin] at h
        | some r =>
          obtain ⟨e1, cs⟩ := r
          simp only [hfin, List.getLastD_eq_getLast?] at h
          cases hrec : flushStack now n i ((t.set i (t.getLast?.getD e)).dropLast) with
          | none => simp [hrec] at h
          | some r2 =>
            obtain ⟨t2, rest, ch2⟩ := r2
            simp only [hrec, Option.some.injEq, Prod.mk.injEq] at h
            obtain ⟨rfl, rfl, rfl⟩ := h
            obtain ⟨removed, hperm, hall, hcalls, _, _⟩ := ih i _ _ _ _ hrec
            refine ⟨e :: removed, ?_, ?_, ?_, by simp, by simp⟩
            · exact (swapRemove_perm t i e _ hi (getLast?_of_getElem? hi)).trans
                (List.Perm.cons e hperm)
            · intro x hx
              rcases List.mem_cons.mp hx with rfl | hx
              · exact hexp
              · exact hall x hx
            · simp only [finalizeAll, hfin, hcalls]
      · simp only [hexp, if_false, Bool.false_eq_true] at h
        exact ih (i + 1) _ _ _ _ h

end cache
theorem take_swapRemove (t : List entry) (i : Nat) (l : entry) (hi : i < t.length) :
    ((t.set i l).dropLast).take i = t.take i := by
  rw [List.dropLast_eq_take, List.take_take, List.length_set]
  have hmin : min i (t.length - 1) = i := by omega
  rw [hmin]
  apply List.ext_getElem?
  intro j
  rw [List.getElem?_take, List.getElem?_take]
  split
  · next hj => rw [List.getElem?_set_ne (by omega)]
  · rfl

namespace cache

/-- With `len(table) - i` iterations available the inner loop of `Flush` runs to
its end: when the entries before index `i` are fresh, every entry left is. -/
theorem flushStack_complete (now : Int) : ∀ (fuel i : Nat) (t t1 : List entry)
    (calls : List FinalizerCall) (ch : Bool),
    flushStack now fuel i t = some (t1, calls, ch) → t.length ≤ fuel + i →
    (∀ e ∈ t.take i, e.Expired now = false) → ∀ e ∈ t1, e.Expired now = false := by
  intro fuel
  induction fuel with
  | zero =>
    intro i t t1 calls ch h hlen hpre
    simp only [flushStack, Option.some.injEq, Prod.mk.injEq] at h
    obtain ⟨rfl, rfl, rfl⟩ := h
    rw [List.take_of_length_le (by omega)] at hpre
    exact hpre
  | succ n ih =>
    intro i t t1 calls ch h hlen hpre
    rw [flushStack] at h
    cases hi : t[i]? with
    | none =>
      simp only [hi, Option.some.injEq, Prod.mk.injEq] at h
      obtain ⟨rfl, rfl, rfl⟩ := h
      rw [List.getElem?_eq_none_iff] at hi
      rw [List.take_of_length_le hi] at hpre
      exact hpre
    | some e =>
      simp only [hi] at h
      have hilt : i < t.length := (List.getElem?_eq_some_iff.mp hi).1
      by_cases hexp : e.Expired now = true
      · simp only [hexp, if_true] at h
        cases hfin : e.Finalize with
        | none => simp [hfin] at h
        | some r =>
          obtain ⟨e1, cs⟩ := r
          simp only [hfin, List.getLastD_eq_getLast?] at h
          cases hrec : flushStack now n i ((t.set i (t.getLast?.getD e)).dropLast) with
          | none => simp [hrec] at h
          | some r2 =>
            obtain ⟨t2, rest, ch2⟩ := r2
            simp only [hrec, Option.some.injEq, Prod.mk.injEq] at h
            obtain ⟨rfl, rfl, rfl⟩ := h
            refine ih i _ _ _ _ hrec ?_ ?_
            · simp only [List.length_dropLast, List.length_set]
              omega
            · rw [take_swapRemove t i _ hilt]
              exact hpre
      · simp only [hexp, if_false, Bool.false_eq_true] at h
        refine ih (i + 1) _ _ _ _ h (by omega) ?_
        intro x hx
        rw [List.take_succ, hi] at hx
        simp only [Option.toList_some, List.mem_append, List.mem_singleton] at hx
        rcases hx with hx | rfl
        · exact hpre x hx
        · simpa using hexp

/-- What the inner loop of `Flush` does to one stack when run from index 0 with
the stack's length for fuel: the entries left are the fresh ones, the entries
removed are the expired ones, each finalized once. -/
theorem flushStack_sweep (now : Int) (t t1 : List entry) (calls : List FinalizerCall)
    (ch : Bool) (h : flushStack now t.length 0 t = some (t1, calls, ch)) :
    ∃ removed : List entry, t.Perm (removed ++ t1) ∧
      removed.Perm (t.filter fun e => e.Expired now) ∧
      t1.Perm (t.filter fun e => !e.Expired now) ∧
      finalizeAll removed = some calls ∧ (ch = true ↔ removed ≠ []) ∧
      (removed = [] → t1 = t) := by
  obtain ⟨removed, hperm, hall, hcalls, hch, hsame⟩ := flushStack_removed now _ _ _ _ _ _ h
  have hfresh := flushStack_complete now _ _ _ _ _ _ h (by omega) (by simp)
  refine ⟨removed, hperm, ?_, ?_, hcalls, hch, hsame⟩
  · have h1 := hperm.filter fun e => e.Expired now
    rw [List.filter_append] at h1
    have h2 : removed.filter (fun e => e.Expired now) = removed :=
      List.filter_eq_self.mpr hall
    have h3 : t1.filter (fun e => e.Expired now) = [] :=
      List.filter_eq_nil_iff.mpr fun e he => by simp [hfresh e he]
    rw [h2, h3, List.append_nil] at h1
    exact h1.symm
  · have h1 := hperm.filter fun e => !e.Expired now
    rw [List.filter_append] at h1
    have h2 : removed.filter (fun e => !e.Expired now) = [] :=
      List.filter_eq_nil_iff.mpr fun e he => by simp [hall e he]
    have h3 : t1.filter (fun e => !e.Expired now) = t1 :=
      List.filter_eq_self.mpr fun e he => by simp [hfresh e he]
    rw [h2, h3, List.nil_append] at h1
    exact h1.symm

end cache

namespace cache

theorem applyChanged_update (k : String) (v : Option (List entry)) :
    ∀ (ch : List (String × List entry)) (m : String → Option (List entry)),
      k ∉ ch.map Prod.fst →
      applyChanged (Function.update m k v) ch = Function.update (applyChanged m ch) k v := by
  intro ch
  induction ch with
  | nil =>
    intro m _
    rfl
  | cons p rest ih =>
    intro m hk
    obtain ⟨j, t⟩ := p
    simp only [List.map_cons, List.mem_cons, not_or] at hk
    obtain ⟨hkj, hrest⟩ := hk
    have hjk : j ≠ k := fun h => hkj h.symm
    simp only [applyChanged]
    split
    · rw [Function.update_comm hjk.symm, ih _ hrest]
    · rw [Function.update_comm hjk.symm, ih _ hrest]

theorem flushKeys_keys (now : Int) (m : String → Option (List entry)) :
    ∀ (order : List String) (ch : List (String × List entry)) (calls : List FinalizerCall),
      flushKeys now m order = some (ch, calls) → ∀ j ∈ ch.map Prod.fst, j ∈ order := by
  intro order
  induction order with
  | nil =>
    intro ch calls h j hj
    simp only [flushKeys, Option.some.injEq, Prod.mk.injEq] at h
    obtain ⟨rfl, rfl⟩ := h
    simp at hj
  | cons k ks ih =>
    intro ch calls h j hj
    rw [flushKeys] at h
    cases hk : m k with
    | none =>
      simp only [hk] at h
      exact List.mem_cons_of_mem _ (ih _ _ h j hj)
    | some t =>
      simp only [hk] at h
      cases hst : flushStack now t.length 0 t with
      | none => simp [hst] at h
      | some r =>
        obtain ⟨t1, cs, b⟩ := r
        simp only [hst] at h
        cases hks : flushKeys now m ks with
        | none => simp [hks] at h
        | some r2 =>
          obtain ⟨ch2, rest⟩ := r2
          simp only [hks, Option.some.injEq, Prod.mk.injEq] at h
          obtain ⟨rfl, rfl⟩ := h
          cases b with
          | false =>
            simp only [Bool.false_eq_true, if_false] at hj
            exact List.mem_cons_of_mem _ (ih _ _ hks j hj)
          | true =>
            simp only [if_true, List.map_cons, List.mem_cons] at hj
            rcases hj with rfl | hj
            · exact List.mem_cons_self _ _
            · exact List.mem_cons_of_mem _ (ih _ _ hks j hj)

/-- The two loops of `Flush` together: each key of the iteration order gets the
swept stack, every other key is untouched. -/
theorem flushKeys_table (now : Int) (m : String → Option (List entry)) :
    ∀ (order : List String) (ch : List (String × List entry)) (calls : List FinalizerCall),
      flushKeys now m order = some (ch, calls) → order.Nodup →
      applyChanged m ch = sweptTable now m order := by
  intro order
  induction order with
  | nil =>
    intro ch calls h _
    simp only [flushKeys, Option.some.injEq, Prod.mk.injEq] at h
    obtain ⟨rfl, rfl⟩ := h
    funext j
    simp [applyChanged, sweptTable]
  | cons k ks ih =>
    intro ch calls h hnd
    obtain ⟨hkks, hnd2⟩ := List.nodup_cons.mp hnd
    rw [flushKeys] at h
    cases hk : m k with
    | none =>
      simp only [hk] at h
      rw [ih _ _ h hnd2]
      funext j
      by_cases hj : j = k
      · subst hj
        simp [sweptTable, hk, hkks]
      · simp [sweptTable, hj]
    | some t =>
      simp only [hk] at h
      cases hst : flushStack now t.length 0 t with
      | none => simp [hst] at h
      | some r =>
        obtain ⟨t1, cs, b⟩ := r
        simp only [hst] at h
        cases hks : flushKeys now m ks with
        | none => simp [hks] at h
        | some r2 =>
          obtain ⟨ch2, rest⟩ := r2
          simp only [hks, Option.some.injEq, Prod.mk.injEq] at h
          obtain ⟨rfl, rfl⟩ := h
          have hih := ih _ _ hks hnd2
          have hnot : k ∉ ch2.map Prod.fst := fun hc => hkks (flushKeys_keys now m _ _ _ hks k hc)
          cases b with
          | false =>
            simp only [Bool.false_eq_true, if_false]
            rw [hih]
            funext j
            by_cases hj : j = k
            · subst hj
              simp [sweptTable, hk, hkks, sweptStack, hst]
            · simp [sweptTable, hj]
          | true =>
            simp only [if_true, applyChanged]
            split
            · next hlen =>
              have hnil : t1 = [] := List.length_eq_zero.mp hlen
              rw [applyChanged_update _ _ _ _ hnot, hih]
              funext j
              by_cases hj : j = k
              · subst hj
                simp [sweptTable, hk, sweptStack, hst, hnil]
              · simp [sweptTable, hj, Function.update_noteq hj]
            · next hlen =>
              have hne : t1 ≠ [] := fun hc => hlen (by rw [hc]; rfl)
              rw [applyChanged_update _ _ _ _ hnot, hih]
              funext j
              by_cases hj : j = k
              · subst hj
                simp [sweptTable, hk, sweptStack, hst, hne]
              · simp [sweptTable, hj, Function.update_noteq hj]

end cache

theorem pendingStack_append (fc : FinalizerCall) (t1 t2 : List entry) :
    pendingStack fc (t1 ++ t2) = pendingStack fc t1 + pendingStack fc t2 := by
  simp [pendingStack]

theorem pendingStack_perm (fc : FinalizerCall) {t1 t2 : List entry} (h : t1.Perm t2) :
    pendingStack fc t1 = pendingStack fc t2 := by
  unfold pendingStack
  exact (h.map _).sum_eq

theorem pendingStack_cons (fc : FinalizerCall) (e : entry) (t : List entry) :
    pendingStack fc (e :: t) = e.callCount fc + pendingStack fc t := by
  simp [pendingStack]

/-- A successful `Finalize` makes the call of the stored finalizer, once, and
clears the stored finalizer. -/
theorem finalize_calls (e e1 : entry) (cs : List FinalizerCall)
    (h : e.Finalize = some (e1, cs)) :
    (∀ fc, cs.count fc = e.callCount fc) ∧ e1.finalizer = Finalizer.nil ∧
      e1.value = e.value ∧ e1.Finalize = some (e1, []) := by
  unfold entry.Finalize at h
  cases hf : e.finalizer with
  | nil =>
    simp only [hf, Option.some.injEq, Prod.mk.injEq] at h
    obtain ⟨rfl, rfl⟩ := h
    refine ⟨fun fc => ?_, hf, rfl, ?_⟩
    · simp [entry.callCount, hf, finalizerCallOf]
    · simp [entry.Finalize, hf]
  | func0 id =>
    simp only [hf, Option.some.injEq, Prod.mk.injEq] at h
    obtain ⟨rfl, rfl⟩ := h
    refine ⟨fun fc => ?_, rfl, rfl, rfl⟩
    by_cases hfc : FinalizerCall.func0 id = fc
    · simp [entry.callCount, hf, finalizerCallOf, hfc]
    · have hnot : fc ∉ [FinalizerCall.func0 id] := by
        simp only [List.mem_singleton]
        exact fun hc => hfc hc.symm
      simp [entry.callCount, hf, finalizerCallOf, hfc, List.count_eq_zero_of_not_mem hnot]
  | funcAny id =>
    simp only [hf, Option.some.injEq, Prod.mk.injEq] at h
    obtain ⟨rfl, rfl⟩ := h
    refine ⟨fun fc => ?_, rfl, rfl, rfl⟩
    by_cases hfc : FinalizerCall.funcAny id e.value = fc
    · simp [entry.callCount, hf, finalizerCallOf, hfc]
    · have hnot : fc ∉ [FinalizerCall.funcAny id e.value] := by
        simp only [List.mem_singleton]
        exact fun hc => hfc hc.symm
      simp [entry.callCount, hf, finalizerCallOf, hfc, List.count_eq_zero_of_not_mem hnot]
  | funcValue id =>
    simp only [hf] at h
    cases hv : e.value.Size? with
    | none => simp [hv] at h
    | some n =>
      simp only [hv, Option.some.injEq, Prod.mk.injEq] at h
      obtain ⟨rfl, rfl⟩ := h
      refine ⟨fun fc => ?_, rfl, rfl, rfl⟩
      by_cases hfc : FinalizerCall.funcValue id e.value = fc
      · simp [entry.callCount, hf, finalizerCallOf, hfc]
      · have hnot : fc ∉ [FinalizerCall.funcValue id e.value] := by
          simp only [List.mem_singleton]
          exact fun hc => hfc hc.symm
        simp [entry.callCount, hf, finalizerCallOf, hfc, List.count_eq_zero_of_not_mem hnot]
  | nilFunc0 => simp [hf] at h
  | nilFuncAny => simp [hf] at h
  | nilFuncValue => simp [hf] at h
  | other id => simp [hf] at h

namespace cache

theorem finalizeAll_count (fc : FinalizerCall) :
    ∀ (t : List entry) (cs : List FinalizerCall), finalizeAll t = some cs →
      cs.count fc = pendingStack fc t := by
  intro t
  induction t with
  | nil =>
    intro cs h
    simp only [finalizeAll, Option.some.injEq] at h
    subst h
    rfl
  | cons e t ih =>
    intro cs h
    rw [finalizeAll] at h
    cases hfin : e.Finalize with
    | none => simp [hfin] at h
    | some r =>
      obtain ⟨e1, c1⟩ := r
      simp only [hfin] at h
      cases hrest : finalizeAll t with
      | none => simp [hrest] at h
      | some rest =>
        simp only [hrest, Option.some.injEq] at h
        subst h
        rw [List.count_append, (finalize_calls e e1 c1 hfin).1 fc, ih rest hrest,
          pendingStack_cons]

/-- The stack `Flush` leaves for a key is non-empty or the untouched original, and
holds only entries of the original. -/
theorem sweptStack_some (now : Int) (t t1 : List entry) (h : sweptStack now t = some t1) :
    (t1 ≠ [] ∨ t1 = t) ∧ ∀ e ∈ t1, e ∈ t := by
  unfold sweptStack at h
  cases hst : flushStack now t.length 0 t with
  | none =>
    simp only [hst, Option.some.injEq] at h
    subst h
    exact ⟨Or.inr rfl, fun e he => he⟩
  | some r =>
    obtain ⟨t2, cs, b⟩ := r
    obtain ⟨removed, hperm, _, _, _, _⟩ := flushStack_removed now _ _ _ _ _ _ hst
    cases b with
    | false =>
      simp only [hst, Option.some.injEq] at h
      subst h
      exact ⟨Or.inr rfl, fun e he => he⟩
    | true =>
      simp only [hst] at h
      by_cases hlen : t2.length = 0
      · simp [hlen] at h
      · simp only [hlen, if_false, Option.some.injEq] at h
        subst h
        refine ⟨Or.inl fun hc => hlen (by rw [hc]; rfl), fun e he => ?_⟩
        exact hperm.mem_iff.mpr (List.mem_append_right _ he)

/-- Accounting for one key: the calls made plus the calls still pending in the
stack left equal the calls pending in the stack found. -/
theorem sweptStack_count (fc : FinalizerCall) (now : Int) (t t1 : List entry)
    (cs : List FinalizerCall) (b : Bool) (h : flushStack now t.length 0 t = some (t1, cs, b)) :
    cs.count fc + pendingStack fc ((sweptStack now t).getD []) = pendingStack fc t := by
  obtain ⟨removed, hperm, _, hcalls, hch, hsame⟩ := flushStack_removed now _ _ _ _ _ _ h
  have hcount := finalizeAll_count fc removed cs hcalls
  have hsum : pendingStack fc t = pendingStack fc removed + pendingStack fc t1 := by
    rw [pendingStack_perm fc hperm, pendingStack_append]
  have hleft : pendingStack fc ((sweptStack now t).getD []) = pendingStack fc t1 := by
    unfold sweptStack
    cases b with
    | false =>
      have hnil : removed = [] := by
        by_contra hc
        exact Bool.false_ne_true (hch.mpr hc)
      simp only [h, Option.getD_some]
      rw [hsame hnil]
    | true =>
      simp only [h]
      by_cases hlen : t1.length = 0
      · simp only [hlen, if_true, Option.getD_none]
        rw [List.length_eq_zero.mp hlen]
      · simp only [hlen, if_false, Option.getD_some]
  rw [hcount, hleft, hsum]

end cache

theorem sum_map_change {order : List String} (hnd : order.Nodup) {k : String}
    (hk : k ∈ order) (g g1 : String → Nat) (hsame : ∀ j, j ≠ k → g1 j = g j) :
    (order.map g1).sum + g k = (order.map g).sum + g1 k := by
  induction order with
  | nil => simp at hk
  | cons a rest ih =>
    obtain ⟨hnot, hnd2⟩ := List.nodup_cons.mp hnd
    simp only [List.map_cons, List.sum_cons]
    rcases List.mem_cons.mp hk with rfl | hk2
    · have hrest : rest.map g1 = rest.map g := by
        apply List.map_congr_left
        intro j hj
        exact hsame j fun hc => hnot (hc ▸ hj)
      rw [hrest]
      omega
    · have hak : a ≠ k := fun hc => hnot (hc ▸ hk2)
      have := ih hnd2 hk2
      rw [hsame a hak]
      omega

theorem sum_map_filter_zero (order : List String) (p : String → Bool) (g : String → Nat)
    (hzero : ∀ j, p j = false → g j = 0) :
    ((order.filter p).map g).sum = (order.map g).sum := by
  induction order with
  | nil => rfl
  | cons a rest ih =>
    by_cases hp : p a = true
    · simp only [List.filter_cons_of_pos hp, List.map_cons, List.sum_cons, ih]
    · have hpf : p a = false := by simpa using hp
      rw [List.filter_cons_of_neg hp, ih, List.map_cons, List.sum_cons, hzero a hpf, Nat.zero_add]

/-- After keys have been removed from a map, the remaining keys of an iteration
order of the old map form an iteration order of the new one, with the same
pending calls. -/
theorem keyOrder_restrict {m1 : String → Option (List entry)} {order : List String}
    (hnd : order.Nodup) (hsub : ∀ j, m1 j ≠ none → j ∈ order) :
    KeyOrder m1 (order.filter fun j => (m1 j).isSome) ∧
      ∀ fc, pendingTable fc m1 (order.filter fun j => (m1 j).isSome) =
        pendingTable fc m1 order := by
  refine ⟨⟨hnd.filter _, ?_⟩, ?_⟩
  · intro j
    simp only [List.mem_filter, Option.isSome_iff_ne_none, ne_eq]
    constructor
    · exact fun h => h.2
    · exact fun h => ⟨hsub j h, h⟩
  · intro fc
    apply sum_map_filter_zero
    intro j hj
    have : m1 j = none := by
      cases hmj : m1 j with
      | none => rfl
      | some t => simp [hmj] at hj
    simp [this, pendingStack]

theorem pendingStack_nil (fc : FinalizerCall) : pendingStack fc [] = 0 := rfl

theorem pendingTable_perm (fc : FinalizerCall) (m : String → Option (List entry))
    {o1 o2 : List String} (h : o1.Perm o2) : pendingTable fc m o1 = pendingTable fc m o2 := by
  unfold pendingTable
  exact (h.map _).sum_eq

theorem KeyOrder.perm {m : String → Option (List entry)} {o1 o2 : List String}
    (h1 : KeyOrder m o1) (h2 : KeyOrder m o2) : o1.Perm o2 :=
  (List.perm_ext_iff_of_nodup h1.1 h2.1).mpr fun k => by rw [h1.2 k, h2.2 k]

namespace cache

theorem flushKeys_count (fc : FinalizerCall) (now : Int) (m : String → Option (List entry)) :
    ∀ (order : List String) (ch : List (String × List entry)) (calls : List FinalizerCall),
      flushKeys now m order = some (ch, calls) →
      calls.count fc +
          (order.map fun k => pendingStack fc (((m k).bind (sweptStack now)).getD [])).sum =
        pendingTable fc m order := by
  intro order
  induction order with
  | nil =>
    intro ch calls h
    simp only [flushKeys, Option.some.injEq, Prod.mk.injEq] at h
    obtain ⟨rfl, rfl⟩ := h
    rfl
  | cons k ks ih =>
    intro ch calls h
    rw [flushKeys] at h
    simp only [pendingTable, List.map_cons, List.sum_cons]
    cases hk : m k with
    | none =>
      simp only [hk] at h
      have := ih _ _ h
      simp only [pendingTable] at this
      simp only [Option.none_bind, Option.getD_none, pendingStack_nil, Nat.zero_add]
      exact this
    | some t =>
      simp only [hk] at h
      cases hst : flushStack now t.length 0 t with
      | none => simp [hst] at h
      | some r =>
        obtain ⟨t1, cs, b⟩ := r
        simp only [hst] at h
        cases hks : flushKeys now m ks with
        | none => simp [hks] at h
        | some r2 =>
          obtain ⟨ch2, rest⟩ := r2
          simp only [hks, Option.some.injEq, Prod.mk.injEq] at h
          obtain ⟨_, rfl⟩ := h
          have h1 := ih _ _ hks
          have h2 := sweptStack_count fc now t t1 cs b hst
          simp only [pendingTable] at h1
          simp only [Option.some_bind, Option.getD_some, List.count_append]
          omega

/-- The result of a `Flush` that returns: the swept table, and the calls made
plus the calls still pending equal the calls pending before. -/
theorem Flush_some {c c1 : cache} {m : String → Option (List entry)} {order : List String}
    {now : Int} {calls : List FinalizerCall} (hm : c.table = some m) (hnd : order.Nodup)
    (h : c.Flush order now = some (c1, calls)) :
    c1 = { c with table := some (sweptTable now m order) } ∧
      ∀ fc, calls.count fc + pendingTable fc (sweptTable now m order) order =
        pendingTable fc m order := by
  unfold Flush at h
  simp only [hm] at h
  cases hfk : flushKeys now m order with
  | none => simp [hfk] at h
  | some r =>
    obtain ⟨ch, cs⟩ := r
    simp only [hfk, Option.some.injEq, Prod.mk.injEq] at h
    obtain ⟨rfl, rfl⟩ := h
    refine ⟨by rw [flushKeys_table now m order ch cs hfk hnd], fun fc => ?_⟩
    have hcount := flushKeys_count fc now m order ch cs hfk
    have hsame : pendingTable fc (sweptTable now m order) order =
        (order.map fun k => pendingStack fc (((m k).bind (sweptStack now)).getD [])).sum := by
      unfold pendingTable
      congr 1
      apply List.map_congr_left
      intro k hk
      simp [sweptTable, hk]
    rw [hsame]
    exact hcount

theorem cleanKeys_count (fc : FinalizerCall) (m : String → Option (List entry)) :
    ∀ (order : List String) (calls : List FinalizerCall), cleanKeys m order = some calls →
      calls.count fc = pendingTable fc m order := by
  intro order
  induction order with
  | nil =>
    intro calls h
    simp only [cleanKeys, Option.some.injEq] at h
    subst h
    rfl
  | cons k ks ih =>
    intro calls h
    rw [cleanKeys] at h
    simp only [pendingTable, List.map_cons, List.sum_cons]
    cases hk : m k with
    | none =>
      simp only [hk] at h
      have := ih _ h
      simp only [pendingTable] at this
      simp only [Option.getD_none, pendingStack_nil, Nat.zero_add]
      exact this
    | some t =>
      simp only [hk] at h
      cases hfin : finalizeAll t with
      | none => simp [hfin] at h
      | some cs =>
        simp only [hfin] at h
        cases hks : cleanKeys m ks with
        | none => simp [hks] at h
        | some rest =>
          simp only [hks, Option.some.injEq] at h
          subst h
          have h1 := ih _ hks
          have h2 := finalizeAll_count fc t cs hfin
          simp only [pendingTable] at h1
          simp only [Option.getD_some, List.count_append]
          omega

end cache

namespace cache

/-- `Store` on a non-nil table with an absent or recognised finalizer: the new
entry is pushed on the stack of the key. -/
theorem Store_ok {c : cache} {m : String → Option (List entry)} (hm : c.table = some m)
    (k : String) (x : GoValue) {f : Finalizer} (now : Int)
    (hf : ∀ id, f ≠ Finalizer.other id) :
    c.Store k x f now = Except.ok
      { c with table := some (Function.update m k (some ((m k).getD [] ++
        [{ value := x, finalizer := f, timeExpiration := now + c.defaultExpiration }]))) } := by
  cases f with
  | nil => cases htk : m k <;> simp [cache.Store, Table.get, Table.set, hm, htk]
  | func0 id => cases htk : m k <;> simp [cache.Store, Table.get, Table.set, hm, htk]
  | funcAny id => cases htk : m k <;> simp [cache.Store, Table.get, Table.set, hm, htk]
  | funcValue id => cases htk : m k <;> simp [cache.Store, Table.get, Table.set, hm, htk]
  | nilFunc0 => cases htk : m k <;> simp [cache.Store, Table.get, Table.set, hm, htk]
  | nilFuncAny => cases htk : m k <;> simp [cache.Store, Table.get, Table.set, hm, htk]
  | nilFuncValue => cases htk : m k <;> simp [cache.Store, Table.get, Table.set, hm, htk]
  | other id => exact absurd rfl (hf id)

/-- `Store` panics on an unrecognised finalizer and on a nil table, with the cache
as it found it. -/
theorem Store_error (c : cache) (k : String) (x : GoValue) (f : Finalizer) (now : Int)
    (h : (∃ id, f = Finalizer.other id) ∨ c.table = none) :
    c.Store k x f now = Except.error c := by
  rcases h with ⟨id, rfl⟩ | hnil
  · simp [cache.Store]
  · cases f <;> simp [cache.Store, Table.get, Table.set, hnil]

theorem Fetch_absent {c : cache} {k : String} (h : c.table.get k = none) :
    c.Fetch k = some ((GoValue.nil, false), c) := by
  simp only [cache.Fetch, h]

/-- `Fetch` of a key with a non-empty stack pops its last entry. -/
theorem Fetch_some {c : cache} {m : String → Option (List entry)} (hm : c.table = some m)
    {k : String} {t : List entry} {last : entry} (hk : m k = some (t ++ [last])) :
    c.Fetch k = some ((last.value, true),
      { c with table := some (Function.update m k (if t = [] then none else some t)) }) := by
  by_cases ht : t = []
  · subst ht
    simp [cache.Fetch, Table.get, Table.delete, hm, hk]
  · simp [cache.Fetch, Table.get, Table.set, hm, hk, ht]

end cache

namespace cache

/-- The stack found under a key is `init ++ [last]` when it is not empty. -/
theorem stack_split {t : List entry} (h : t ≠ []) : ∃ init last, t = init ++ [last] := by
  rcases List.eq_nil_or_concat t with hnil | ⟨init, last, hcat⟩
  · exact absurd hnil h
  · exact ⟨init, last, by rw [hcat, List.concat_eq_append]⟩

/-- The invariants of the table are kept by every call that returns. -/
theorem step_invariants {c c1 : cache} {evs : List PoolEvent} (call : PoolCall)
    (h1 : c.NoEmptyStack) (h2 : c.Accepted) (hv : c.validCall call)
    (hs : c.step call = some (c1, evs)) : c1.NoEmptyStack ∧ c1.Accepted := by
  cases call with
  | Store k x f now =>
    simp only [cache.step] at hs
    cases hm : c.table with
    | none =>
      rw [Store_error c k x f now (Or.inr hm)] at hs
      simp at hs
    | some m =>
      by_cases hf : ∃ id, f = Finalizer.other id
      · rw [Store_error c k x f now (Or.inl hf)] at hs
        simp at hs
      · have hf2 : ∀ id, f ≠ Finalizer.other id := fun id hc => hf ⟨id, hc⟩
        rw [Store_ok hm k x now hf2] at hs
        simp only [Option.some.injEq, Prod.mk.injEq] at hs
        obtain ⟨rfl, _⟩ := hs
        constructor
        · intro m1 j t hm1 hj
          simp only [Option.some.injEq] at hm1
          subst hm1
          by_cases hjk : j = k
          · subst hjk
            simp only [Function.update_same, Option.some.injEq] at hj
            subst hj
            simp
          · rw [Function.update_noteq hjk] at hj
            exact h1 m j t hm hj
        · intro m1 j t e hm1 hj he
          simp only [Option.some.injEq] at hm1
          subst hm1
          by_cases hjk : j = k
          · subst hjk
            simp only [Function.update_same, Option.some.injEq] at hj
            subst hj
            rcases List.mem_append.mp he with he | he
            · cases hmj : m j with
              | none => simp [hmj] at he
              | some t0 =>
                simp only [hmj, Option.getD_some] at he
                exact h2 m j t0 e hm hmj he
            · simp only [List.mem_singleton] at he
              subst he
              exact hf2
          · rw [Function.update_noteq hjk] at hj
            exact h2 m j t e hm hj he
  | Fetch k =>
    simp only [cache.step] at hs
    cases hm : c.table with
    | none =>
      rw [Fetch_absent (by simp [Table.get, hm])] at hs
      simp only [Option.some.injEq, Prod.mk.injEq] at hs
      obtain ⟨rfl, _⟩ := hs
      exact ⟨h1, h2⟩
    | some m =>
      cases hk : m k with
      | none =>
        rw [Fetch_absent (by simp [Table.get, hm, hk])] at hs
        simp only [Option.some.injEq, Prod.mk.injEq] at hs
        obtain ⟨rfl, _⟩ := hs
        exact ⟨h1, h2⟩
      | some t =>
        obtain ⟨init, last, rfl⟩ := stack_split (h1 m k t hm hk)
        rw [Fetch_some hm hk] at hs
        simp only [Option.some.injEq, Prod.mk.injEq] at hs
        obtain ⟨rfl, _⟩ := hs
        constructor
        · intro m1 j t hm1 hj
          simp only [Option.some.injEq] at hm1
          subst hm1
          by_cases hjk : j = k
          · subst hjk
            by_cases hinit : init = []
            · simp [hinit] at hj
            · simp only [Function.update_same, hinit, if_false, Option.some.injEq] at hj
              subst hj
              exact hinit
          · rw [Function.update_noteq hjk] at hj
            exact h1 m j t hm hj
        · intro m1 j t e hm1 hj he
          simp only [Option.some.injEq] at hm1
          subst hm1
          by_cases hjk : j = k
          · subst hjk
            by_cases hinit : init = []
            · simp [hinit] at hj
            · simp only [Function.update_same, hinit, if_false, Option.some.injEq] at hj
              subst hj
              exact h2 m j _ e hm hk (List.mem_append_left _ he)
          · rw [Function.update_noteq hjk] at hj
            exact h2 m j t e hm hj he
  | Flush order now =>
    simp only [cache.step] at hs
    cases hfl : c.Flush order now with
    | none => simp [hfl] at hs
    | some r =>
      obtain ⟨c2, calls⟩ := r
      simp only [hfl, Option.some.injEq, Prod.mk.injEq] at hs
      obtain ⟨rfl, _⟩ := hs
      cases hm : c.table with
      | none =>
        simp only [cache.Flush, hm, Option.some.injEq, Prod.mk.injEq] at hfl
        obtain ⟨rfl, _⟩ := hfl
        exact ⟨h1, h2⟩
      | some m =>
        have hord : KeyOrder m order := hv m hm
        obtain ⟨rfl, _⟩ := Flush_some hm hord.1 hfl
        have hkey : ∀ j t1, sweptTable now m order j = some t1 →
            ∃ t, m j = some t ∧ (t1 ≠ [] ∨ t1 = t) ∧ ∀ e ∈ t1, e ∈ t := by
          intro j t1 hj
          unfold sweptTable at hj
          by_cases hjo : j ∈ order
          · simp only [hjo, if_true] at hj
            cases hmj : m j with
            | none => simp [hmj] at hj
            | some t =>
              simp only [hmj, Option.some_bind] at hj
              exact ⟨t, rfl, sweptStack_some now t t1 hj⟩
          · simp only [hjo, if_false] at hj
            exact ⟨t1, hj, Or.inr rfl, fun e he => he⟩
        constructor
        · intro m1 j t1 hm1 hj
          simp only [Option.some.injEq] at hm1
          subst hm1
          obtain ⟨t, hmj, hne, _⟩ := hkey j t1 hj
          rcases hne with hne | rfl
          · exact hne
          · exact h1 m j _ hm hmj
        · intro m1 j t1 e hm1 hj he
          simp only [Option.some.injEq] at hm1
          subst hm1
          obtain ⟨t, hmj, _, hsub⟩ := hkey j t1 hj
          exact h2 m j t e hm hmj (hsub e he)
  | Clean order =>
    simp only [cache.step] at hs
    cases hcl : c.Clean order with
    | none => simp [hcl] at hs
    | some r =>
      obtain ⟨c2, calls⟩ := r
      simp only [hcl, Option.some.injEq, Prod.mk.injEq] at hs
      obtain ⟨rfl, _⟩ := hs
      have hnil : c2.table = none := by
        unfold cache.Clean at hcl
        cases hm : c.table with
        | none =>
          simp only [hm, Option.some.injEq, Prod.mk.injEq] at hcl
          obtain ⟨rfl, _⟩ := hcl
          rfl
        | some m =>
          simp only [hm] at hcl
          cases hck : cleanKeys m order with
          | none => simp [hck] at hcl
          | some cs =>
            simp only [hck, Option.some.injEq, Prod.mk.injEq] at hcl
            obtain ⟨rfl, _⟩ := hcl
            rfl
      constructor
      · intro m1 j t hm1
        rw [hnil] at hm1
        cases hm1
      · intro m1 j t e hm1
        rw [hnil] at hm1
        cases hm1

end cache

theorem PoolReachable.invariants {c : cache} (h : PoolReachable c) :
    c.NoEmptyStack ∧ c.Accepted := by
  induction h with
  | init d ci =>
    constructor
    · intro m k t hm hk
      simp only [NewCache, Option.some.injEq] at hm
      subst hm
      cases hk
    · intro m k t e hm hk
      simp only [NewCache, Option.some.injEq] at hm
      subst hm
      cases hk
  | step call _ hv hs ih => exact cache.step_invariants call ih.1 ih.2 hv hs

theorem PoolReachable.of_pool_run {c : cache} (h : PoolReachable c) (calls : List PoolCall) :
    ∀ {c1 : cache} {evs : List PoolEvent}, c.validRun calls → c.run calls = some (c1, evs) →
      PoolReachable c1 := by
  induction calls generalizing c with
  | nil =>
    intro c1 evs _ hrun
    simp only [cache.run, Option.some.injEq, Prod.mk.injEq] at hrun
    exact hrun.1 ▸ h
  | cons call calls ih =>
    intro c1 evs hv hrun
    rw [cache.run] at hrun
    cases hs : c.step call with
    | none => simp [hs] at hrun
    | some r =>
      obtain ⟨c2, e2⟩ := r
      simp only [hs] at hrun
      cases hr : c2.run calls with
      | none => simp [hr] at hrun
      | some r2 =>
        obtain ⟨c3, e3⟩ := r2
        simp only [hr, Option.some.injEq, Prod.mk.injEq] at hrun
        obtain ⟨rfl, _⟩ := hrun
        exact ih (PoolReachable.step call h hv.1 hs) (hv.2 c2 e2 hs) hr

theorem cache.validRun_of_storeFetch (calls : List PoolCall) :
    ∀ c : cache, (∀ call ∈ calls, call.isStoreFetch = true) → c.validRun calls := by
  induction calls with
  | nil =>
    intro c _
    trivial
  | cons call calls ih =>
    intro c hall
    refine ⟨?_, fun c1 _ _ => ih c1 fun x hx => hall x (List.mem_cons_of_mem _ hx)⟩
    have := hall call (List.mem_cons_self _ _)
    cases call <;> simp [PoolCall.isStoreFetch] at this <;> trivial

theorem PoolReachable.after_calls (defaultExpiration : Int) (calls : List PoolCall)
    (hall : ∀ call ∈ calls, call.isStoreFetch = true) :
    PoolReachable (cache.after defaultExpiration calls) := by
  unfold cache.after
  cases hrun : (NewCache defaultExpiration 0).1.run calls with
  | none => exact PoolReachable.init defaultExpiration 0
  | some r =>
    obtain ⟨c, evs⟩ := r
    exact (PoolReachable.init defaultExpiration 0).of_pool_run calls
      (cache.validRun_of_storeFetch calls _ hall) hrun

theorem Finalizer.recognised_iff (f : Finalizer) :
    f.recognised = true ↔ ∀ id, f ≠ Finalizer.other id := by
  cases f <;> simp [Finalizer.recognised]

/-- The pool cache refines the last-in-first-out specification on every sequence
of `Fetch` calls and accepted `Store` calls. -/
theorem cache.run_lifo (calls : List PoolCall) :
    ∀ (c : cache) (m : String → Option (List entry)), PoolReachable c → c.table = some m →
      (∀ call ∈ calls, call.isPlain = true) →
      ∃ c1, c.run calls = some (c1, lifoSpec (stackValues m) calls) := by
  induction calls with
  | nil =>
    intro c m _ _ _
    exact ⟨c, rfl⟩
  | cons call calls ih =>
    intro c m hreach hm hall
    have hrest : ∀ x ∈ calls, x.isPlain = true := fun x hx =>
      hall x (List.mem_cons_of_mem _ hx)
    have hcall := hall call (List.mem_cons_self _ _)
    cases call with
    | Store k x f now =>
      have hf : ∀ id, f ≠ Finalizer.other id := (Finalizer.recognised_iff f).mp hcall
      have hstep : c.step (PoolCall.Store k x f now) = some
          ({ c with table := some (Function.update m k (some ((m k).getD [] ++
            [{ value := x, finalizer := f, timeExpiration := now + c.defaultExpiration }]))) },
            []) := by
        simp only [cache.step, cache.Store_ok hm k x now hf]
      obtain ⟨c1, hrun⟩ :=
        ih _ _ (PoolReachable.step (PoolCall.Store k x f now) hreach trivial hstep) rfl hrest
      refine ⟨c1, ?_⟩
      rw [cache.run, hstep]
      simp only [hrun, List.nil_append, lifoSpec]
      congr 3
      funext j
      by_cases hj : j = k
      · subst hj
        simp [stackValues]
      · simp [stackValues, Function.update_noteq hj]
    | Fetch k =>
      cases hk : m k with
      | none =>
        have hstep : c.step (PoolCall.Fetch k) = some (c, [PoolEvent.fetched GoValue.nil false]) := by
          simp only [cache.step, cache.Fetch_absent (show c.table.get k = none by
            simp [Table.get, hm, hk])]
        obtain ⟨c1, hrun⟩ := ih c m hreach hm hrest
        refine ⟨c1, ?_⟩
        rw [cache.run, hstep]
        have hv : stackValues m k = [] := by simp [stackValues, hk]
        simp only [hrun, lifoSpec, hv, List.singleton_append]
      | some t =>
        obtain ⟨init, last, rfl⟩ := cache.stack_split (hreach.invariants.1 m k t hm hk)
        have hstep : c.step (PoolCall.Fetch k) = some
            ({ c with table := some (Function.update m k (if init = [] then none else some init)) },
              [PoolEvent.fetched last.value true]) := by
          simp only [cache.step, cache.Fetch_some hm hk]
        obtain ⟨c1, hrun⟩ :=
          ih _ _ (PoolReachable.step (PoolCall.Fetch k) hreach trivial hstep) rfl hrest
        refine ⟨c1, ?_⟩
        rw [cache.run, hstep]
        have hv : stackValues m k = last.value :: init.reverse.map entry.value := by
          simp [stackValues, hk]
        simp only [hrun, lifoSpec, hv, List.singleton_append]
        congr 4
        funext j
        by_cases hj : j = k
        · subst hj
          by_cases hinit : init = []
          · simp [stackValues, hinit]
          · simp [stackValues, hinit]
        · simp [stackValues, Function.update_noteq hj]
    | Flush order now => simp [PoolCall.isPlain] at hcall
    | Clean order => simp [PoolCall.isPlain] at hcall

theorem lifoSpec_stores (k : String) (rest : List PoolCall) :
    ∀ (items : List (GoValue × Finalizer × Int)) (pending : String → List GoValue),
      lifoSpec pending (items.map (fun it => PoolCall.Store k it.1 it.2.1 it.2.2) ++ rest) =
        lifoSpec (Function.update pending k
          ((items.reverse.map fun it => it.1) ++ pending k)) rest := by
  intro items
  induction items with
  | nil =>
    intro pending
    simp
  | cons it tl ih =>
    intro pending
    rw [List.map_cons, List.cons_append, lifoSpec, ih]
    simp [Function.update_same]

theorem lifoSpec_fetches (k : String) :
    ∀ (vs tail : List GoValue) (pending : String → List GoValue), pending k = vs ++ tail →
      lifoSpec pending (List.replicate vs.length (PoolCall.Fetch k)) =
        vs.map fun v => PoolEvent.fetched v true := by
  intro vs
  induction vs with
  | nil =>
    intro tail pending _
    rfl
  | cons v vs ih =>
    intro tail pending hp
    simp only [List.length_cons, List.replicate_succ, lifoSpec, hp, List.cons_append,
      List.map_cons]
    rw [ih tail _ (by simp)]

namespace LRUCache

/-- The eviction loop needs only the size accounting to be safe: when the tracked
size is the sum of the entry sizes modulo `2^64`, it returns normally. -/
theorem checkCapacity_of_size (n : Nat) : ∀ s : LRUCache, s.list.length = n →
    s.size = toUint64 (sumSizes s.heap s.list) →
    ∃ s1, s.checkCapacity = some s1 ∧ s1.size ≤ s1.capacity ∧
      s1.list.length ≤ s.list.length ∧ s1.capacity = s.capacity := by
  induction n with
  | zero =>
    intro s hlen hsz
    have hnil : s.list = [] := List.length_eq_zero.mp hlen
    have h0 : s.size = 0 := by
      rw [hsz, hnil, sumSizes_nil]
      rfl
    refine ⟨s, ?_, by omega, le_refl _, rfl⟩
    rw [checkCapacity_unfold, if_neg (by omega)]
  | succ n ih =>
    intro s hlen hsz
    by_cases hgt : s.size > s.capacity
    · cases hl : s.list.getLast? with
      | none =>
        rw [List.getLast?_eq_none_iff] at hl
        rw [hl] at hlen
        simp at hlen
      | some d =>
        have hmem : d ∈ s.list := List.mem_of_getLast?_eq_some hl
        have hlen2 : (s.evictBack d).list.length = n := by
          simp [evictBack, List.length_erase_of_mem hmem, hlen]
        have hsz2 : (s.evictBack d).size =
            toUint64 (sumSizes (s.evictBack d).heap (s.evictBack d).list) := by
          show subU64 s.size (toUint64 (s.heap d).size) =
            toUint64 (sumSizes s.heap (s.list.erase d))
          rw [hsz, subU64_toUint64, sumSizes_erase s.heap hmem]
        obtain ⟨s1, hrun, hcap, hlen1, hc⟩ := ih (s.evictBack d) hlen2 hsz2
        refine ⟨s1, ?_, hcap, ?_, hc⟩
        · rw [checkCapacity_unfold, if_pos hgt, hl]
          exact hrun
        · rw [hlen2] at hlen1
          omega
    · refine ⟨s, ?_, by omega, le_refl _, rfl⟩
      rw [checkCapacity_unfold, if_neg hgt]

theorem WF.keys_nodup {s : LRUCache} (h : s.WF) : s.Keys.Nodup := by
  unfold Keys
  refine List.Nodup.map_on ?_ h.nodup
  intro a ha b hb hkey
  by_contra hne
  exact (h.ne_iff_key_ne hb ha).mp hne hkey

end LRUCache

namespace cache

/-- The inner loop of `Flush` returns normally when every expired entry of the
stack can be finalized. -/
theorem flushStack_ok (now : Int) : ∀ (fuel i : Nat) (t : List entry),
    (∀ e ∈ t, e.Expired now = true → e.Finalize ≠ none) →
    ∃ r, flushStack now fuel i t = some r := by
  intro fuel
  induction fuel with
  | zero =>
    intro i t _
    exact ⟨_, rfl⟩
  | succ n ih =>
    intro i t hfin
    rw [flushStack]
    cases hi : t[i]? with
    | none => exact ⟨_, rfl⟩
    | some e =>
      by_cases hexp : e.Expired now = true
      · simp only [hexp, if_true]
        cases hf : e.Finalize with
        | none => exact absurd hf (hfin e (List.getElem?_mem hi) hexp)
        | some r =>
          obtain ⟨e1, cs⟩ := r
          have hsub : ∀ x ∈ (t.set i (t.getLastD e)).dropLast, x ∈ t := by
            intro x hx
            rw [List.getLastD_eq_getLast?] at hx
            have hp := swapRemove_perm t i e _ hi (getLast?_of_getElem? hi)
            exact hp.mem_iff.mpr (List.mem_cons_of_mem _ hx)
          obtain ⟨r2, hr2⟩ := ih i _ fun x hx => hfin x (hsub x hx)
          obtain ⟨t2, rest, b⟩ := r2
          simp only [hr2]
          exact ⟨_, rfl⟩
      · simp only [hexp, if_false, Bool.false_eq_true]
        exact ih (i + 1) t hfin

theorem flushKeys_ok (now : Int) (m : String → Option (List entry))
    (hfin : ∀ k t e, m k = some t → e ∈ t → e.Expired now = true → e.Finalize ≠ none) :
    ∀ order, ∃ r, flushKeys now m order = some r := by
  intro order
  induction order with
  | nil => exact ⟨_, rfl⟩
  | cons k ks ih =>
    obtain ⟨r, hr⟩ := ih
    obtain ⟨ch, rest⟩ := r
    rw [flushKeys]
    cases hk : m k with
    | none => exact ⟨_, hr⟩
    | some t =>
      obtain ⟨r2, hr2⟩ := flushStack_ok now t.length 0 t fun e he => hfin k t e hk he
      obtain ⟨t1, cs, b⟩ := r2
      simp only [hr2, hr]
      exact ⟨_, rfl⟩

/-- The stack `Flush` leaves for a key holds the fresh entries of the stack it
found, and the key is deleted exactly when none is left. -/
theorem sweptStack_fresh (now : Int) (t : List entry)
    (hfin : ∀ e ∈ t, e.Expired now = true → e.Finalize ≠ none) :
    ((sweptStack now t).getD []).Perm (t.filter fun e => !e.Expired now) ∧
      (sweptStack now t = none ↔ t ≠ [] ∧ ∀ e ∈ t, e.Expired now = true) := by
  obtain ⟨r, hr⟩ := flushStack_ok now t.length 0 t hfin
  obtain ⟨t1, cs, b⟩ := r
  obtain ⟨removed, hperm, hrem, hleft, _, hch, hsame⟩ := flushStack_sweep now t t1 cs b hr
  unfold sweptStack
  cases b with
  | false =>
    have hnil : removed = [] := by
      by_contra hc
      exact Bool.false_ne_true (hch.mpr hc)
    have ht1 : t1 = t := hsame hnil
    subst ht1
    simp only [hr, Option.getD_some]
    refine ⟨hleft, Iff.intro (fun hc => Option.noConfusion hc) (fun hc => ?_)⟩
    obtain ⟨hne, hall⟩ := hc
    exfalso
    rw [hnil] at hrem
    have hfil := List.Perm.eq_nil hrem.symm
    obtain ⟨e, he⟩ := List.exists_mem_of_ne_nil t1 hne
    have := List.filter_eq_nil_iff.mp hfil e he
    exact this (hall e he)
  | true =>
    have hne : removed ≠ [] := hch.mp rfl
    have htne : t ≠ [] := by
      intro hc
      rw [hc] at hperm
      have := List.Perm.eq_nil hperm.symm
      simp at this
      exact hne this.1
    simp only [hr]
    by_cases hlen : t1.length = 0
    · have ht1 : t1 = [] := List.length_eq_zero.mp hlen
      subst ht1
      refine ⟨by simpa using hleft, Iff.intro (fun _ => ⟨htne, fun e he => ?_⟩) (fun _ => by simp)⟩
      have hfil := List.Perm.eq_nil hleft.symm
      have := List.filter_eq_nil_iff.mp hfil e he
      simpa using this
    · simp only [hlen, if_false, Option.getD_some]
      refine ⟨hleft, Iff.intro (fun hc => Option.noConfusion hc) (fun hc => ?_)⟩
      exfalso
      have hfil : t.filter (fun e => !e.Expired now) = [] :=
        List.filter_eq_nil_iff.mpr fun e he => by simp [hc.2 e he]
      rw [hfil] at hleft
      exact hlen (by rw [List.Perm.eq_nil hleft]; rfl)

end cache

theorem sum_map_add_of (order : List String) (f g h : String → Nat)
    (hsplit : ∀ k ∈ order, f k = g k + h k) :
    (order.map f).sum = (order.map g).sum + (order.map h).sum := by
  induction order with
  | nil => rfl
  | cons a rest ih =>
    simp only [List.map_cons, List.sum_cons]
    rw [hsplit a (List.mem_cons_self _ _), ih fun k hk => hsplit k (List.mem_cons_of_mem _ hk)]
    omega

namespace cache

/-- `Flush` on a table whose expired entries can all be finalized: it returns
normally, leaves under every key the fresh entries of its stack, deletes the keys
left without entries, and makes the finalizer call of every expired entry once. -/
theorem Flush_finalizable {c : cache} {m : String → Option (List entry)}
    {order : List String} (now : Int) (hm : c.table = some m) (hord : KeyOrder m order)
    (hfin : ∀ k t e, m k = some t → e ∈ t → e.Expired now = true → e.Finalize ≠ none) :
    ∃ m1 calls, c.Flush order now = some ({ c with table := some m1 }, calls) ∧
      (∀ k, m k = none → m1 k = none) ∧
      (∀ k t, m k = some t →
        ((m1 k).getD []).Perm (t.filter fun e => !e.Expired now) ∧
        (m1 k = none ↔ t ≠ [] ∧ ∀ e ∈ t, e.Expired now = true)) ∧
      ∀ fc, calls.count fc =
        pendingTable fc (fun k => (m k).map (List.filter fun e => e.Expired now)) order := by
  obtain ⟨r, hr⟩ := flushKeys_ok now m hfin order
  obtain ⟨ch, calls⟩ := r
  have hfl : c.Flush order now =
      some ({ c with table := some (applyChanged m ch) }, calls) := by
    simp only [Flush, hm, hr]
  obtain ⟨_, hcount⟩ := Flush_some hm hord.1 hfl
  have htab : applyChanged m ch = sweptTable now m order := flushKeys_table now m order ch calls hr hord.1
  rw [htab] at hfl
  have hkey : ∀ k t, m k = some t → sweptTable now m order k = sweptStack now t := by
    intro k t hk
    have hin : k ∈ order := (hord.2 k).mpr (by rw [hk]; simp)
    simp [sweptTable, hin, hk]
  refine ⟨_, calls, hfl, ?_, ?_, ?_⟩
  · intro k hk
    have hnot : k ∉ order := fun hc => (hord.2 k).mp hc hk
    simp [sweptTable, hnot, hk]
  · intro k t hk
    rw [hkey k t hk]
    exact sweptStack_fresh now t fun e he => hfin k t e hk he
  · intro fc
    have hsplit : pendingTable fc m order =
        pendingTable fc (fun k => (m k).map (List.filter fun e => e.Expired now)) order +
          pendingTable fc (sweptTable now m order) order := by
      unfold pendingTable
      apply sum_map_add_of
      intro k hk
      cases hmk : m k with
      | none =>
        have hnone : sweptTable now m order k = none := by simp [sweptTable, hk, hmk]
        simp [hnone, hmk, pendingStack_nil]
      | some t =>
        rw [hkey k t hmk]
        have h1 := (sweptStack_fresh now t fun e he => hfin k t e hmk he).1
        have h2 : (t.filter (fun e => e.Expired now) ++ t.filter fun e => !e.Expired now).Perm t :=
          List.filter_append_perm _ t
        simp only [hmk, Option.getD_some, Option.map_some']
        rw [pendingStack_perm fc h1, ← pendingStack_append, pendingStack_perm fc h2]
    have := hcount fc
    omega

theorem finalizeAll_ok : ∀ t : List entry, (∀ e ∈ t, e.Finalize ≠ none) →
    ∃ calls, finalizeAll t = some calls := by
  intro t
  induction t with
  | nil =>
    intro _
    exact ⟨[], rfl⟩
  | cons e t ih =>
    intro h
    obtain ⟨rest, hrest⟩ := ih fun x hx => h x (List.mem_cons_of_mem _ hx)
    rw [finalizeAll]
    cases hf : e.Finalize with
    | none => exact absurd hf (h e (List.mem_cons_self _ _))
    | some r =>
      obtain ⟨e1, cs⟩ := r
      simp only [hrest]
      exact ⟨_, rfl⟩

theorem cleanKeys_ok (m : String → Option (List entry))
    (hfin : ∀ k t e, m k = some t → e ∈ t → e.Finalize ≠ none) :
    ∀ order, ∃ calls, cleanKeys m order = some calls := by
  intro order
  induction order with
  | nil => exact ⟨[], rfl⟩
  | cons k ks ih =>
    obtain ⟨rest, hrest⟩ := ih
    rw [cleanKeys]
    cases hk : m k with
    | none => exact ⟨rest, hrest⟩
    | some t =>
      obtain ⟨cs, hcs⟩ := finalizeAll_ok t fun e he => hfin k t e hk he
      simp only [hcs, hrest]
      exact ⟨_, rfl⟩

/-- `Clean` on a table whose entries can all be finalized: it returns normally,
makes the finalizer call of every entry once and leaves the nil table. -/
theorem Clean_finalizable {c : cache} {m : String → Option (List entry)}
    (order : List String) (hm : c.table = some m)
    (hfin : ∀ k t e, m k = some t → e ∈ t → e.Finalize ≠ none) :
    ∃ calls, c.Clean order = some ({ c with table := none }, calls) ∧
      ∀ fc, calls.count fc = pendingTable fc m order := by
  obtain ⟨calls, hcalls⟩ := cleanKeys_ok m hfin order
  refine ⟨calls, ?_, fun fc => cleanKeys_count fc m order calls hcalls⟩
  simp only [Clean, hm, hcalls]

end cache

theorem storesOf_cons (fc : FinalizerCall) (call : PoolCall) (calls : List PoolCall) :
    storesOf fc (call :: calls) = storesOf fc [call] + storesOf fc calls := by
  cases call <;> simp [storesOf]

theorem count_finalized_map (fc : FinalizerCall) (calls : List FinalizerCall) :
    (calls.map PoolEvent.finalized).count (PoolEvent.finalized fc) = calls.count fc := by
  induction calls with
  | nil => rfl
  | cons a rest ih =>
    by_cases h : a = fc
    · subst h
      simp [ih]
    · have h2 : PoolEvent.finalized a ≠ PoolEvent.finalized fc := fun hc =>
        h (PoolEvent.finalized.inj hc)
      rw [List.map_cons, List.count_cons_of_ne h2.symm, List.count_cons_of_ne (Ne.symm h), ih]

namespace cache

theorem Pending.of_table {fc : FinalizerCall} {c : cache} {n : Nat}
    {m : String → Option (List entry)} (hp : c.Pending fc n) (hm : c.table = some m) :
    ∃ order, KeyOrder m order ∧ pendingTable fc m order = n := by
  unfold Pending at hp
  rw [hm] at hp
  exact hp

theorem Pending.mk {fc : FinalizerCall} {c : cache} {m : String → Option (List entry)}
    {order : List String} (hm : c.table = some m) (hord : KeyOrder m order) :
    c.Pending fc (pendingTable fc m order) := by
  unfold Pending
  rw [hm]
  exact ⟨order, hord, rfl⟩

/-- Pending calls after `Store`: one more for the call of the new entry. -/
theorem pending_store (fc : FinalizerCall) {m : String → Option (List entry)}
    {order : List String} (hord : KeyOrder m order) (k : String) (it : entry) :
    ∃ order1, KeyOrder (Function.update m k (some ((m k).getD [] ++ [it]))) order1 ∧
      pendingTable fc (Function.update m k (some ((m k).getD [] ++ [it]))) order1 =
        pendingTable fc m order + it.callCount fc := by
  have hsingle : pendingStack fc [it] = it.callCount fc := by simp [pendingStack]
  cases hk : m k with
  | none =>
    have hnot : k ∉ order := fun hc => (hord.2 k).mp hc hk
    refine ⟨k :: order, ⟨List.nodup_cons.mpr ⟨hnot, hord.1⟩, fun j => ?_⟩, ?_⟩
    · by_cases hj : j = k
      · subst hj
        simp
      · simp only [List.mem_cons, hj, false_or, Function.update_noteq hj]
        exact hord.2 j
    · unfold pendingTable
      simp only [List.map_cons, List.sum_cons, Function.update_same, Option.getD_some,
        Option.getD_none, List.nil_append, hsingle]
      have hrest : (order.map fun j => pendingStack fc
          ((Function.update m k (some [it]) j).getD [])) =
          order.map fun j => pendingStack fc ((m j).getD []) := by
        apply List.map_congr_left
        intro j hj
        have hne : j ≠ k := fun hc => hnot (hc ▸ hj)
        rw [Function.update_noteq hne]
      rw [hrest]
      omega
  | some t =>
    have hin : k ∈ order := (hord.2 k).mpr (by rw [hk]; simp)
    refine ⟨order, ⟨hord.1, fun j => ?_⟩, ?_⟩
    · by_cases hj : j = k
      · subst hj
        simp [hin]
      · rw [Function.update_noteq hj]
        exact hord.2 j
    · have := sum_map_change hord.1 hin (fun j => pendingStack fc ((m j).getD []))
        (fun j => pendingStack fc
          ((Function.update m k (some (t ++ [it])) j).getD []))
        (fun j hj => by simp only [Function.update_noteq hj])
      simp only [Function.update_same, Option.getD_some, hk, pendingStack_append, hsingle] at this
      unfold pendingTable
      simp only [Option.getD_some]
      omega

/-- Pending calls after `Fetch` has popped `last`: no more than before. -/
theorem pending_fetch (fc : FinalizerCall) {m : String → Option (List entry)}
    {order : List String} (hord : KeyOrder m order) {k : String} {init : List entry}
    {last : entry} (hk : m k = some (init ++ [last])) :
    ∃ order1 n1,
      KeyOrder (Function.update m k (if init = [] then none else some init)) order1 ∧
      pendingTable fc (Function.update m k (if init = [] then none else some init)) order1 = n1 ∧
      n1 ≤ pendingTable fc m order := by
  have hin : k ∈ order := (hord.2 k).mpr (by rw [hk]; simp)
  have hsub : ∀ j, Function.update m k (if init = [] then none else some init) j ≠ none →
      j ∈ order := by
    intro j hj
    by_cases hjk : j = k
    · exact hjk ▸ hin
    · rw [Function.update_noteq hjk] at hj
      exact (hord.2 j).mpr hj
  obtain ⟨hord1, hsame⟩ := keyOrder_restrict hord.1 hsub
  refine ⟨_, _, hord1, rfl, ?_⟩
  rw [hsame fc]
  have hval : pendingStack fc
      ((Function.update m k (if init = [] then none else some init) k).getD []) =
      pendingStack fc init := by
    by_cases hinit : init = []
    · simp [hinit]
    · simp [hinit]
  have := sum_map_change hord.1 hin (fun j => pendingStack fc ((m j).getD []))
    (fun j => pendingStack fc
      ((Function.update m k (if init = [] then none else some init) j).getD []))
    (fun j hj => by simp only [Function.update_noteq hj])
  simp only [hval, hk, Option.getD_some, pendingStack_append] at this
  unfold pendingTable
  omega

end cache

namespace cache

/-- One call of the pool cache: the finalizer calls it makes plus the calls still
pending afterwards are at most the calls pending before plus the one a `Store`
adds. -/
theorem step_pending (fc : FinalizerCall) {c c1 : cache} {evs : List PoolEvent} {n : Nat}
    (call : PoolCall) (hinv : c.NoEmptyStack) (hp : c.Pending fc n) (hv : c.validCall call)
    (hs : c.step call = some (c1, evs)) :
    ∃ n1, c1.Pending fc n1 ∧
      evs.count (PoolEvent.finalized fc) + n1 ≤ n + storesOf fc [call] := by
  cases call with
  | Store k x f now =>
    simp only [cache.step] at hs
    cases hm : c.table with
    | none =>
      rw [Store_error c k x f now (Or.inr hm)] at hs
      simp at hs
    | some m =>
      by_cases hf : ∃ id, f = Finalizer.other id
      · rw [Store_error c k x f now (Or.inl hf)] at hs
        simp at hs
      · have hf2 : ∀ id, f ≠ Finalizer.other id := fun id hc => hf ⟨id, hc⟩
        rw [Store_ok hm k x now hf2] at hs
        simp only [Option.some.injEq, Prod.mk.injEq] at hs
        obtain ⟨rfl, rfl⟩ := hs
        obtain ⟨order, hord, hn⟩ := hp.of_table hm
        obtain ⟨order1, hord1, hn1⟩ := pending_store fc hord k
          { value := x, finalizer := f, timeExpiration := now + c.defaultExpiration }
        refine ⟨_, Pending.mk rfl hord1, ?_⟩
        rw [hn1, hn]
        simp [storesOf, entry.callCount]
  | Fetch k =>
    simp only [cache.step] at hs
    have hzero : ∀ v b, [PoolEvent.fetched v b].count (PoolEvent.finalized fc) = 0 := by
      intro v b
      simp
    cases hm : c.table with
    | none =>
      rw [Fetch_absent (by simp [Table.get, hm])] at hs
      simp only [Option.some.injEq, Prod.mk.injEq] at hs
      obtain ⟨rfl, rfl⟩ := hs
      exact ⟨n, hp, by rw [hzero]; omega⟩
    | some m =>
      cases hk : m k with
      | none =>
        rw [Fetch_absent (by simp [Table.get, hm, hk])] at hs
        simp only [Option.some.injEq, Prod.mk.injEq] at hs
        obtain ⟨rfl, rfl⟩ := hs
        exact ⟨n, hp, by rw [hzero]; omega⟩
      | some t =>
        obtain ⟨init, last, rfl⟩ := stack_split (hinv m k t hm hk)
        rw [Fetch_some hm hk] at hs
        simp only [Option.some.injEq, Prod.mk.injEq] at hs
        obtain ⟨rfl, rfl⟩ := hs
        obtain ⟨order, hord, hn⟩ := hp.of_table hm
        obtain ⟨order1, n1, hord1, hn1, hle⟩ := pending_fetch fc hord hk
        refine ⟨n1, ?_, by rw [hzero]; omega⟩
        rw [← hn1]
        exact Pending.mk rfl hord1
  | Flush order now =>
    simp only [cache.step] at hs
    cases hfl : c.Flush order now with
    | none => simp [hfl] at hs
    | some r =>
      obtain ⟨c2, calls⟩ := r
      simp only [hfl, Option.some.injEq, Prod.mk.injEq] at hs
      obtain ⟨rfl, rfl⟩ := hs
      rw [count_finalized_map]
      cases hm : c.table with
      | none =>
        simp only [cache.Flush, hm, Option.some.injEq, Prod.mk.injEq] at hfl
        obtain ⟨rfl, rfl⟩ := hfl
        exact ⟨n, hp, by simp⟩
      | some m =>
        have hord : KeyOrder m order := hv m hm
        obtain ⟨order0, hord0, hn⟩ := hp.of_table hm
        have hn2 : pendingTable fc m order = n := by
          rw [← hn]
          exact pendingTable_perm fc m (hord.perm hord0)
        obtain ⟨rfl, hcount⟩ := Flush_some hm hord.1 hfl
        have hsub : ∀ j, sweptTable now m order j ≠ none → j ∈ order := by
          intro j hj
          by_contra hnot
          simp only [sweptTable, hnot, if_false] at hj
          exact hnot ((hord.2 j).mpr hj)
        obtain ⟨hord1, hsame⟩ := keyOrder_restrict hord.1 hsub
        refine ⟨_, Pending.mk rfl hord1, ?_⟩
        rw [hsame fc]
        have := hcount fc
        simp only [storesOf]
        omega
  | Clean order =>
    simp only [cache.step] at hs
    cases hcl : c.Clean order with
    | none => simp [hcl] at hs
    | some r =>
      obtain ⟨c2, calls⟩ := r
      simp only [hcl, Option.some.injEq, Prod.mk.injEq] at hs
      obtain ⟨rfl, rfl⟩ := hs
      rw [count_finalized_map]
      unfold cache.Clean at hcl
      cases hm : c.table with
      | none =>
        simp only [hm, Option.some.injEq, Prod.mk.injEq] at hcl
        obtain ⟨rfl, rfl⟩ := hcl
        refine ⟨0, ?_, by simp⟩
        simp [Pending]
      | some m =>
        simp only [hm] at hcl
        cases hck : cleanKeys m order with
        | none => simp [hck] at hcl
        | some cs =>
          simp only [hck, Option.some.injEq, Prod.mk.injEq] at hcl
          obtain ⟨rfl, rfl⟩ := hcl
          have hord : KeyOrder m order := hv m hm
          obtain ⟨order0, hord0, hn⟩ := hp.of_table hm
          have hn2 : pendingTable fc m order = n := by
            rw [← hn]
            exact pendingTable_perm fc m (hord.perm hord0)
          have := cleanKeys_count fc m order _ hck
          refine ⟨0, by simp [Pending], ?_⟩
          simp only [storesOf]
          omega

/-- A sequence of calls makes each finalizer call at most as often as entries
finalized by that call were pending or are stored by the sequence. -/
theorem run_pending (fc : FinalizerCall) (calls : List PoolCall) :
    ∀ (c c1 : cache) (evs : List PoolEvent) (n : Nat), PoolReachable c → c.Pending fc n →
      c.validRun calls → c.run calls = some (c1, evs) →
      evs.count (PoolEvent.finalized fc) ≤ n + storesOf fc calls := by
  induction calls with
  | nil =>
    intro c c1 evs n _ _ _ hrun
    simp only [cache.run, Option.some.injEq, Prod.mk.injEq] at hrun
    obtain ⟨_, rfl⟩ := hrun
    simp
  | cons call calls ih =>
    intro c c1 evs n hreach hp hv hrun
    rw [cache.run] at hrun
    cases hs : c.step call with
    | none => simp [hs] at hrun
    | some r =>
      obtain ⟨c2, e2⟩ := r
      simp only [hs] at hrun
      cases hr : c2.run calls with
      | none => simp [hr] at hrun
      | some r2 =>
        obtain ⟨c3, e3⟩ := r2
        simp only [hr, Option.some.injEq, Prod.mk.injEq] at hrun
        obtain ⟨rfl, rfl⟩ := hrun
        obtain ⟨n1, hp1, hle⟩ := step_pending fc call hreach.invariants.1 hp hv.1 hs
        have hrest := ih c2 c3 e3 n1 (PoolReachable.step call hreach hv.1 hs) hp1
          (hv.2 c2 e2 hs) hr
        rw [List.count_append, storesOf_cons]
        omega

end cache

theorem cache.validRun_cons {c c1 : cache} {call : PoolCall} {calls : List PoolCall}
    {evs : List PoolEvent} (hv : c.validCall call) (hs : c.step call = some (c1, evs))
    (hrest : c1.validRun calls) : c.validRun (call :: calls) :=
  ⟨hv, fun c2 e2 h2 => by
    rw [hs] at h2
    simp only [Option.some.injEq, Prod.mk.injEq] at h2
    exact h2.1 ▸ hrest⟩

theorem keyOrder_single (k : String) (t : List entry) :
    KeyOrder (Function.update (fun _ => none) k (some t)) [k] := by
  refine ⟨List.nodup_singleton k, fun j => ?_⟩
  by_cases hj : j = k
  · subst hj
    simp
  · simp [hj, Function.update_noteq hj]

theorem keyOrder_empty (m : String → Option (List entry)) (h : ∀ j, m j = none) :
    KeyOrder m [] := by
  refine ⟨List.nodup_nil, fun j => ?_⟩
  simp [h j]

namespace LRUCache

/-- `Set` keeps the entry it records at the front whenever the adjusted size
alone, as a `uint64`, is within the capacity. -/
theorem WF.set_front {s : LRUCache} (h : s.WF) (key : String) (value : GoValue) (size : Int)
    (now : Int) (hfit : toUint64 (adjustValueSize value size) ≤ s.capacity) :
    ∃ s1, s.Set key value size now = some s1 ∧
      s1.Items.head? = some (Item.mk key value (adjustValueSize value size)) := by
  obtain ⟨t, e, rest, hset, hwf, hlist, htab, hval, hsz, hcap⟩ := h.set_pre key value size now
  obtain ⟨s1, m, hrun, _, hheap, _, _, _, hm, htake, hmax⟩ := checkCapacity_spec _ t rfl hwf
  have hkey : (t.heap e).key = key := (hwf.mem_of_table htab).2
  have hm0 : 0 < m := by
    by_contra hcon
    have hj := hmax 1 (by omega) (by rw [hlist]; simp)
    rw [hlist] at hj
    simp only [List.take_succ_cons, List.take_zero, sumSizes_cons, sumSizes_nil, add_zero,
      hsz] at hj
    omega
  refine ⟨s1, by rw [hset, hrun], ?_⟩
  obtain ⟨m1, rfl⟩ : ∃ m1, m = m1 + 1 := ⟨m - 1, by omega⟩
  simp only [Items, htake, hlist, List.take_succ_cons, List.map_cons, List.head?_cons, hheap,
    hkey, hval, hsz]

/-- `Set` of a new key evicts nothing when the tracked size after the addition is
within the capacity: the new item is put in front of the others. -/
theorem WF.set_new_within {s : LRUCache} (h : s.WF) {key : String} (hk : s.table key = none)
    (value : GoValue) (size : Int) (now : Int)
    (hfit : addU64 s.size (toUint64 (adjustValueSize value size)) ≤ s.capacity) :
    ∃ s1, s.Set key value size now = some s1 ∧
      s1.Items = Item.mk key value (adjustValueSize value size) :: s.Items := by
  refine ⟨_, ?_, (items_pushFront s h.alloc_fresh key value (adjustValueSize value size) now
    (Function.update s.table key (some s.alloc))
    (addU64 s.size (toUint64 (adjustValueSize value size))) (s.alloc + 1)).1⟩
  simp only [LRUCache.Set, hk, LRUCache.addNew]
  rw [checkCapacity_unfold, if_neg (by simpa using hfit)]

end LRUCache

/-! ## Claims -/

/-- C1, as stated, fails: with capacity 10, `Set("a", _, 5)`, `Set("b", _, -1)`
(a value without `Size`, so the size -1 is recorded) and `Take("a")` leave
`Stats` reporting size `2^64 - 1` against capacity 10. -/
theorem lru_size_exceeds_capacity_after_take :
    ((NewLRUCache 10).run
      [Call.Set "a" (GoValue.plain 0) 5 0, Call.Set "b" (GoValue.plain 1) (-1) 0,
        Call.Take "a"]).map (fun s => (s.Stats.2.1, s.Stats.2.2.1, s.Items)) =
      some (18446744073709551615, 10, [{ Key := "b", Value := GoValue.plain 1, Size := -1 }]) := by
  decide

/-- C1 (amended): for every capacity and every finite sequence of calls in which
each size recorded by `Set` / `SetIfAbsent` is non-negative and adding it to the
tracked size stays below `2^64`, every call returns normally and `Stats` reports
a size that is at most the capacity after each call. -/
theorem lru_size_within_capacity (capacity : Nat) (calls : List Call)
    (hadm : (NewLRUCache capacity).admissible calls = true) (n : Nat) :
    ∃ s1, (NewLRUCache capacity).run (calls.take n) = some s1 ∧
      s1.Stats.2.1 ≤ s1.Stats.2.2.1 := by
  obtain ⟨s1, hrun, _, hcap⟩ :=
    (LRUCache.Exact.new_exact capacity).run (Nat.zero_le _) calls hadm n
  exact ⟨s1, hrun, hcap⟩

/-- Witness of C1 (amended): capacity 3 and five calls with sizes 1, 1, 2; the
state after the first three calls. -/
theorem lru_size_within_capacity_witness :
    (NewLRUCache 3).admissible
        [Call.Set "key1" (GoValue.sized 1 1) 0 0, Call.Set "key2" (GoValue.sized 2 1) 0 1,
          Call.SetIfAbsent "key3" (GoValue.plain 3) 2 2, Call.Take "key2",
          Call.SetCapacity 1] = true ∧
      ∃ s1, (NewLRUCache 3).run
        ([Call.Set "key1" (GoValue.sized 1 1) 0 0, Call.Set "key2" (GoValue.sized 2 1) 0 1,
          Call.SetIfAbsent "key3" (GoValue.plain 3) 2 2, Call.Take "key2",
          Call.SetCapacity 1].take 3) = some s1 ∧ s1.Stats.2.1 ≤ s1.Stats.2.2.1 :=
  ⟨by decide, lru_size_within_capacity 3 _ (by decide) 3⟩

/-- C3, as stated, fails when the tracked size wraps: with capacity `2^64 - 1`
and entries `a`, `b` of size `2^63 - 1` each (non-negative sizes, aggregate
`2^64 - 2` within capacity), `Set("k", _, 2)` on the absent key `k` wraps the
tracked size to 0 and evicts nothing, although the sizes of `k, b, a` add up to
`2^64`, which is above the capacity. -/
theorem lru_set_keeps_too_much_on_wrap :
    ((NewLRUCache 18446744073709551615).run
      [Call.Set "a" (GoValue.plain 0) 9223372036854775807 0,
        Call.Set "b" (GoValue.plain 1) 9223372036854775807 0]).map
        (fun s => (s.Keys, s.Items.map Item.Size, s.size, s.capacity)) =
      some (["b", "a"], [9223372036854775807, 9223372036854775807],
        18446744073709551614, 18446744073709551615) ∧
    ((NewLRUCache 18446744073709551615).run
      [Call.Set "a" (GoValue.plain 0) 9223372036854775807 0,
        Call.Set "b" (GoValue.plain 1) 9223372036854775807 0,
        Call.Set "k" (GoValue.plain 2) 2 0]).map
        (fun s => (s.Keys, (s.Items.map Item.Size).sum, s.size, s.capacity)) =
      some (["k", "b", "a"], 18446744073709551616, 0, 18446744073709551615) := by
  decide

/-- C3 (amended): in a well-formed state whose entry sizes are non-negative, for a
key not in the cache whose effective size `s` is non-negative and such that the
entry sizes plus `s` add up to less than `2^64`, `Set` returns normally and
`Keys()` / `Items()` afterwards are the first `m` elements of the new entry
followed by the previous order, where `m` is the largest count whose sizes add
up to at most the capacity. -/
theorem lru_set_new_key_keeps_longest_fit (s : LRUCache) (key : String) (value : GoValue)
    (size : Int) (now : Int) (hwf : s.WF) (hnn : ∀ it ∈ s.Items, 0 ≤ it.Size)
    (habs : key ∉ s.Keys) (h0 : 0 ≤ adjustValueSize value size)
    (hsum : (s.Items.map Item.Size).sum + adjustValueSize value size <
      18446744073709551616) :
    ∃ s1 m, s.Set key value size now = some s1 ∧
      s1.Keys = (key :: s.Keys).take m ∧
      s1.Items =
        ({ Key := key, Value := value, Size := adjustValueSize value size } :: s.Items).take m ∧
      (s1.Items.map Item.Size).sum ≤ (s.capacity : Int) ∧
      ∀ j, m < j → j ≤ s.Keys.length + 1 →
        (s.capacity : Int) <
          ((({ Key := key, Value := value, Size := adjustValueSize value size } ::
            s.Items).take j).map Item.Size).sum := by
  have hk : s.table key = none := (hwf.not_mem_keys_iff key).mp habs
  have hex : s.Exact := by
    refine ⟨hwf, LRUCache.WF.nonneg_of_items hnn, ?_⟩
    rw [← s.items_sizes]
    omega
  have hsz : (s.size : Int) + adjustValueSize value size < 18446744073709551616 := by
    rw [hex.size_eq, ← s.items_sizes]
    exact hsum
  have hpush := hex.pushFront_exact hk value now h0 hsz
  obtain ⟨hI, hK⟩ := s.items_pushFront hwf.alloc_fresh key value (adjustValueSize value size)
    now (Function.update s.table key (some s.alloc))
    (addU64 s.size (toUint64 (adjustValueSize value size))) (s.alloc + 1)
  obtain ⟨s1, m, hrun, _, hheap, _, _, _, _, htake, hfit, hmax⟩ := hpush.checkCapacity_exact
  obtain ⟨hI1, hK1⟩ := LRUCache.items_take m hheap htake
  refine ⟨s1, m, ?_, ?_, ?_, ?_, ?_⟩
  · simp only [LRUCache.Set, hk]
    exact hrun
  · rw [hK1, hK]
  · rw [hI1, hI]
  · rw [hI1, ← LRUCache.sumSizes_take_items]
    exact hfit
  · intro j hj hj2
    have := hmax j hj (by simpa [LRUCache.Keys] using hj2)
    rw [LRUCache.sumSizes_take_items, hI] at this
    exact this

/-- Witness of C3 (amended), the scenario of the claim: capacity 3 holding
`key1, key2, key3` of size 1 each; inserting `key4` of size 1 evicts exactly
`key1`, `Get("key1")` is not found and the length stays 3. -/
theorem lru_set_new_key_keeps_longest_fit_witness :
    (∃ s1 m, (LRUCache.after 3 fillThree).Set "key4" (GoValue.sized 4 1) 0 3 = some s1 ∧
        s1.Keys = ("key4" :: (LRUCache.after 3 fillThree).Keys).take m ∧
        s1.Items =
          (Item.mk "key4" (GoValue.sized 4 1) (adjustValueSize (GoValue.sized 4 1) 0) ::
            (LRUCache.after 3 fillThree).Items).take m ∧
        (s1.Items.map Item.Size).sum ≤ ((LRUCache.after 3 fillThree).capacity : Int) ∧
        ∀ j, m < j → j ≤ (LRUCache.after 3 fillThree).Keys.length + 1 →
          ((LRUCache.after 3 fillThree).capacity : Int) <
            (((Item.mk "key4" (GoValue.sized 4 1) (adjustValueSize (GoValue.sized 4 1) 0) ::
              (LRUCache.after 3 fillThree).Items).take j).map Item.Size).sum) ∧
    ((LRUCache.after 3 fillThree).Set "key4" (GoValue.sized 4 1) 0 3).map
        (fun s => (s.Keys, s.Stats.1, (s.Get "key1" 4).1)) =
      some (["key4", "key3", "key2"], 3, (GoValue.nil, false)) :=
  ⟨lru_set_new_key_keeps_longest_fit (LRUCache.after 3 fillThree) "key4" (GoValue.sized 4 1) 0 3
      (Reachable.after 3 fillThree).wf (by decide) (by decide) (by decide) (by decide),
    by decide⟩

/-- C2, as stated, fails: with capacity 10, `Set("a", _, 5)`, `Set("b", _, -1)` and
`Delete("a")` leave the tracked size at `2^64 - 1` while the one remaining entry
has size -1. -/
theorem lru_size_differs_from_sum :
    ((NewLRUCache 10).run
      [Call.Set "a" (GoValue.plain 0) 5 0, Call.Set "b" (GoValue.plain 1) (-1) 0,
        Call.Delete "a"]).map (fun s => (s.size, (s.Items.map Item.Size).sum)) =
      some (18446744073709551615, -1) := by
  decide

/-- C2 (amended): in every reachable state the tracked size is the sum of the
entry sizes reduced modulo `2^64` (the exact sum when the sizes are non-negative
and add up to less than `2^64`); a `Set` on an existing key that shrinks its
size from `a` to `b < a`, in a state whose tracked size is within capacity and
at least `a - b`, returns normally and lowers the tracked size by exactly
`a - b`. -/
theorem lru_size_eq_sum_mod (s : LRUCache) (h : Reachable s) :
    s.size = toUint64 (s.Items.map Item.Size).sum ∧
    ((∀ it ∈ s.Items, 0 ≤ it.Size) → (s.Items.map Item.Size).sum < 18446744073709551616 →
      (s.size : Int) = (s.Items.map Item.Size).sum) ∧
    ∀ (key : String) (v0 : GoValue) (a : Int) (value : GoValue) (size : Int) (now : Int),
      Item.mk key v0 a ∈ s.Items → adjustValueSize value size < a →
      a - adjustValueSize value size ≤ (s.size : Int) → s.size ≤ s.capacity →
      ∃ s1, s.Set key value size now = some s1 ∧
        (s1.size : Int) = (s.size : Int) - (a - adjustValueSize value size) := by
  have hwf := h.wf
  refine ⟨?_, ?_, ?_⟩
  · rw [s.items_sizes]
    exact hwf.size_eq
  · intro hnn hlt
    rw [s.items_sizes] at hlt ⊢
    exact (LRUCache.Exact.of_wf hwf (LRUCache.WF.nonneg_of_items hnn) hlt).size_eq
  · intro key v0 a value size now hit hlt hle hcap
    obtain ⟨e, he, heq⟩ := (s.mem_items_iff _).mp hit
    simp only [Item.mk.injEq] at heq
    obtain ⟨hkey, _, hsz⟩ := heq
    have htab : s.table key = some e := (hwf.index key e).mpr ⟨he, hkey.symm⟩
    have hnew : ((addU64 s.size (toUint64 (wrapInt (adjustValueSize value size - (s.heap e).size)))
        : Nat) : Int) = (s.size : Int) - (a - adjustValueSize value size) := by
      rw [addU64_wrapInt s.size _ (by omega) (by have := hwf.size_lt; omega)]
      omega
    refine ⟨LRUCache.moveToFront
      { s with
        heap := Function.update s.heap e
          { s.heap e with value := value, size := adjustValueSize value size }
        size := addU64 s.size
          (toUint64 (wrapInt (adjustValueSize value size - (s.heap e).size))) } e now, ?_, hnew⟩
    simp only [LRUCache.Set, htab, LRUCache.updateInplace]
    rw [LRUCache.checkCapacity_unfold, if_neg]
    show ¬ (addU64 s.size _ > s.capacity)
    omega

/-- Witness of C2 (amended): after `Set("key1", v, 0)` with `v.Size() = 20` in a
cache of capacity 100, shrinking `key1` to size 5. -/
theorem lru_size_eq_sum_mod_witness :
    (LRUCache.after 100 [Call.Set "key1" (GoValue.sized 1 20) 0 0]).size =
        toUint64 ((LRUCache.after 100 [Call.Set "key1" (GoValue.sized 1 20) 0 0]).Items.map
          Item.Size).sum ∧
      ∃ s1, (LRUCache.after 100 [Call.Set "key1" (GoValue.sized 1 20) 0 0]).Set "key1"
          (GoValue.sized 2 5) 0 1 = some s1 ∧
        (s1.size : Int) =
          ((LRUCache.after 100 [Call.Set "key1" (GoValue.sized 1 20) 0 0]).size : Int) -
            (20 - adjustValueSize (GoValue.sized 2 5) 0) :=
  ⟨(lru_size_eq_sum_mod _ (Reachable.after 100 _)).1,
    (lru_size_eq_sum_mod _ (Reachable.after 100 _)).2.2 "key1" (GoValue.sized 1 20) 20
      (GoValue.sized 2 5) 0 1 (by decide) (by decide) (by decide) (by decide)⟩

/-- C4: in a well-formed state, for a key present in the cache, `Get` and
`SetIfAbsent` (with any value and size) both leave `Keys()` equal to the key
followed by the previous keys without it, `Items()` equal to the key's unchanged
item followed by the other unchanged items in their previous order, and the
tracked size and the capacity unchanged; `Items()` lists the keys of `Keys()` in
the same order.  `Get` returns the item's value. -/
theorem lru_get_setIfAbsent_promote (s : LRUCache) (key : String) (now : Int)
    (value : GoValue) (size : Int) (now2 : Int) (hwf : s.WF) (hk : key ∈ s.Keys) :
    ∃ it ∈ s.Items, it.Key = key ∧
      (s.Get key now).1 = (it.Value, true) ∧
      (s.Get key now).2.Keys = key :: s.Keys.filter (fun k => k ≠ key) ∧
      (s.Get key now).2.Items = it :: s.Items.filter (fun i => i.Key ≠ key) ∧
      (s.Get key now).2.Stats.2.1 = s.Stats.2.1 ∧
      (s.Get key now).2.Stats.2.2.1 = s.Stats.2.2.1 ∧
      (s.Get key now).2.Items.map Item.Key = (s.Get key now).2.Keys ∧
      ∃ s2, s.SetIfAbsent key value size now2 = some s2 ∧
        s2.Keys = key :: s.Keys.filter (fun k => k ≠ key) ∧
        s2.Items = it :: s.Items.filter (fun i => i.Key ≠ key) ∧
        s2.Stats.2.1 = s.Stats.2.1 ∧ s2.Stats.2.2.1 = s.Stats.2.2.1 ∧
        s2.Items.map Item.Key = s2.Keys := by
  obtain ⟨e, htab⟩ := (hwf.mem_keys_iff key).mp hk
  obtain ⟨he, hkey⟩ := hwf.mem_of_table htab
  obtain ⟨hI, hK⟩ := hwf.moveToFront_items he now
  obtain ⟨hI2, hK2⟩ := hwf.moveToFront_items he now2
  rw [hkey] at hI hK hI2 hK2
  refine ⟨Item.mk key (s.heap e).value (s.heap e).size, ?_, rfl, ?_, ?_, ?_, ?_, ?_, ?_,
    s.moveToFront e now2, ?_, hK2, hI2, rfl, rfl, ?_⟩
  · exact (s.mem_items_iff _).mpr ⟨e, he, by rw [hkey]⟩
  · simp only [LRUCache.Get, htab, LRUCache.moveToFront_value]
  · simp only [LRUCache.Get, htab]
    exact hK
  · simp only [LRUCache.Get, htab]
    exact hI
  · simp only [LRUCache.Get, htab]
    rfl
  · simp only [LRUCache.Get, htab]
    rfl
  · exact LRUCache.items_keys _
  · simp only [LRUCache.SetIfAbsent, htab]
  · exact LRUCache.items_keys _

/-- Witness of C4: `key1` in the cache of capacity 3 holding `key3, key2, key1`. -/
theorem lru_get_setIfAbsent_promote_witness :
    ∃ it ∈ (LRUCache.after 3 fillThree).Items, it.Key = "key1" ∧
      ((LRUCache.after 3 fillThree).Get "key1" 5).1 = (it.Value, true) ∧
      ((LRUCache.after 3 fillThree).Get "key1" 5).2.Keys =
        "key1" :: (LRUCache.after 3 fillThree).Keys.filter (fun k => k ≠ "key1") ∧
      ((LRUCache.after 3 fillThree).Get "key1" 5).2.Items =
        it :: (LRUCache.after 3 fillThree).Items.filter (fun i => i.Key ≠ "key1") ∧
      ((LRUCache.after 3 fillThree).Get "key1" 5).2.Stats.2.1 =
        (LRUCache.after 3 fillThree).Stats.2.1 ∧
      ((LRUCache.after 3 fillThree).Get "key1" 5).2.Stats.2.2.1 =
        (LRUCache.after 3 fillThree).Stats.2.2.1 ∧
      ((LRUCache.after 3 fillThree).Get "key1" 5).2.Items.map Item.Key =
        ((LRUCache.after 3 fillThree).Get "key1" 5).2.Keys ∧
      ∃ s2, (LRUCache.after 3 fillThree).SetIfAbsent "key1" (GoValue.plain 9) 7 6 = some s2 ∧
        s2.Keys = "key1" :: (LRUCache.after 3 fillThree).Keys.filter (fun k => k ≠ "key1") ∧
        s2.Items = it :: (LRUCache.after 3 fillThree).Items.filter (fun i => i.Key ≠ "key1") ∧
        s2.Stats.2.1 = (LRUCache.after 3 fillThree).Stats.2.1 ∧
        s2.Stats.2.2.1 = (LRUCache.after 3 fillThree).Stats.2.2.1 ∧
        s2.Items.map Item.Key = s2.Keys :=
  lru_get_setIfAbsent_promote (LRUCache.after 3 fillThree) "key1" 5 (GoValue.plain 9) 7 6
    (Reachable.after 3 fillThree).wf (by decide)

/-- C5: in a well-formed state, for every key (new or present), value and size
argument whose effective size `s` satisfies `0 ≤ s ≤ capacity`, `Set` returns
normally and a following `Get` of the key returns the value just set. -/
theorem lru_set_then_get (s : LRUCache) (key : String) (value : GoValue) (size : Int)
    (now now2 : Int) (hwf : s.WF) (h0 : 0 ≤ adjustValueSize value size)
    (h1 : adjustValueSize value size ≤ (s.capacity : Int)) :
    ∃ s1, s.Set key value size now = some s1 ∧ (s1.Get key now2).1 = (value, true) := by
  obtain ⟨s1, hset, _, hval, hpres⟩ := hwf.set_post key value size now
  obtain ⟨a, ha⟩ := hpres h0 h1
  refine ⟨s1, hset, ?_⟩
  simp only [LRUCache.Get, ha, LRUCache.moveToFront_value]
  rw [(hval a ha).1]

/-- Witness of C5: replacing the value of `key1` (`TestLRUSetWithOldKeyUpdatesValue`). -/
theorem lru_set_then_get_witness :
    ∃ s1, (LRUCache.after 100 [Call.Set "key1" (GoValue.sized 1 0) 0 0]).Set "key1"
        (GoValue.sized 2 20) 0 1 = some s1 ∧
      (s1.Get "key1" 2).1 = (GoValue.sized 2 20, true) :=
  lru_set_then_get _ "key1" (GoValue.sized 2 20) 0 1 2 (Reachable.after 100 _).wf
    (by decide) (by decide)

/-- C6, as stated, fails: with capacity 10 after `Set("a", _, 5)` and
`Set("b", _, -1)` the key `a` is present with size 5 and the tracked size is 4;
`Take("a")` leaves the tracked size at `2^64 - 1`, which is not 4 lowered by 5. -/
theorem lru_take_size_wraps :
    ((LRUCache.after 10
        [Call.Set "a" (GoValue.plain 0) 5 0, Call.Set "b" (GoValue.plain 1) (-1) 0]).Items,
      (LRUCache.after 10
        [Call.Set "a" (GoValue.plain 0) 5 0, Call.Set "b" (GoValue.plain 1) (-1) 0]).size,
      ((LRUCache.after 10
        [Call.Set "a" (GoValue.plain 0) 5 0, Call.Set "b" (GoValue.plain 1) (-1) 0]).Take
          "a").2.size) =
    ([Item.mk "b" (GoValue.plain 1) (-1), Item.mk "a" (GoValue.plain 0) 5], 4,
      18446744073709551615) := by
  decide

/-- C6 (amended): in a well-formed state, for a key present with value `v` and
size `sz`, `Take` returns `(v, true)` and leaves a state in which the key is
absent, the tracked size is the previous one lowered by `sz` modulo `2^64`
(exactly `sz` lower when `0 ≤ sz ≤` tracked size), the capacity is unchanged and
all other items and their order are unchanged; a following `Take` or `Get` of
the key returns not-found.  For an absent key `Take` returns `(nil, false)` and
leaves the state unchanged. -/
theorem lru_take_removes (s : LRUCache) (key : String) (hwf : s.WF) :
    (∀ v sz, Item.mk key v sz ∈ s.Items →
      (s.Take key).1 = (v, true) ∧
      key ∉ (s.Take key).2.Keys ∧
      (s.Take key).2.Stats.2.1 = toUint64 ((s.Stats.2.1 : Int) - sz) ∧
      (0 ≤ sz → sz ≤ (s.Stats.2.1 : Int) →
        ((s.Take key).2.Stats.2.1 : Int) = (s.Stats.2.1 : Int) - sz) ∧
      (s.Take key).2.Stats.2.2.1 = s.Stats.2.2.1 ∧
      (s.Take key).2.Items = s.Items.filter (fun i => i.Key ≠ key) ∧
      (s.Take key).2.Keys = s.Keys.filter (fun k => k ≠ key) ∧
      ((s.Take key).2.Take key).1 = (GoValue.nil, false) ∧
      ∀ now, ((s.Take key).2.Get key now).1 = (GoValue.nil, false)) ∧
    (key ∉ s.Keys → s.Take key = ((GoValue.nil, false), s)) := by
  constructor
  · intro v sz hit
    obtain ⟨e, he, heq⟩ := (s.mem_items_iff _).mp hit
    simp only [Item.mk.injEq] at heq
    obtain ⟨hkey, hv, hsz⟩ := heq
    have htab : s.table key = some e := (hwf.index key e).mpr ⟨he, hkey.symm⟩
    obtain ⟨hI, hK⟩ := hwf.items_erase he
    rw [← hkey] at hI hK
    have hsize : subU64 s.size (toUint64 (s.heap e).size) = toUint64 ((s.size : Int) - sz) := by
      rw [hsz]
      conv_lhs => rw [← toUint64_natCast s.size hwf.size_lt]
      rw [subU64_toUint64]
    have habs : (s.Take key).2.table key = none := by
      simp only [LRUCache.Take, htab, Function.update_same]
    refine ⟨?_, ?_, ?_, ?_, ?_, ?_, ?_, ?_, ?_⟩
    · simp only [LRUCache.Take, htab, hv]
    · exact ((hwf.take key).not_mem_keys_iff key).mpr habs
    · simp only [LRUCache.Take, htab]
      exact hsize
    · intro h0 h1
      simp only [LRUCache.Take, htab]
      show ((subU64 s.size (toUint64 (s.heap e).size) : Nat) : Int) = (s.size : Int) - sz
      rw [hsize]
      apply toUint64_of_range
      · exact sub_nonneg.mpr h1
      · have := hwf.size_lt
        have h1' : sz ≤ (s.size : Int) := h1
        omega
    · simp only [LRUCache.Take, htab]
      rfl
    · simp only [LRUCache.Take, htab]
      exact hI
    · simp only [LRUCache.Take, htab]
      exact hK
    · rw [LRUCache.take_absent habs]
    · intro now
      rw [LRUCache.get_absent habs]
  · intro habs
    have htab := (hwf.not_mem_keys_iff key).mp habs
    simp only [LRUCache.Take, htab]

/-- Witness of C6 (amended): `TestLRUTake`, a value of size 1 under `key`. -/
theorem lru_take_removes_witness :
    ((LRUCache.after 100 [Call.Set "key" (GoValue.sized 1 1) 0 0]).Take "key").1 =
        (GoValue.sized 1 1, true) ∧
      ("crap" ∉ (LRUCache.after 100 [Call.Set "key" (GoValue.sized 1 1) 0 0]).Keys →
        (LRUCache.after 100 [Call.Set "key" (GoValue.sized 1 1) 0 0]).Take "crap" =
          ((GoValue.nil, false), LRUCache.after 100 [Call.Set "key" (GoValue.sized 1 1) 0 0])) :=
  ⟨((lru_take_removes _ "key" (Reachable.after 100 _).wf).1 (GoValue.sized 1 1) 1
      (by decide)).1,
    (lru_take_removes _ "crap" (Reachable.after 100 _).wf).2⟩

/-- C7: in a well-formed state `Delete` returns true exactly when the key was
present; afterwards the key is absent (not in `Keys()`, `Get` not found), and
the resulting state is the state `Take` would have produced; `Delete` of an
absent key changes nothing. -/
theorem lru_delete_as_take (s : LRUCache) (key : String) (hwf : s.WF) :
    ((s.Delete key).1 = true ↔ key ∈ s.Keys) ∧
    key ∉ (s.Delete key).2.Keys ∧
    (∀ now, ((s.Delete key).2.Get key now).1 = (GoValue.nil, false)) ∧
    (s.Delete key).2 = (s.Take key).2 ∧
    (key ∉ s.Keys → (s.Delete key).2 = s) := by
  have hkeys := hwf.mem_keys_iff key
  have hwf1 := hwf.delete key
  cases htab : s.table key with
  | none =>
    have hnot : key ∉ s.Keys := (hwf.not_mem_keys_iff key).mpr htab
    refine ⟨?_, ?_, ?_, ?_, ?_⟩
    · simp only [LRUCache.Delete, htab]
      simp [hnot]
    · simp only [LRUCache.Delete, htab]
      exact hnot
    · intro now
      simp only [LRUCache.Delete, LRUCache.Get, htab]
    · simp only [LRUCache.Delete, LRUCache.Take, htab]
    · intro _
      simp only [LRUCache.Delete, htab]
  | some e =>
    have hin : key ∈ s.Keys := hkeys.mpr ⟨e, htab⟩
    have habs : (s.Delete key).2.table key = none := by
      simp only [LRUCache.Delete, htab, Function.update_same]
    refine ⟨?_, ?_, ?_, ?_, ?_⟩
    · simp only [LRUCache.Delete, htab]
      simp [hin]
    · exact (hwf1.not_mem_keys_iff key).mpr habs
    · intro now
      rw [LRUCache.get_absent habs]
    · simp only [LRUCache.Delete, LRUCache.Take, htab]
    · intro hnot
      exact absurd hin hnot

/-- Witness of C7: `TestLRUDelete`, a value of size 1 under `key`. -/
theorem lru_delete_as_take_witness :
    (((LRUCache.after 100 [Call.Set "key" (GoValue.sized 1 1) 0 0]).Delete "key").1 = true ↔
        "key" ∈ (LRUCache.after 100 [Call.Set "key" (GoValue.sized 1 1) 0 0]).Keys) ∧
      ((LRUCache.after 100 [Call.Set "key" (GoValue.sized 1 1) 0 0]).Delete "key").2 =
        ((LRUCache.after 100 [Call.Set "key" (GoValue.sized 1 1) 0 0]).Take "key").2 :=
  ⟨(lru_delete_as_take _ "key" (Reachable.after 100 _).wf).1,
    (lru_delete_as_take _ "key" (Reachable.after 100 _).wf).2.2.2.1⟩

/-- C8, as stated, fails: the cache of capacity 100 holding one entry of size 0
(`Set("key", v, 0)` with `v.Size() = 0`, as in `TestLRUSetInsertsValue`) is
non-empty, and after `SetCapacity(0)` it still holds that entry. -/
theorem lru_zero_sized_entry_survives_shrink :
    ((LRUCache.after 100 [Call.Set "key" (GoValue.sized 1 0) 0 0]).Keys,
      ((LRUCache.after 100 [Call.Set "key" (GoValue.sized 1 0) 0 0]).SetCapacity 0).map
        (fun s => (s.Stats.1, s.Keys, s.Stats.2.1))) =
    (["key"], some (1, ["key"], 0)) := by
  decide

/-- C8 (amended): in every reachable state `SetCapacity(0)` returns normally and
`Stats` afterwards reports size 0 and capacity 0; when every entry has a positive
size and the sizes add up to less than `2^64`, the cache then holds no entries
(`Stats` reports length 0, `Keys()` and `Items()` are empty). -/
theorem lru_setCapacity_zero (s : LRUCache) (h : Reachable s) :
    ∃ s1, s.SetCapacity 0 = some s1 ∧ s1.Stats.2.1 = 0 ∧ s1.Stats.2.2.1 = 0 ∧
      ((∀ it ∈ s.Items, 0 < it.Size) → (s.Items.map Item.Size).sum < 18446744073709551616 →
        s1.Stats.1 = 0 ∧ s1.Keys = [] ∧ s1.Items = []) := by
  have hwf := h.wf.setCapacity 0
  obtain ⟨s1, hrun, _, hwithin, hcap⟩ := hwf.checkCapacity
  have hcap0 : s1.capacity = 0 := hcap
  refine ⟨s1, hrun, ?_, hcap0, ?_⟩
  · show s1.size = 0
    omega
  · intro hpos hsum
    have hposl : ∀ a ∈ s.list, 0 < (s.heap a).size := fun a ha =>
      hpos _ ((s.mem_items_iff _).mpr ⟨a, ha, rfl⟩)
    rw [s.items_sizes] at hsum
    have hex : LRUCache.Exact { s with capacity := 0 } :=
      ⟨hwf, fun a ha => le_of_lt (hposl a ha), hsum⟩
    obtain ⟨s2, m, hrun2, _, _, _, _, _, _, htake, hfit, _⟩ := hex.checkCapacity_exact
    have heq : s1 = s2 := by
      have := hrun.symm.trans hrun2
      exact Option.some.inj this
    subst heq
    have hnil : s1.list = [] := by
      by_contra hne
      have hpos2 : 0 < sumSizes s.heap (s.list.take m) := by
        refine sumSizes_pos (fun a ha => hposl a (List.mem_of_mem_take ha)) ?_
        intro hc
        exact hne (htake.trans hc)
      have : sumSizes s.heap (s.list.take m) ≤ 0 := hfit
      omega
    simp [LRUCache.Stats, LRUCache.Keys, LRUCache.Items, hnil]

/-- Witness of C8 (amended): the cache of capacity 3 holding three entries of size 1. -/
theorem lru_setCapacity_zero_witness :
    ∃ s1, (LRUCache.after 3 fillThree).SetCapacity 0 = some s1 ∧ s1.Stats.2.1 = 0 ∧
      s1.Stats.2.2.1 = 0 ∧ s1.Stats.1 = 0 ∧ s1.Keys = [] ∧ s1.Items = [] := by
  obtain ⟨s1, h1, h2, h3, h4⟩ := lru_setCapacity_zero _ (Reachable.after 3 fillThree)
  exact ⟨s1, h1, h2, h3, h4 (by decide) (by decide)⟩

/-- C9, as stated, fails: for a value without `Size` and the size argument -1,
`adjustValueSize` returns -1, not 0, and `Set` records -1 for the entry. -/
theorem recorded_size_negative :
    (adjustValueSize (GoValue.plain 1) (-1),
      (LRUCache.after 10
        [Call.Set "a" (GoValue.plain 0) 5 0, Call.Set "b" (GoValue.plain 1) (-1) 0]).Items) =
    (-1, [Item.mk "b" (GoValue.plain 1) (-1), Item.mk "a" (GoValue.plain 0) 5]) := by
  decide

/-- C9 (amended): the size `adjustValueSize` computes is the caller's size when it
is positive; otherwise the value's `Size()` result when the value has that
method, and the caller's size unchanged (zero or negative) when it has not.  In a
well-formed state `Set`, and `SetIfAbsent` on an absent key, return normally and
record the entry with that size and the given value: the item is at the front of
`Items()` whenever that size as a `uint64` is within the capacity; for a new key
it is put in front of all previous items whenever the tracked size after the
addition is within the capacity (also for a negative size); and no item under the
key carries another size or value. -/
theorem recorded_size_is_adjusted (value : GoValue) (size : Int) :
    adjustValueSize value size =
      (if 0 < size then size else
        match value.Size? with
        | some n => n
        | none => size) ∧
    ∀ (s : LRUCache) (key : String) (now : Int), s.WF →
      (∃ s1, s.Set key value size now = some s1 ∧
        (∀ it ∈ s1.Items, it.Key = key →
          it.Size = adjustValueSize value size ∧ it.Value = value) ∧
        (toUint64 (adjustValueSize value size) ≤ s.capacity →
          s1.Items.head? = some (Item.mk key value (adjustValueSize value size))) ∧
        (key ∉ s.Keys → addU64 s.size (toUint64 (adjustValueSize value size)) ≤ s.capacity →
          s1.Items = Item.mk key value (adjustValueSize value size) :: s.Items)) ∧
      (key ∉ s.Keys → ∃ s1, s.SetIfAbsent key value size now = some s1 ∧
        (∀ it ∈ s1.Items, it.Key = key →
          it.Size = adjustValueSize value size ∧ it.Value = value) ∧
        (toUint64 (adjustValueSize value size) ≤ s.capacity →
          s1.Items.head? = some (Item.mk key value (adjustValueSize value size))) ∧
        (addU64 s.size (toUint64 (adjustValueSize value size)) ≤ s.capacity →
          s1.Items = Item.mk key value (adjustValueSize value size) :: s.Items)) := by
  constructor
  · unfold adjustValueSize
    by_cases h : 0 < size
    · rw [if_neg (not_le.mpr h), if_pos h]
    · rw [if_pos (not_lt.mp h), if_neg h]
  · intro s key now hwf
    obtain ⟨s1, hset, hwf1, hrec, _⟩ := hwf.set_post key value size now
    have hitems : ∀ it ∈ s1.Items, it.Key = key →
        it.Size = adjustValueSize value size ∧ it.Value = value := by
      intro it hit hkey
      obtain ⟨a, ha, rfl⟩ := (s1.mem_items_iff _).mp hit
      have htab := (hwf1.index key a).mpr ⟨ha, hkey⟩
      exact ⟨(hrec a htab).2, (hrec a htab).1⟩
    have hfront : toUint64 (adjustValueSize value size) ≤ s.capacity →
        s1.Items.head? = some (Item.mk key value (adjustValueSize value size)) := by
      intro hfit
      obtain ⟨s2, hset2, hhead⟩ := hwf.set_front key value size now hfit
      rw [hset] at hset2
      cases hset2
      exact hhead
    have hnew : key ∉ s.Keys →
        addU64 s.size (toUint64 (adjustValueSize value size)) ≤ s.capacity →
        s1.Items = Item.mk key value (adjustValueSize value size) :: s.Items := by
      intro habs hfit
      obtain ⟨s2, hset2, hall⟩ :=
        hwf.set_new_within ((hwf.not_mem_keys_iff key).mp habs) value size now hfit
      rw [hset] at hset2
      cases hset2
      exact hall
    refine ⟨⟨s1, hset, hitems, hfront, hnew⟩, ?_⟩
    intro habs
    have htab := (hwf.not_mem_keys_iff key).mp habs
    refine ⟨s1, ?_, hitems, hfront, hnew habs⟩
    rw [← hset]
    simp only [LRUCache.SetIfAbsent, LRUCache.Set, htab]

/-- Witness of C9 (amended): `TestLRUSetUpdatesSize`, a value with `Size() = 20`
stored under the new key `key2` with size argument 0 by `Set` and by
`SetIfAbsent`, in a cache of capacity 100 holding `key1`: the item recorded is
`(key2, value, 20)`, in front of the item of `key1`. -/
theorem recorded_size_is_adjusted_witness :
    adjustValueSize (GoValue.sized 2 20) 0 = 20 ∧
      (∃ s1, (LRUCache.after 100 [Call.Set "key1" (GoValue.sized 1 0) 0 0]).Set "key2"
          (GoValue.sized 2 20) 0 1 = some s1 ∧
        s1.Items.head? = some (Item.mk "key2" (GoValue.sized 2 20) 20) ∧
        s1.Items = [Item.mk "key2" (GoValue.sized 2 20) 20, Item.mk "key1" (GoValue.sized 1 0) 0]) ∧
      ∃ s1, (LRUCache.after 100 [Call.Set "key1" (GoValue.sized 1 0) 0 0]).SetIfAbsent "key2"
          (GoValue.sized 2 20) 0 1 = some s1 ∧
        s1.Items = [Item.mk "key2" (GoValue.sized 2 20) 20, Item.mk "key1" (GoValue.sized 1 0) 0] := by
  have hthm := (recorded_size_is_adjusted (GoValue.sized 2 20) 0).2
    (LRUCache.after 100 [Call.Set "key1" (GoValue.sized 1 0) 0 0]) "key2" 1
    (Reachable.after 100 _).wf
  obtain ⟨⟨s1, h1, _, h2, h3⟩, h4⟩ := hthm
  obtain ⟨s2, h5, _, _, h6⟩ := h4 (by decide)
  exact ⟨(recorded_size_is_adjusted (GoValue.sized 2 20) 0).1,
    ⟨s1, h1, h2 (by decide), h3 (by decide) (by decide)⟩, s2, h5, h6 (by decide)⟩

/-- C10, as stated, fails for a table that already holds an entry under the key:
after `Store("k", v1)`, a `Store("k", v2)` followed by `Fetch("k")` returns
`(v2, true)`, but the key is still present and a further `Fetch("k")` returns
`(v1, true)`. -/
theorem pool_key_still_present_after_fetch :
    ((((NewCache 0 0).1.Store "k" (GoValue.plain 1) Finalizer.nil 0).toOption.bind fun c1 =>
        (c1.Store "k" (GoValue.plain 2) Finalizer.nil 0).toOption.bind fun c2 =>
          (c2.Fetch "k").bind fun r1 =>
            (r1.2.Fetch "k").map fun r2 => (r1.1, r2.1))) =
      some ((GoValue.plain 2, true), (GoValue.plain 1, true)) := by
  decide

/-- C10 (amended): for every pool-cache table that is not the nil map `Clean`
leaves, every key, value and finalizer that is `nil` or of a recognised type,
`Store` returns normally and an immediately following `Fetch` of the key returns
`(v, true)`.  When the key had no entries before the `Store`, the key is absent
afterwards, the table is the one before the `Store`, and a further `Fetch`
returns not-found; when it had entries, the key holds exactly those entries
again. -/
theorem pool_store_then_fetch (c : cache) (m : String → Option (List entry)) (k : String)
    (x : GoValue) (f : Finalizer) (now : Int) (hm : c.table = some m)
    (hf : ∀ id, f ≠ Finalizer.other id) :
    ∃ c1 c2, c.Store k x f now = Except.ok c1 ∧ c1.Fetch k = some ((x, true), c2) ∧
      (m k = none →
        c2.table.get k = none ∧ c2.table = c.table ∧
          c2.Fetch k = some ((GoValue.nil, false), c2)) ∧
      (m k = some [] → c2.table.get k = none ∧
          c2.Fetch k = some ((GoValue.nil, false), c2)) ∧
      (∀ t, t ≠ [] → m k = some t → c2.table = c.table) := by
  have hfetch : ∀ (t : List entry) (it : entry), it.value = x →
      ∃ c2, cache.Fetch { c with table := some (Function.update m k (some (t ++ [it]))) } k =
          some ((x, true), c2) ∧
        (t = [] → c2.table = some (Function.update m k none)) ∧
        (t ≠ [] → c2.table = some (Function.update m k (some t))) := by
    intro t it hit
    by_cases ht : t = []
    · subst ht
      refine ⟨{ c with table := some (Function.update m k none) }, ?_, ?_, ?_⟩
      · simp [cache.Fetch, Table.get, Table.delete, hit]
      · intro _
        rfl
      · intro hc
        exact absurd rfl hc
    · refine ⟨{ c with table := some (Function.update m k (some t)) }, ?_, ?_, ?_⟩
      · simp [cache.Fetch, Table.get, Table.set, hit, ht]
      · intro hc
        exact absurd hc ht
      · intro _
        rfl
  have hstore : ∃ it : entry, it.value = x ∧
      c.Store k x f now = Except.ok
        { c with table := some (Function.update m k (some ((m k).getD [] ++ [it]))) } :=
    ⟨_, rfl, cache.Store_ok hm k x now hf⟩
  obtain ⟨it, hit, hst⟩ := hstore
  obtain ⟨c2, hfe, hnil, hcons⟩ := hfetch ((m k).getD []) it hit
  have hupd_none : m k = none → Function.update m k none = m := by
    intro hnone
    funext j
    by_cases hj : j = k
    · subst hj
      rw [Function.update_same, hnone]
    · rw [Function.update_noteq hj]
  refine ⟨_, c2, hst, hfe, ?_, ?_, ?_⟩
  · intro hnone
    have htab : c2.table = some (Function.update m k none) := hnil (by rw [hnone]; rfl)
    have hk : c2.table.get k = none := by
      rw [htab]
      simp [Table.get]
    refine ⟨hk, ?_, ?_⟩
    · rw [htab, hupd_none hnone, hm]
    · simp only [cache.Fetch, hk]
  · intro hempty
    have htab : c2.table = some (Function.update m k none) := hnil (by rw [hempty]; rfl)
    have hk : c2.table.get k = none := by
      rw [htab]
      simp [Table.get]
    exact ⟨hk, by simp only [cache.Fetch, hk]⟩
  · intro t ht htk
    have htab : c2.table = some (Function.update m k (some t)) := by
      have := hcons (by rw [htk]; exact ht)
      rw [htk] at this
      exact this
    rw [htab, hm]
    congr 1
    funext j
    by_cases hj : j = k
    · subst hj
      rw [Function.update_same, htk]
    · rw [Function.update_noteq hj]

/-- Witness of C10 (amended): `TestCache`, `Store("a", 1, nil)` on the empty table. -/
theorem pool_store_then_fetch_witness :
    ∃ c1 c2, (NewCache 0 0).1.Store "a" (GoValue.plain 1) Finalizer.nil 0 = Except.ok c1 ∧
      c1.Fetch "a" = some ((GoValue.plain 1, true), c2) ∧
      c2.table.get "a" = none ∧ c2.table = (NewCache 0 0).1.table ∧
      c2.Fetch "a" = some ((GoValue.nil, false), c2) := by
  obtain ⟨c1, c2, h1, h2, h3, _⟩ :=
    pool_store_then_fetch (NewCache 0 0).1 (fun _ => none) "a" (GoValue.plain 1) Finalizer.nil 0
      rfl (fun _ h => Finalizer.noConfusion h)
  exact ⟨c1, c2, h1, h2, h3 rfl⟩

/-- C18: with default expiration 30, entries `e1, e2, e3` stored under one key at
times 0, 10 and 20 (the first with a finalizer) and a sweep at time 35 (only `e1`
has expired), `Flush` finalizes `e1` and leaves the survivors in the order
`e3, e2`, so that the next `Fetch` returns `e2` and not the most recently stored
survivor `e3`. -/
theorem pool_flush_reorders_survivors :
    ((NewCache 30 1).1.run
        [PoolCall.Store "k" (GoValue.plain 1) (Finalizer.func0 7) 0,
          PoolCall.Store "k" (GoValue.plain 2) Finalizer.nil 10,
          PoolCall.Store "k" (GoValue.plain 3) Finalizer.nil 20]).map
        (fun r => (r.1.table.get "k").map fun t => t.map entry.value) =
      some (some [GoValue.plain 1, GoValue.plain 2, GoValue.plain 3]) ∧
    ((NewCache 30 1).1.run
        [PoolCall.Store "k" (GoValue.plain 1) (Finalizer.func0 7) 0,
          PoolCall.Store "k" (GoValue.plain 2) Finalizer.nil 10,
          PoolCall.Store "k" (GoValue.plain 3) Finalizer.nil 20,
          PoolCall.Flush ["k"] 35]).map
        (fun r => ((r.1.table.get "k").map fun t => t.map entry.value, r.2)) =
      some (some [GoValue.plain 3, GoValue.plain 2],
        [PoolEvent.finalized (FinalizerCall.func0 7)]) ∧
    ((NewCache 30 1).1.run
        [PoolCall.Store "k" (GoValue.plain 1) (Finalizer.func0 7) 0,
          PoolCall.Store "k" (GoValue.plain 2) Finalizer.nil 10,
          PoolCall.Store "k" (GoValue.plain 3) Finalizer.nil 20,
          PoolCall.Flush ["k"] 35, PoolCall.Fetch "k"]).map (fun r => r.2) =
      some [PoolEvent.finalized (FinalizerCall.func0 7),
        PoolEvent.fetched (GoValue.plain 2) true] := by
  decide

/-- C17: on every pool-cache table (the empty and the nil table included) in which
no entry's expiration is before the sweep time, `Flush` returns normally, invokes
no finalizer and leaves the cache as it was: the same keys, each with the same
stack in the same order. -/
theorem pool_flush_noop_when_fresh (c : cache) (order : List String) (now : Int)
    (h : ∀ m k t e, c.table = some m → m k = some t → e ∈ t → now ≤ e.timeExpiration) :
    c.Flush order now = some (c, []) := by
  unfold cache.Flush
  cases hm : c.table with
  | none => rfl
  | some m =>
    have hfresh : ∀ k t e, m k = some t → e ∈ t → e.Expired now = false := by
      intro k t e hk he
      have := h m k t e hm hk he
      simp only [entry.Expired, decide_eq_false_iff_not, not_lt]
      exact this
    simp only [cache.flushKeys_fresh now m hfresh order]
    cases c
    simp only [cache.applyChanged] at hm ⊢
    rw [hm]

/-- Witness of C17: two entries stored at times 0 and 10 with default expiration
30, swept at time 30. -/
theorem pool_flush_noop_when_fresh_witness :
    freshPool.Flush ["a"] 30 = some (freshPool, []) :=
  pool_flush_noop_when_fresh freshPool ["a"] 30 (by
    intro m k t e hm hk he
    simp only [freshPool, Option.some.injEq] at hm
    subst hm
    by_cases hka : k = "a"
    · simp only [hka, if_true, Option.some.injEq] at hk
      subst hk
      simp only [List.mem_cons, List.mem_singleton, List.not_mem_nil, or_false] at he
      rcases he with rfl | rfl <;> decide
    · simp [hka] at hk)

/-- C14: in every pool-cache state reachable from `NewCache` (by `Store`, `Fetch`
and `Flush`, and also `Clean`), no key maps to an empty stack, so a key is
present exactly when its stack is non-empty; `Fetch` of any key returns normally,
and when it reports found it has popped the last element of the key's stack. -/
theorem pool_no_empty_stack (c : cache) (h : PoolReachable c) :
    (∀ m k t, c.table = some m → m k = some t → t ≠ []) ∧
    (∀ k, c.table.get k ≠ none ↔ (c.table.get k).getD [] ≠ []) ∧
    (∀ k, ∃ r, c.Fetch k = some r) ∧
    (∀ k v c1, c.Fetch k = some ((v, true), c1) →
      ∃ t last, c.table.get k = some (t ++ [last]) ∧ v = last.value) := by
  have hne := h.invariants.1
  have hget : ∀ k t, c.table.get k = some t → ∃ m, c.table = some m ∧ m k = some t := by
    intro k t hk
    cases hm : c.table with
    | none => simp [Table.get, hm] at hk
    | some m =>
      simp only [Table.get, hm] at hk
      exact ⟨m, rfl, hk⟩
  refine ⟨hne, ?_, ?_, ?_⟩
  · intro k
    cases hk : c.table.get k with
    | none => simp
    | some t =>
      obtain ⟨m, hm, hmk⟩ := hget k t hk
      simpa using hne m k t hm hmk
  · intro k
    cases hk : c.table.get k with
    | none => exact ⟨_, cache.Fetch_absent hk⟩
    | some t =>
      obtain ⟨m, hm, hmk⟩ := hget k t hk
      obtain ⟨init, last, rfl⟩ := cache.stack_split (hne m k t hm hmk)
      exact ⟨_, cache.Fetch_some hm hmk⟩
  · intro k v c1 hf
    cases hk : c.table.get k with
    | none =>
      rw [cache.Fetch_absent hk] at hf
      simp at hf
    | some t =>
      obtain ⟨m, hm, hmk⟩ := hget k t hk
      obtain ⟨init, last, rfl⟩ := cache.stack_split (hne m k t hm hmk)
      rw [cache.Fetch_some hm hmk] at hf
      simp only [Option.some.injEq, Prod.mk.injEq, and_true] at hf
      exact ⟨init, last, rfl, hf.1.symm⟩

/-- Witness of C14: the cache after two `Store`s and a `Fetch` under one key. -/
theorem pool_no_empty_stack_witness :
    ∃ r, (cache.after 30
      [PoolCall.Store "a" (GoValue.plain 1) Finalizer.nil 0,
        PoolCall.Store "a" (GoValue.plain 2) (Finalizer.func0 1) 5,
        PoolCall.Fetch "a"]).Fetch "a" = some r :=
  (pool_no_empty_stack _ (PoolReachable.after_calls 30 _ (by decide))).2.2.1 "a"

/-- C16, as stated, fails on a cache whose table `Clean` has discarded: there
`Store` with a `nil` finalizer panics too (assignment into the nil map). -/
theorem pool_store_panics_after_clean :
    ((NewCache 0 0).1.Clean []).map
        (fun r => (r.1.table.isNone,
          (r.1.Store "k" (GoValue.plain 1) Finalizer.nil 0).toBool)) =
      some (true, false) := by
  decide

/-- C16 (amended): `Store` panics exactly when the finalizer argument is non-nil
and of no recognised type, or the table is the nil map left by `Clean`; when it
panics the cache is left unchanged.  Hence every entry in a reachable table has
an absent or recognised finalizer, so `Finalize` of such an entry never reaches
`panic("not reachable")`: it fails exactly in the type assertion of a
`func(Value)` finalizer on a value without `Size`, or in the call of a nil
function value. -/
theorem pool_store_panics_iff :
    (∀ (c : cache) (k : String) (x : GoValue) (f : Finalizer) (now : Int),
      ((c.Store k x f now).toBool = false ↔
        (∃ id, f = Finalizer.other id) ∨ c.table = none) ∧
      ∀ c0, c.Store k x f now = Except.error c0 → c0 = c) ∧
    (∀ c : cache, PoolReachable c → ∀ m k t e, c.table = some m → m k = some t → e ∈ t →
      (∀ id, e.finalizer ≠ Finalizer.other id) ∧
      (e.Finalize = none ↔
        (∃ id, e.finalizer = Finalizer.funcValue id ∧ e.value.Size? = none) ∨
          e.finalizer = Finalizer.nilFunc0 ∨ e.finalizer = Finalizer.nilFuncAny ∨
          e.finalizer = Finalizer.nilFuncValue)) := by
  constructor
  · intro c k x f now
    by_cases h : (∃ id, f = Finalizer.other id) ∨ c.table = none
    · rw [cache.Store_error c k x f now h]
      exact ⟨⟨fun _ => h, fun _ => rfl⟩, fun c0 hc => (Except.error.inj hc).symm⟩
    · have hf : ∀ id, f ≠ Finalizer.other id := fun id hc => h (Or.inl ⟨id, hc⟩)
      cases hm : c.table with
      | none => exact absurd (Or.inr hm) h
      | some m =>
        rw [cache.Store_ok hm k x now hf]
        refine ⟨⟨fun hc => ?_, fun hc => ?_⟩, fun c0 hc => ?_⟩
        · simp [Except.toBool] at hc
        · rcases hc with hc | hc
          · exact absurd (Or.inl hc) h
          · cases hc
        · cases hc
  · intro c hreach m k t e hm hk he
    have hacc := hreach.invariants.2 m k t e hm hk he
    refine ⟨hacc, ?_⟩
    unfold entry.Finalize
    cases hf : e.finalizer with
    | nil => simp
    | func0 id => simp
    | funcAny id => simp
    | funcValue id => cases hv : e.value.Size? <;> simp
    | nilFunc0 => simp
    | nilFuncAny => simp
    | nilFuncValue => simp
    | other id => exact absurd hf (hacc id)

/-- Witness of C16 (amended): `Store` with an unrecognised finalizer on the new
cache panics; and in the cache after two `Store`s under one key, the second with
a nil `func()`, `Finalize` of the second entry fails. -/
theorem pool_store_panics_iff_witness :
    ((NewCache 0 0).1.Store "a" (GoValue.plain 1) (Finalizer.other 3) 0).toBool = false ∧
      (entry.mk "" (GoValue.plain 2) 0 Finalizer.nilFunc0 35 0).Finalize = none :=
  ⟨((pool_store_panics_iff.1 (NewCache 0 0).1 "a" (GoValue.plain 1) (Finalizer.other 3) 0).1).mpr
      (Or.inl ⟨3, rfl⟩),
    (pool_store_panics_iff.2
      (cache.after 30
        [PoolCall.Store "a" (GoValue.plain 1) Finalizer.nil 0,
          PoolCall.Store "a" (GoValue.plain 2) Finalizer.nilFunc0 5])
      (PoolReachable.after_calls 30 _ (by decide)) _ "a" _ _ rfl rfl
      (List.mem_cons_of_mem _ (List.mem_singleton_self _))).2.mpr (Or.inr (Or.inl rfl))⟩

/-- C11: on every sequence of `Fetch` calls and accepted `Store` calls applied to
`NewCache`, each `Fetch` returns what the last-in-first-out specification gives:
the value of the most recently stored entry under the key that has not been
fetched yet, whatever the expiration times.  And in every reachable state with a
non-nil table, `n` accepted `Store`s of `v1..vn` under one key followed by `n`
`Fetch`es of that key return `vn, ..., v1`, each found. -/
theorem pool_fetch_is_lifo :
    (∀ (d ci : Int) (calls : List PoolCall), (∀ call ∈ calls, call.isPlain = true) →
      ∃ c1, (NewCache d ci).1.run calls = some (c1, lifoSpec (fun _ => []) calls)) ∧
    (∀ (c : cache) (m : String → Option (List entry)) (k : String)
      (items : List (GoValue × Finalizer × Int)),
      PoolReachable c → c.table = some m → (∀ it ∈ items, it.2.1.recognised = true) →
      ∃ c1, c.run (items.map (fun it => PoolCall.Store k it.1 it.2.1 it.2.2) ++
          List.replicate items.length (PoolCall.Fetch k)) =
        some (c1, items.reverse.map fun it => PoolEvent.fetched it.1 true)) := by
  constructor
  · intro d ci calls hall
    exact cache.run_lifo calls (NewCache d ci).1 (fun _ => none) (PoolReachable.init d ci) rfl hall
  · intro c m k items hreach hm hrec
    have hall : ∀ call ∈ items.map (fun it => PoolCall.Store k it.1 it.2.1 it.2.2) ++
        List.replicate items.length (PoolCall.Fetch k), call.isPlain = true := by
      intro call hcall
      rcases List.mem_append.mp hcall with h | h
      · obtain ⟨it, hit, rfl⟩ := List.mem_map.mp h
        exact hrec it hit
      · rw [(List.mem_replicate.mp h).2]
        rfl
    obtain ⟨c1, hrun⟩ := cache.run_lifo _ c m hreach hm hall
    refine ⟨c1, ?_⟩
    rw [hrun, lifoSpec_stores]
    have hlen : items.length = (items.reverse.map fun it => it.1).length := by simp
    rw [hlen, lifoSpec_fetches k _ (stackValues m k) _ (by simp)]
    simp [List.map_map, Function.comp_def]

/-- Witness of C11: `Store v1`, `Store v2`, then `Fetch` gives `v2` and then `v1`. -/
theorem pool_fetch_is_lifo_witness :
    ∃ c1, (NewCache 0 0).1.run
        [PoolCall.Store "k" (GoValue.plain 1) Finalizer.nil 0,
          PoolCall.Store "k" (GoValue.plain 2) Finalizer.nil 1,
          PoolCall.Fetch "k", PoolCall.Fetch "k"] =
      some (c1, [PoolEvent.fetched (GoValue.plain 2) true,
        PoolEvent.fetched (GoValue.plain 1) true]) :=
  pool_fetch_is_lifo.2 (NewCache 0 0).1 (fun _ => none) "k"
    [(GoValue.plain 1, Finalizer.nil, 0), (GoValue.plain 2, Finalizer.nil, 1)]
    (PoolReachable.init 0 0) rfl (by decide)

/-- C19: in every LRU state whose tracked size is the sum of the entry sizes
modulo `2^64`, whenever the size exceeds the capacity the list is not empty, and
`checkCapacity` returns normally within as many iterations as there are entries
(the loop run with the list length for fuel), leaving the size within capacity.
So in every well-formed state `Set`, `SetIfAbsent` and `SetCapacity` return
normally for all arguments. -/
theorem lru_eviction_safe :
    (∀ s : LRUCache, s.size = toUint64 (s.Items.map Item.Size).sum →
      (s.size > s.capacity → s.list ≠ []) ∧
      ∃ s1, LRUCache.checkCapacityLoop s.list.length s = some s1 ∧
        s.checkCapacity = some s1 ∧ s1.size ≤ s1.capacity ∧
        s1.list.length ≤ s.list.length) ∧
    (∀ s : LRUCache, s.WF → ∀ (key : String) (value : GoValue) (size : Int) (now : Int)
      (capacity : Nat),
      (∃ s1, s.Set key value size now = some s1) ∧
      (∃ s1, s.SetIfAbsent key value size now = some s1) ∧
      (∃ s1, s.SetCapacity capacity = some s1)) := by
  constructor
  · intro s hsz
    rw [s.items_sizes] at hsz
    constructor
    · intro hgt hnil
      rw [hsz, hnil, sumSizes_nil] at hgt
      have h0 : toUint64 0 = 0 := rfl
      rw [h0] at hgt
      omega
    · obtain ⟨s1, hrun, hcap, hlen, _⟩ := LRUCache.checkCapacity_of_size _ s rfl hsz
      exact ⟨s1, hrun, hrun, hcap, hlen⟩
  · intro s hwf key value size now capacity
    obtain ⟨s1, h1, _⟩ := hwf.set key value size now
    obtain ⟨s2, h2, _⟩ := hwf.setIfAbsent key value size now
    obtain ⟨s3, h3, _⟩ := (hwf.setCapacity capacity).checkCapacity
    exact ⟨⟨s1, h1⟩, ⟨s2, h2⟩, ⟨s3, h3⟩⟩

/-- Witness of C19: the cache of capacity 3 holding three entries of size 1, and
a `Set` of size 5 on it. -/
theorem lru_eviction_safe_witness :
    (∃ s1, LRUCache.checkCapacityLoop (LRUCache.after 3 fillThree).list.length
        (LRUCache.after 3 fillThree) = some s1 ∧
      (LRUCache.after 3 fillThree).checkCapacity = some s1 ∧ s1.size ≤ s1.capacity ∧
      s1.list.length ≤ (LRUCache.after 3 fillThree).list.length) ∧
    ∃ s1, (LRUCache.after 3 fillThree).Set "key9" (GoValue.plain 9) 5 7 = some s1 :=
  ⟨(lru_eviction_safe.1 (LRUCache.after 3 fillThree) (by decide)).2,
    (lru_eviction_safe.2 (LRUCache.after 3 fillThree) (Reachable.after 3 fillThree).wf
      "key9" (GoValue.plain 9) 5 7 0).1⟩

/-- C20: in every reachable LRU state `Keys()` contains no key twice, the index
maps a key to a list element exactly when the key occurs in `Keys()`, that
element is linked in the list and holds the entry whose key it is, and `Get`
reports found exactly for the keys in `Keys()`. -/
theorem lru_index_agrees_with_list (s : LRUCache) (h : Reachable s) :
    s.Keys.Nodup ∧
    (∀ k, (∃ e, s.table k = some e) ↔ k ∈ s.Keys) ∧
    (∀ k e, s.table k = some e → e ∈ s.list ∧ (s.heap e).key = k) ∧
    (∀ k now, (s.Get k now).1.2 = true ↔ k ∈ s.Keys) := by
  have hwf := h.wf
  refine ⟨hwf.keys_nodup, fun k => (hwf.mem_keys_iff k).symm, fun k e hk => hwf.mem_of_table hk,
    fun k now => ?_⟩
  rw [hwf.mem_keys_iff]
  cases hk : s.table k with
  | none => simp [LRUCache.Get, hk]
  | some e => simp [LRUCache.Get, hk]

/-- Witness of C20: the cache of capacity 3 after inserting `key1`, `key2`, `key3`. -/
theorem lru_index_agrees_with_list_witness :
    (LRUCache.after 3 fillThree).Keys.Nodup ∧
      (((LRUCache.after 3 fillThree).Get "key2" 9).1.2 = true ↔
        "key2" ∈ (LRUCache.after 3 fillThree).Keys) :=
  ⟨(lru_index_agrees_with_list _ (Reachable.after 3 fillThree)).1,
    (lru_index_agrees_with_list _ (Reachable.after 3 fillThree)).2.2.2 "key2" 9⟩

/-- C15: over every sequence of `Store`, `Fetch`, `Flush` and `Clean` calls on a
new pool cache that runs without a panic, each finalizer call is made at most as
often as the sequence stores an entry finalized by that call: the finalizer of
every stored entry is invoked at most once.  A `Finalize` that returns makes at
most one call and clears the stored finalizer, so a second `Finalize` of the
entry makes no call. -/
theorem pool_finalizer_at_most_once :
    (∀ (d ci : Int) (calls : List PoolCall) (c1 : cache) (evs : List PoolEvent)
      (fc : FinalizerCall), (NewCache d ci).1.validRun calls →
      (NewCache d ci).1.run calls = some (c1, evs) →
      evs.count (PoolEvent.finalized fc) ≤ storesOf fc calls) ∧
    (∀ (e e1 : entry) (cs : List FinalizerCall), e.Finalize = some (e1, cs) →
      cs.length ≤ 1 ∧ e1.finalizer = Finalizer.nil ∧ e1.Finalize = some (e1, [])) := by
  constructor
  · intro d ci calls c1 evs fc hv hrun
    have hp : (NewCache d ci).1.Pending fc 0 :=
      @cache.Pending.mk fc _ _ [] rfl (keyOrder_empty _ fun _ => rfl)
    have := cache.run_pending fc calls _ c1 evs 0 (PoolReachable.init d ci) hp hv hrun
    omega
  · intro e e1 cs h
    obtain ⟨_, h2, _, h4⟩ := finalize_calls e e1 cs h
    refine ⟨?_, h2, h4⟩
    unfold entry.Finalize at h
    cases hf : e.finalizer with
    | nil =>
      simp only [hf, Option.some.injEq, Prod.mk.injEq] at h
      rw [← h.2]
      simp
    | func0 id =>
      simp only [hf, Option.some.injEq, Prod.mk.injEq] at h
      rw [← h.2]
      simp
    | funcAny id =>
      simp only [hf, Option.some.injEq, Prod.mk.injEq] at h
      rw [← h.2]
      simp
    | funcValue id =>
      simp only [hf] at h
      cases hv : e.value.Size? with
      | none => simp [hv] at h
      | some n =>
        simp only [hv, Option.some.injEq, Prod.mk.injEq] at h
        rw [← h.2]
        simp
    | nilFunc0 => simp [hf] at h
    | nilFuncAny => simp [hf] at h
    | nilFuncValue => simp [hf] at h
    | other id => simp [hf] at h

/-- Witness of C15: an entry stored at time 0 with default expiration 30 and a
`func()` finalizer is finalized by the `Flush` at time 31 and not again by the
`Clean` that follows. -/
theorem pool_finalizer_at_most_once_witness :
    ((NewCache 30 1).1.run
        [PoolCall.Store "k" (GoValue.plain 1) (Finalizer.func0 7) 0, PoolCall.Flush ["k"] 31,
          PoolCall.Clean []]).map (fun r => r.2) =
      some [PoolEvent.finalized (FinalizerCall.func0 7)] ∧
    [PoolEvent.finalized (FinalizerCall.func0 7)].count
        (PoolEvent.finalized (FinalizerCall.func0 7)) ≤
      storesOf (FinalizerCall.func0 7)
        [PoolCall.Store "k" (GoValue.plain 1) (Finalizer.func0 7) 0, PoolCall.Flush ["k"] 31,
          PoolCall.Clean []] :=
  ⟨by decide,
    pool_finalizer_at_most_once.1 30 1 _ _ _ (FinalizerCall.func0 7)
      (cache.validRun_cons trivial rfl
        (cache.validRun_cons (fun _ hm => Option.some.inj hm ▸ keyOrder_single "k" _) rfl
          (cache.validRun_cons
            (fun m hm => keyOrder_empty m fun j => by
              have hm2 := Option.some.inj hm
              subst hm2
              by_cases hj : j = "k"
              · subst hj
                rfl
              · simp [cache.applyChanged, Function.update_noteq hj, NewCache, Table.get])
            rfl trivial)))
      rfl⟩

/-- C12: `Store` accepts a `func(Value)` finalizer together with a value that
has no `Size` method; once that entry is expired, the `Flush` sweep reaches the
unchecked assertion of `Finalize`, which panics, so `Flush` removes nothing and
does not return.  Here the entry is stored at time 0 with default expiration 30
and the sweep runs at time 31. -/
theorem pool_flush_panics_on_unassertable_value :
    ((cache.after 30 [PoolCall.Store "k" (GoValue.plain 1) (Finalizer.funcValue 7) 0]).table.get
        "k" =
      some [entry.mk "" (GoValue.plain 1) 0 (Finalizer.funcValue 7) 30 0]) ∧
    (entry.mk "" (GoValue.plain 1) 0 (Finalizer.funcValue 7) 30 0).Expired 31 = true ∧
    ((cache.after 30 [PoolCall.Store "k" (GoValue.plain 1) (Finalizer.funcValue 7) 0]).Flush
        ["k"] 31).isNone = true := by
  decide

/-- C13: `Store` accepts a `func(Value)` finalizer together with a value that
has no `Size` method; `Clean` then reaches the unchecked assertion of
`Finalize`, which panics before the table is discarded, so `Clean` does not
return. -/
theorem pool_clean_panics_on_unassertable_value :
    ((cache.after 30 [PoolCall.Store "k" (GoValue.plain 1) (Finalizer.funcValue 7) 0]).table.get
        "k" =
      some [entry.mk "" (GoValue.plain 1) 0 (Finalizer.funcValue 7) 30 0]) ∧
    ((cache.after 30 [PoolCall.Store "k" (GoValue.plain 1) (Finalizer.funcValue 7) 0]).Clean
        ["k"]).isNone = true := by
  decide

/-- C21: `Store` accepts a `func(Value)` finalizer together with a value that
does not implement `Value`, and `Finalize` of the entry it stores panics in the
unchecked assertion `i.value.(Value)`: on a new cache `Store("k", 1, f)` with `f`
of type `func(Value)` returns normally and stores an entry whose `Finalize` does
not return.  In general, on every table that has not been discarded, `Store`
returns normally for every absent or recognised finalizer, and `Finalize` of the
entry it pushed panics exactly when the finalizer is a `func(Value)` and the
value has no `Size` method, or the finalizer is a nil function value. -/
theorem pool_store_accepts_unfinalizable_entry :
    ((match (NewCache 30 0).1.Store "k" (GoValue.plain 1) (Finalizer.funcValue 7) 0 with
      | Except.ok c1 => (c1.table.get "k").map fun t => t.map fun e => (e, e.Finalize.isNone)
      | Except.error _ => none) =
      some [(entry.mk "" (GoValue.plain 1) 0 (Finalizer.funcValue 7) 30 0, true)]) ∧
    (∀ (c : cache) (m : String → Option (List entry)) (k : String) (x : GoValue)
      (f : Finalizer) (now : Int), c.table = some m → (∀ id, f ≠ Finalizer.other id) →
      ∃ c1 e, c.Store k x f now = Except.ok c1 ∧
        c1.table.get k = some ((m k).getD [] ++ [e]) ∧ e.value = x ∧ e.finalizer = f ∧
        (e.Finalize = none ↔
          ((∃ id, f = Finalizer.funcValue id) ∧ x.Size? = none) ∨
            f = Finalizer.nilFunc0 ∨ f = Finalizer.nilFuncAny ∨
            f = Finalizer.nilFuncValue)) := by
  constructor
  · decide
  · intro c m k x f now hm hf
    refine ⟨_, { value := x, finalizer := f, timeExpiration := now + c.defaultExpiration },
      cache.Store_ok hm k x now hf, ?_, rfl, rfl, ?_⟩
    · simp [Table.get]
    · cases f with
      | nil => simp [entry.Finalize]
      | func0 id => simp [entry.Finalize]
      | funcAny id => simp [entry.Finalize]
      | funcValue id => cases hx : x.Size? <;> simp [entry.Finalize, hx]
      | nilFunc0 => simp [entry.Finalize]
      | nilFuncAny => simp [entry.Finalize]
      | nilFuncValue => simp [entry.Finalize]
      | other id => exact absurd rfl (hf id)

end Cache
